import Mathlib

/-!
Versioned rowset index of a tablet (be/src/storage/tablet.cpp).

A shallow embedding of the non-primary-key path of `starrocks::Tablet`:
the map from versions to rowsets (`_rs_version_map`), the incremental and the
stale maps, and the functions of `tablet.cpp` that read and change them.

Conventions of the embedding.

* `int64_t` values (version numbers, times) are `Int`; the functions embedded
  here only compare them and add one, far from the ends of the 64-bit range.
* `std::unordered_map<Version, RowsetSharedPtr>` is a list of key/value pairs;
  `find`, `erase` and assignment through `operator[]` are `VersionMap.find`,
  `VersionMap.erase` and `VersionMap.assign`.  The iteration order of an
  unordered map is unspecified, the order of the list stands for it.
* A `CHECK` or `LOG(FATAL)` that fires ends the process; the functions that can
  reach one return an `Outcome`, which keeps the state at that point.
  `DCHECK`s are compiled out of release builds and are not embedded.
* `TabletMeta`, `TimestampedVersionTracker` and `RowsetMetaManager` live in other
  files; their member functions are parameters (`TabletMetaApi`, `TrackerApi`,
  `Env`) over abstract state types `M` and `K`.
-/

namespace starrocks

/-! ## Data model -/

/-- Version (storage/olap_common.h): the pair `first`, `second` of a closed
interval of log positions. -/
structure Version where
  first : Int
  second : Int
  deriving DecidableEq, Repr

/-- Modelled from the spec: `Version::contains` of storage/olap_common.h, which
tablet.cpp calls and whose body is in a header outside the sources at hand:
`first <= other.first && second >= other.second`. -/
def Version.contains (self other : Version) : Bool :=
  decide (self.first ≤ other.first) && decide (self.second ≥ other.second)

/-- The data model's `start <= end`. -/
def Version.wellFormed (v : Version) : Prop := v.first ≤ v.second

instance (v : Version) : Decidable v.wellFormed := by
  unfold Version.wellFormed; infer_instance

/-- Two versions overlap when some log position lies in both intervals. -/
def Version.overlaps (a b : Version) : Prop :=
  a.first ≤ a.second ∧ b.first ≤ b.second ∧ a.first ≤ b.second ∧ b.first ≤ a.second

instance (a b : Version) : Decidable (a.overlaps b) := by
  unfold Version.overlaps; infer_instance

/-- The position `i` lies in the interval of `v`. -/
def Version.covers (v : Version) (i : Int) : Prop := v.first ≤ i ∧ i ≤ v.second

instance (v : Version) (i : Int) : Decidable (v.covers i) := by
  unfold Version.covers; infer_instance

/-- OLAPStatus (storage/olap_define.h): the codes tablet.cpp names, and every
other code under `other`. -/
inductive OLAPStatus where
  | OLAP_SUCCESS
  | OLAP_ERR_OTHER_ERROR
  | OLAP_ERR_INPUT_PARAMETER_ERROR
  | OLAP_ERR_PUSH_VERSION_ALREADY_EXIST
  | OLAP_ERR_VERSION_ALREADY_MERGED
  | OLAP_ERR_CAPTURE_ROWSET_ERROR
  | other (code : Int)
  deriving DecidableEq, Repr

/-- RowsetMeta (storage/rowset/rowset_meta.h): the getters tablet.cpp reads. -/
structure RowsetMeta where
  rowset_id : Nat
  version : Version
  version_hash : Int
  creation_time : Int
  is_segments_overlapping : Bool
  is_singleton_delta : Bool
  get_compaction_score : Nat
  deriving DecidableEq, Repr

/-- Rowset (storage/rowset/rowset.h): an immutable rowset, read through its
rowset meta. -/
structure Rowset where
  rowset_meta : RowsetMeta
  deriving DecidableEq, Repr

/-- Getter `rowset->rowset_id()`. -/
def Rowset.rowset_id (r : Rowset) : Nat := r.rowset_meta.rowset_id

/-- Getter `rowset->version()`. -/
def Rowset.version (r : Rowset) : Version := r.rowset_meta.version

/-- Getter `rowset->end_version()`. -/
def Rowset.end_version (r : Rowset) : Int := r.rowset_meta.version.second

/-- Getter `rowset->creation_time()`. -/
def Rowset.creation_time (r : Rowset) : Int := r.rowset_meta.creation_time

/-- The type of `_rs_version_map`, `_inc_rs_version_map` and
`_stale_rs_version_map`. -/
abbrev VersionMap := List (Version × Rowset)

/-- Lookup `m.find(v)`: the rowset under key `v`, if any. -/
def VersionMap.find (m : VersionMap) (v : Version) : Option Rowset :=
  match m with
  | [] => none
  | it :: rest => if it.1 = v then some it.2 else VersionMap.find rest v

/-- Removal `m.erase(v)`. -/
def VersionMap.erase (m : VersionMap) (v : Version) : VersionMap :=
  m.filter (fun it => decide (it.1 ≠ v))

/-- Assignment `m[v] = r`: afterwards `v` is a key, once, and holds `r`. -/
def VersionMap.assign (m : VersionMap) (v : Version) (r : Rowset) : VersionMap :=
  (v, r) :: VersionMap.erase m v

/-- The keys of a map, in iteration order. -/
def VersionMap.keys (m : VersionMap) : List Version := m.map Prod.fst

/-- What the C++ container and the tablet guarantee of a version map: a key
occurs once, and a rowset is stored under its own version. -/
def VersionMap.ok (m : VersionMap) : Prop :=
  (VersionMap.keys m).Nodup ∧ ∀ it ∈ m, it.2.version = it.1

instance (m : VersionMap) : Decidable (VersionMap.ok m) := by
  unfold VersionMap.ok; infer_instance

/-- TabletUpdates (storage/tablet_updates.h), the primary-key path: only its
presence and `max_version()` are read here. -/
structure TabletUpdates where
  max_version : Int
  deriving DecidableEq, Repr

/-- The members of `Tablet` that the embedded functions read or write; `M` is
the state of `TabletMeta`, `K` that of `TimestampedVersionTracker`. -/
structure Tablet (M K : Type) where
  _tablet_meta : M
  _updates : Option TabletUpdates
  _rs_version_map : VersionMap
  _inc_rs_version_map : VersionMap
  _stale_rs_version_map : VersionMap
  _timestamped_version_tracker : K
  _newly_created_rowset_num : Nat
  _cumulative_point : Int

/-- Member functions of TabletMeta (storage/tablet_meta.h) that the embedded
functions call; their bodies are outside the sources at hand. -/
structure TabletMetaApi (M : Type) where
  all_rs_metas : M → List RowsetMeta
  add_rs_meta : M → RowsetMeta → OLAPStatus × M
  modify_rs_metas : M → List RowsetMeta → List RowsetMeta → M
  max_version : M → Version
  version_for_delete_predicate : M → Version → Bool
  acquire_stale_rs_meta_by_version : M → Version → Option RowsetMeta
  delete_stale_rs_meta_by_version : M → Version → M
  save_meta : M → OLAPStatus
  meta_pb_copy : M → M
  delete_rs_meta_by_version : M → Version → M
  remove_delete_predicate_by_version : M → Version → M

/-- TimestampedVersion (storage/version_graph.h): a version of a stale path
and the time it was retired. -/
structure TimestampedVersion where
  version : Version
  create_time : Int
  deriving DecidableEq, Repr

/-- The `timestamped_versions()` of a PathVersionList (storage/version_graph.h):
the versions retired together in one stale path. -/
abbrev PathVersionList := List TimestampedVersion

/-- The type `std::map<int64_t, PathVersionListSharedPtr>` of
`stale_version_path_map`: path ids with their paths, in ascending order of the
ids. -/
abbrev PathMap := List (Int × PathVersionList)

/-- Assignment `m[path_id] = path` into the ordered map: the entry of `path_id`
is replaced, or inserted before the first greater id. -/
def PathMap.assign : PathMap → Int → PathVersionList → PathMap
  | [], path_id, path => [(path_id, path)]
  | it :: rest, path_id, path =>
    if path_id < it.1 then (path_id, path) :: it :: rest
    else if path_id = it.1 then (path_id, path) :: rest
    else it :: PathMap.assign rest path_id path

/-- Member functions of TimestampedVersionTracker (storage/version_graph.h)
that the embedded functions call; their bodies are outside the sources at
hand.  `fetch_and_delete_path_by_id` gives the path and the tracker without
it; the ids it is asked for come from `capture_expired_paths`, the case of an
unknown id (`nullptr`) is left out. -/
structure TrackerApi (K : Type) where
  add_version : K → Version → K
  add_stale_path_version : K → List RowsetMeta → K
  capture_consistent_versions : K → Version → OLAPStatus × List Version
  capture_expired_paths : K → Int → List Int
  fetch_and_delete_path_by_id : K → Int → PathVersionList × K
  recover_versioned_tracker : K → PathMap → K
  construct_versioned_tracker : K → List RowsetMeta → K

/-- The collaborators of a tablet: tablet meta, version tracker, and whether
`RowsetMetaManager::save` of a rowset meta reports ok. -/
structure Env (M K : Type) where
  tm : TabletMetaApi M
  vt : TrackerApi K
  rowset_meta_save_ok : RowsetMeta → Bool

/-- How a call ends: it returns a value and leaves a state, or a `CHECK` /
`LOG(FATAL)` ends the process in a state. -/
inductive Outcome (α σ : Type) where
  | returned (value : α) (state : σ)
  | aborted (state : σ)

/-- The state a call left, however it ended. -/
def Outcome.state {α σ : Type} : Outcome α σ → σ
  | .returned _ s => s
  | .aborted s => s

/-- The value a call returned, if it returned. -/
def Outcome.value {α σ : Type} : Outcome α σ → Option α
  | .returned a _ => some a
  | .aborted _ => none

/-! ## Functions of tablet.cpp -/

section
variable {M K : Type}

/-- Tablet::_contains_version (tablet.cpp 1021-1037): the first key that contains
`version` gives OLAP_ERR_PUSH_VERSION_ALREADY_EXIST. -/
def _contains_version (t : Tablet M K) (version : Version) : OLAPStatus :=
  if t._rs_version_map.any (fun it => it.1.contains version) then
    OLAPStatus.OLAP_ERR_PUSH_VERSION_ALREADY_EXIST
  else
    OLAPStatus.OLAP_SUCCESS

/-- Tablet::_contains_rowset (tablet.cpp 1216-1229), past its `CHECK(!_updates)`. -/
def _contains_rowset (t : Tablet M K) (rowset_id : Nat) : Bool :=
  t._rs_version_map.any (fun version_rowset => decide (version_rowset.2.rowset_id = rowset_id)) ||
    t._inc_rs_version_map.any
      (fun inc_version_rowset => decide (inc_version_rowset.2.rowset_id = rowset_id))

/-- The first loop of Tablet::modify_rowsets (tablet.cpp 246-252): each rowset
of `to_delete` leaves the current map and enters the stale map. -/
def modify_rowsets_delete (cur stale : VersionMap) : List Rowset → VersionMap × VersionMap
  | [] => (cur, stale)
  | rs :: rest =>
    modify_rowsets_delete (VersionMap.erase cur rs.version)
      (VersionMap.assign stale rs.version rs) rest

/-- The second loop of Tablet::modify_rowsets (tablet.cpp 255-261): each rowset
of `to_add` enters the current map and the tracker, and is counted. -/
def modify_rowsets_add (vt : TrackerApi K) (cur : VersionMap) (trk : K) (num : Nat) :
    List Rowset → VersionMap × K × Nat
  | [] => (cur, trk, num)
  | rs :: rest =>
    modify_rowsets_add vt (VersionMap.assign cur rs.version rs) (vt.add_version trk rs.version)
      (num + 1) rest

/-- Tablet::modify_rowsets (tablet.cpp 238-267). -/
def modify_rowsets (env : Env M K) (t : Tablet M K) (to_add to_delete : List Rowset) :
    Outcome Unit (Tablet M K) :=
  if t._updates.isSome then Outcome.aborted t
  else
    let rs_metas_to_delete := to_delete.map Rowset.rowset_meta
    let d := modify_rowsets_delete t._rs_version_map t._stale_rs_version_map to_delete
    let rs_metas_to_add := to_add.map Rowset.rowset_meta
    let a := modify_rowsets_add env.vt d.1 t._timestamped_version_tracker
      t._newly_created_rowset_num to_add
    Outcome.returned ()
      { t with
        _rs_version_map := a.1
        _stale_rs_version_map := d.2
        _newly_created_rowset_num := a.2.2
        _tablet_meta := env.tm.modify_rs_metas t._tablet_meta rs_metas_to_add rs_metas_to_delete
        _timestamped_version_tracker :=
          env.vt.add_stale_path_version a.2.1 rs_metas_to_delete }

/-- The loop of Tablet::add_rowset (tablet.cpp 219-226): the rowsets of the
current map whose key the new version contains and differs from. -/
def add_rowset_rowsets_to_delete (cur : VersionMap) (version : Version) : List Rowset :=
  (cur.filter (fun it => version.contains it.1 && decide (version ≠ it.1))).map Prod.snd

/-- Tablet::add_rowset (tablet.cpp 200-236). -/
def add_rowset (env : Env M K) (t : Tablet M K) (rowset : Rowset) (need_persist : Bool) :
    Outcome OLAPStatus (Tablet M K) :=
  if t._updates.isSome then Outcome.aborted t
  else if _contains_rowset t rowset.rowset_id then Outcome.returned OLAPStatus.OLAP_SUCCESS t
  else
    let st := _contains_version t rowset.version
    if st ≠ OLAPStatus.OLAP_SUCCESS then Outcome.returned st t
    else
      let r := env.tm.add_rs_meta t._tablet_meta rowset.rowset_meta
      let t1 := { t with _tablet_meta := r.2 }
      if r.1 ≠ OLAPStatus.OLAP_SUCCESS then Outcome.returned r.1 t1
      else
        let t2 := { t1 with
          _rs_version_map := VersionMap.assign t1._rs_version_map rowset.version rowset
          _timestamped_version_tracker :=
            env.vt.add_version t1._timestamped_version_tracker rowset.version }
        let rowsets_to_delete := add_rowset_rowsets_to_delete t2._rs_version_map rowset.version
        match modify_rowsets env t2 [] rowsets_to_delete with
        | Outcome.aborted s => Outcome.aborted s
        | Outcome.returned _ t3 =>
          if need_persist && !env.rowset_meta_save_ok rowset.rowset_meta then Outcome.aborted t3
          else
            Outcome.returned OLAPStatus.OLAP_SUCCESS
              { t3 with _newly_created_rowset_num := t3._newly_created_rowset_num + 1 }

/-- Tablet::get_rowset_by_version (tablet.cpp 271-278); `none` is `nullptr`. -/
def get_rowset_by_version (t : Tablet M K) (version : Version) : Option Rowset :=
  VersionMap.find t._rs_version_map version

/-- Tablet::list_versions (tablet.cpp 580-588): the keys, in iteration order. -/
def list_versions (t : Tablet M K) : List Version :=
  VersionMap.keys t._rs_version_map

/-- The versions `Version(i, i)` that a loop `for (i = lo; i < hi; ++i)` emits. -/
def unit_versions (lo hi : Int) : List Version :=
  (List.range (hi - lo).toNat).map (fun (k : Nat) => Version.mk (lo + k) (lo + k))

/-- The two loops of Tablet::calc_missed_versions_unlocked (tablet.cpp 815-829)
over the sorted versions, as the list of what they append to
`missed_versions`: a rowset version emits the positions between `last_version`
and its start, then either ends the first loop (`break`), so that the last
loop emits from its end up to `spec_version`, or hands its end on as
`last_version`. -/
def calc_missed_versions_walk (spec_version : Int) : List Version → Int → List Version
  | [], last_version => unit_versions (last_version + 1) (spec_version + 1)
  | version :: rest, last_version =>
    (if version.first > last_version + 1 then unit_versions (last_version + 1) version.first
      else []) ++
      (if version.second ≥ spec_version then
        unit_versions (version.second + 1) (spec_version + 1)
      else calc_missed_versions_walk spec_version rest version.second)

/-- The sort of the existing versions (tablet.cpp 809-812): `std::list::sort`
is stable, and the stable sort by `a.first < b.first` is the insertion sort
by `a.first <= b.first`. -/
def sort_existing_versions (existing_versions : List Version) : List Version :=
  existing_versions.insertionSort (fun a b => a.first ≤ b.first)

/-- Tablet::calc_missed_versions_unlocked (tablet.cpp 801-830): what it appends
to `missed_versions`. -/
def calc_missed_versions_unlocked (tm : TabletMetaApi M) (t : Tablet M K) (spec_version : Int) :
    List Version :=
  let existing_versions := (tm.all_rs_metas t._tablet_meta).map RowsetMeta.version
  calc_missed_versions_walk spec_version (sort_existing_versions existing_versions) (-1)

/-- Tablet::capture_consistent_versions (tablet.cpp 541-563): the status and
the version path the tracker wrote. -/
def capture_consistent_versions (env : Env M K) (t : Tablet M K) (spec_version : Version) :
    OLAPStatus × List Version :=
  if t._updates.isSome then (OLAPStatus.OLAP_ERR_OTHER_ERROR, [])
  else
    let r := env.vt.capture_consistent_versions t._timestamped_version_tracker spec_version
    if r.1 ≠ OLAPStatus.OLAP_SUCCESS then
      let missed_versions := calc_missed_versions_unlocked env.tm t spec_version.second
      if missed_versions.isEmpty then (OLAPStatus.OLAP_ERR_VERSION_ALREADY_MERGED, r.2)
      else (r.1, r.2)
    else (r.1, r.2)

/-- Getter `rs_meta->start_version()`. -/
def RowsetMeta.start_version (rs_meta : RowsetMeta) : Int := rs_meta.version.first

/-- Getter `rs_meta->end_version()`. -/
def RowsetMeta.end_version (rs_meta : RowsetMeta) : Int := rs_meta.version.second

/-- Modelled from the spec: `Tablet::kInvalidCumulativePoint`, a constant of
storage/tablet.h, outside the sources at hand: the value -1 of a cumulative
point that is not set. -/
def kInvalidCumulativePoint : Int := -1

/-- The sort in Tablet::_max_continuous_version_from_beginning_unlocked
(tablet.cpp 847-851), by `left.first.first < right.first.first`.  `std::sort`
leaves the order of pairs with equal starts open; here they keep their
order. -/
def sort_existing_version_pairs (existing_versions : List (Version × Int)) :
    List (Version × Int) :=
  existing_versions.insertionSort (fun left right => left.1.first ≤ right.1.first)

/-- The loop of Tablet::_max_continuous_version_from_beginning_unlocked
(tablet.cpp 853-858). -/
def max_continuous_version_loop : List (Version × Int) → Version → Version
  | [], max_continuous_version => max_continuous_version
  | existing_version :: rest, max_continuous_version =>
    if existing_version.1.first > max_continuous_version.second + 1 then max_continuous_version
    else max_continuous_version_loop rest existing_version.1

/-- Tablet::_max_continuous_version_from_beginning_unlocked (tablet.cpp 837-860). -/
def _max_continuous_version_from_beginning_unlocked (tm : TabletMetaApi M) (t : Tablet M K) :
    Version :=
  match t._updates with
  | some updates => Version.mk 0 updates.max_version
  | none =>
    let existing_versions :=
      (tm.all_rs_metas t._tablet_meta).map (fun rs => (rs.version, rs.version_hash))
    max_continuous_version_loop (sort_existing_version_pairs existing_versions) (Version.mk (-1) 0)

/-- The sort of the rowset metas in Tablet::calculate_cumulative_point
(tablet.cpp 876-879): the stable `std::list::sort` by
`a->version().first < b->version().first`. -/
def sort_existing_rss (existing_rss : List RowsetMeta) : List RowsetMeta :=
  existing_rss.insertionSort (fun a b => a.version.first ≤ b.version.first)

/-- The loop of Tablet::calculate_cumulative_point (tablet.cpp 881-897):
`cumulative_point` is `_cumulative_point` so far, the result is its value when
the loop ends. -/
def calculate_cumulative_point_loop (is_delete : Version → Bool) :
    List RowsetMeta → Int → Int → Int
  | [], _, cumulative_point => cumulative_point
  | rs :: rest, prev_version, cumulative_point =>
    if rs.version.first > prev_version + 1 then cumulative_point
    else if rs.is_segments_overlapping || (rs.is_singleton_delta && !is_delete rs.version) then
      rs.version.first
    else calculate_cumulative_point_loop is_delete rest rs.version.second (rs.version.second + 1)

/-- Tablet::calculate_cumulative_point (tablet.cpp 862-898). -/
def calculate_cumulative_point (tm : TabletMetaApi M) (t : Tablet M K) : Tablet M K :=
  if t._cumulative_point ≠ kInvalidCumulativePoint then t
  else
    { t with
      _cumulative_point :=
        calculate_cumulative_point_loop (tm.version_for_delete_predicate t._tablet_meta)
          (sort_existing_rss (tm.all_rs_metas t._tablet_meta)) (-1) t._cumulative_point }

/-- The loop shared by Tablet::calc_cumulative_compaction_score and
Tablet::calc_base_compaction_score (tablet.cpp 741-751, 761-771): `skip` is the
test before `continue`; `score` is a `uint32_t`. -/
def compaction_score_loop (skip : RowsetMeta → Bool) : List RowsetMeta → Nat → Bool → Nat × Bool
  | [], score, base_rowset_exist => (score, base_rowset_exist)
  | rs_meta :: rest, score, base_rowset_exist =>
    let base_rowset_exist := if rs_meta.start_version = 0 then true else base_rowset_exist
    if skip rs_meta then compaction_score_loop skip rest score base_rowset_exist
    else
      compaction_score_loop skip rest ((score + rs_meta.get_compaction_score) % 2 ^ 32)
        base_rowset_exist

/-- Tablet::calc_cumulative_compaction_score (tablet.cpp 737-755);
`cumulative_layer_point()` is the getter of `_cumulative_point`. -/
def calc_cumulative_compaction_score (tm : TabletMetaApi M) (t : Tablet M K) : Nat :=
  let point := t._cumulative_point
  let r := compaction_score_loop (fun rs_meta => decide (rs_meta.start_version < point))
    (tm.all_rs_metas t._tablet_meta) 0 false
  if r.2 then r.1 else 0

/-- Tablet::calc_base_compaction_score (tablet.cpp 757-774). -/
def calc_base_compaction_score (tm : TabletMetaApi M) (t : Tablet M K) : Nat :=
  let point := t._cumulative_point
  let r := compaction_score_loop (fun rs_meta => decide (rs_meta.start_version ≥ point))
    (tm.all_rs_metas t._tablet_meta) 0 false
  if r.2 then r.1 else 0

/-- The loop of Tablet::pick_candicate_rowsets_to_cumulative_compaction
(tablet.cpp 1051-1055) over the entries of the current map. -/
def pick_cumulative_loop (cumulative_point skip_window_sec now : Int) :
    VersionMap → List Rowset → List Rowset
  | [], candidate_rowsets => candidate_rowsets
  | it :: rest, candidate_rowsets =>
    if decide (it.1.first ≥ cumulative_point) &&
        decide (it.2.creation_time + skip_window_sec < now) then
      pick_cumulative_loop cumulative_point skip_window_sec now rest (candidate_rowsets ++ [it.2])
    else pick_cumulative_loop cumulative_point skip_window_sec now rest candidate_rowsets

/-- Tablet::pick_candicate_rowsets_to_cumulative_compaction (tablet.cpp
1047-1056): `now` is what `UnixSeconds()` gave, the result is
`candidate_rowsets` after the call. -/
def pick_candicate_rowsets_to_cumulative_compaction (t : Tablet M K)
    (skip_window_sec now : Int) (candidate_rowsets : List Rowset) : List Rowset :=
  pick_cumulative_loop t._cumulative_point skip_window_sec now t._rs_version_map
    candidate_rowsets

/-- The loop of Tablet::pick_candicate_rowsets_to_base_compaction (tablet.cpp
1060-1064). -/
def pick_base_loop (cumulative_point : Int) : VersionMap → List Rowset → List Rowset
  | [], candidate_rowsets => candidate_rowsets
  | it :: rest, candidate_rowsets =>
    if it.1.first < cumulative_point then
      pick_base_loop cumulative_point rest (candidate_rowsets ++ [it.2])
    else pick_base_loop cumulative_point rest candidate_rowsets

/-- Tablet::pick_candicate_rowsets_to_base_compaction (tablet.cpp 1058-1065). -/
def pick_candicate_rowsets_to_base_compaction (t : Tablet M K)
    (candidate_rowsets : List Rowset) : List Rowset :=
  pick_base_loop t._cumulative_point t._rs_version_map candidate_rowsets

/-- Tablet::rowset_with_max_version (tablet.cpp 297-309): `some none` is
`nullptr`; the result is `none` when the max version of tablet meta is no key
of the current map, where the code dereferences `end()`. -/
def rowset_with_max_version (tm : TabletMetaApi M) (t : Tablet M K) : Option (Option Rowset) :=
  let max_version := tm.max_version t._tablet_meta
  if max_version.first = -1 then some none
  else if t._updates.isSome then some none
  else
    match VersionMap.find t._rs_version_map max_version with
    | none => none
    | some rowset => some (some rowset)

/-- Tablet::can_do_compaction (tablet.cpp 722-735); `none` as in
`rowset_with_max_version`. -/
def can_do_compaction (env : Env M K) (t : Tablet M K) : Option Bool :=
  match rowset_with_max_version env.tm t with
  | none => none
  | some none => some false
  | some (some lastest_delta) =>
    let test_version := Version.mk 0 lastest_delta.end_version
    if OLAPStatus.OLAP_SUCCESS ≠ (capture_consistent_versions env t test_version).1 then
      some false
    else some true

end

/-- The maps `add_rowset` leaves once the rowset passed the id and version
checks and tablet meta accepted it. -/
def add_rowset_maps (t_cur t_stale : VersionMap) (rowset : Rowset) : VersionMap × VersionMap :=
  modify_rowsets_delete (VersionMap.assign t_cur rowset.version rowset) t_stale
    (add_rowset_rowsets_to_delete (VersionMap.assign t_cur rowset.version rowset) rowset.version)

/-- Invariant 1 of the data model: no two distinct keys of a version map
overlap. -/
def no_overlapping_keys (m : VersionMap) : Prop :=
  ∀ a ∈ VersionMap.keys m, ∀ b ∈ VersionMap.keys m, a ≠ b → ¬ a.overlaps b

instance (m : VersionMap) : Decidable (no_overlapping_keys m) := by
  unfold no_overlapping_keys; infer_instance

/-- A caller that adds rowsets one after the other, each with its persist
flag, and goes on as long as `add_rowset` returns OLAP_SUCCESS: the state after
the last call, or `none` once a call returned an error or ended the
process. -/
def add_rowsets {M K : Type} (env : Env M K) : Tablet M K → List (Rowset × Bool) →
    Option (Tablet M K)
  | t, [] => some t
  | t, call :: rest =>
    match add_rowset env t call.1 call.2 with
    | Outcome.returned OLAPStatus.OLAP_SUCCESS t1 => add_rowsets env t1 rest
    | _ => none

/-- The versions in ascending order, each ending before the next starts. -/
def ascending_disjoint (l : List Version) : Prop :=
  l.Pairwise (fun a b => a.second < b.first) ∧ ∀ x ∈ l, x.first ≤ x.second

instance (l : List Version) : Decidable (ascending_disjoint l) := by
  unfold ascending_disjoint; infer_instance

/-- The test of Tablet::calculate_cumulative_point (tablet.cpp 888-890) on a
rowset: its segments overlap, or it is a singleton delta without a delete
predicate. -/
def stops_cumulative_point (is_delete : Version → Bool) (rs : RowsetMeta) : Bool :=
  rs.is_segments_overlapping || (rs.is_singleton_delta && !is_delete rs.version)

/-- The chain of the specification, from the position `start`: a sequence of
rowsets of `metas` in which the first starts at `start` and each next one at
the end of the one before plus one, and that cannot be prolonged. -/
def is_chain_from (metas : List RowsetMeta) : Int → List RowsetMeta → Bool
  | start, [] => metas.all (fun rs => decide (rs.version.first ≠ start))
  | start, rs :: rest =>
    decide (rs ∈ metas) && decide (rs.version.first = start) &&
      is_chain_from metas (rs.version.second + 1) rest

/-- The cumulative point the specification reads off a chain: the start of its
first rowset that stops the point, and without such a rowset the end of its
last rowset plus one. -/
def chain_cumulative_point (is_delete : Version → Bool) (chain : List RowsetMeta) : Option Int :=
  match chain.find? (stops_cumulative_point is_delete) with
  | some rs => some rs.version.first
  | none => chain.getLast?.map (fun rs => rs.version.second + 1)

/-- The entries of `config` (common/config.h) that the sweep of stale rowsets
reads. -/
structure Config where
  tablet_rowset_stale_sweep_time_sec : Int
  ignore_rowset_stale_unconsistent_delete : Bool

/-- The tablet during Tablet::delete_expired_stale_rowset, together with what
the sweep hands to its collaborators: the rowsets given to
`StorageEngine::add_unused_rowset`, the path maps given to
`recover_versioned_tracker`, each in the order of the calls, and whether the
warning "rowset stale unconsistent delete" was logged. -/
structure Sweep (M K : Type) where
  tablet : Tablet M K
  unused_rowsets : List Rowset
  recover_calls : List PathMap
  unconsistent_delete_warned : Bool

/-- The ids of the paths in a path map. -/
def PathMap.keys (m : PathMap) : List Int := m.map Prod.fst

/-- The versions of all the paths in a path map. -/
def PathMap.versions (m : PathMap) : List Version :=
  m.flatMap (fun it => it.2.map TimestampedVersion.version)

/-- The comparison of two lists of missed versions in
Tablet::delete_expired_stale_rowset (tablet.cpp 456-465 and 481-490): the sizes
differ, or the versions at some index do. -/
def missed_versions_differ (missed_versions after_missed_versions : List Version) : Bool :=
  decide (missed_versions.length ≠ after_missed_versions.length) ||
    (List.zip missed_versions after_missed_versions).any (fun p => decide (p.1 ≠ p.2))

section
variable {M K : Type}

/-- Tablet::_delete_stale_rowset_by_version (tablet.cpp 367-374). -/
def _delete_stale_rowset_by_version (tm : TabletMetaApi M) (t : Tablet M K) (version : Version) :
    Tablet M K :=
  match tm.acquire_stale_rs_meta_by_version t._tablet_meta version with
  | none => t
  | some _ =>
    { t with _tablet_meta := tm.delete_stale_rs_meta_by_version t._tablet_meta version }

/-- The call `recover_versioned_tracker(stale_version_path_map)` of the sweep. -/
def sweep_recover_tracker (vt : TrackerApi K) (s : Sweep M K) (stale_version_path_map : PathMap) :
    Sweep M K :=
  { s with
    tablet := { s.tablet with
      _timestamped_version_tracker :=
        vt.recover_versioned_tracker s.tablet._timestamped_version_tracker
          stale_version_path_map }
    recover_calls := s.recover_calls ++ [stale_version_path_map] }

/-- How the `while` loop of the consistency check (tablet.cpp 436-504) ends:
every tentative removal passed the check, or the check failed after one; with
the tracker and the `stale_version_path_map` at that point. -/
inductive SweepCheck (K : Type) where
  | consistent (tracker : K) (stale_version_path_map : PathMap)
  | inconsistent (tracker : K) (stale_version_path_map : PathMap)

/-- The `while` loop of the consistency check (tablet.cpp 436-504) up to the
test of `status`: each path is fetched from the tracker and put in
`stale_version_path_map`, then `capture_consistent_versions` of
[0, end of the max version rowset] is tried. -/
def sweep_check (env : Env M K) (t : Tablet M K) (lastest_delta : Rowset) :
    K → PathMap → List Int → SweepCheck K
  | tracker, stale_version_path_map, [] => SweepCheck.consistent tracker stale_version_path_map
  | tracker, stale_version_path_map, path_id :: rest =>
    let fetched := env.vt.fetch_and_delete_path_by_id tracker path_id
    let test_version := Version.mk 0 lastest_delta.end_version
    let stale_version_path_map := PathMap.assign stale_version_path_map path_id fetched.1
    let status := (capture_consistent_versions env
      { t with _timestamped_version_tracker := fetched.2 } test_version).1
    if status ≠ OLAPStatus.OLAP_SUCCESS then
      SweepCheck.inconsistent fetched.2 stale_version_path_map
    else sweep_check env t lastest_delta fetched.2 stale_version_path_map rest

/-- The branch of the sweep after a failed check (tablet.cpp 444-502): the
paths are recovered and the missed versions compared, if need be twice; the
sweep returns, or ends the process at `LOG(FATAL)`. -/
def sweep_recover (env : Env M K) (cfg : Config) (missed_versions : List Version)
    (lastest_delta : Rowset) (s : Sweep M K) (stale_version_path_map : PathMap) :
    Outcome Unit (Sweep M K) :=
  let s1 := sweep_recover_tracker env.vt s stale_version_path_map
  let after_missed_versions :=
    calc_missed_versions_unlocked env.tm s1.tablet lastest_delta.end_version
  let is_missng := missed_versions_differ missed_versions after_missed_versions
  if is_missng then
    let s2 := sweep_recover_tracker env.vt s1 stale_version_path_map
    let recover_missed_versions :=
      calc_missed_versions_unlocked env.tm s2.tablet lastest_delta.end_version
    let is_recover_missng := missed_versions_differ missed_versions recover_missed_versions
    if is_recover_missng then
      if !cfg.ignore_rowset_stale_unconsistent_delete then Outcome.aborted s2
      else Outcome.returned () { s2 with unconsistent_delete_warned := true }
    else Outcome.returned () s2
  else Outcome.returned () s1

/-- The loop over the versions of one path (tablet.cpp 513-528): a version
found in the stale map has its rowset handed to the reclaimer and is erased;
its stale rowset meta is deleted from tablet meta. -/
def sweep_delete_versions (tm : TabletMetaApi M) : Sweep M K → PathVersionList → Sweep M K
  | s, [] => s
  | s, timestampedVersion :: rest =>
    let s1 : Sweep M K :=
      match VersionMap.find s.tablet._stale_rs_version_map timestampedVersion.version with
      | some rowset =>
        { s with
          unused_rowsets := s.unused_rowsets ++ [rowset]
          tablet := { s.tablet with
            _stale_rs_version_map :=
              VersionMap.erase s.tablet._stale_rs_version_map timestampedVersion.version } }
      | none => s
    sweep_delete_versions tm
      { s1 with tablet := _delete_stale_rowset_by_version tm s1.tablet timestampedVersion.version }
      rest

/-- The loop over `stale_version_path_map` (tablet.cpp 510-530). -/
def sweep_delete_paths (tm : TabletMetaApi M) : Sweep M K → PathMap → Sweep M K
  | s, [] => s
  | s, to_delete :: rest => sweep_delete_paths tm (sweep_delete_versions tm s to_delete.2) rest

/-- Tablet::delete_expired_stale_rowset (tablet.cpp 402-539), built without
`BE_TEST`; `now` is what `UnixSeconds()` gave.  The end time of the sweep is
computed in `double` by the code and is the exact difference here.  On an
updatable tablet the call is handed to `_updates`, which leaves the members
embedded here as they are.  The result is `none` where
`rowset_with_max_version` is. -/
def delete_expired_stale_rowset (env : Env M K) (cfg : Config) (now : Int) (t : Tablet M K) :
    Option (Outcome Unit (Sweep M K)) :=
  let s : Sweep M K :=
    { tablet := t, unused_rowsets := [], recover_calls := [], unconsistent_delete_warned := false }
  let expired_stale_sweep_endtime := now - cfg.tablet_rowset_stale_sweep_time_sec
  if t._updates.isSome then some (Outcome.returned () s)
  else
    let path_id_vec :=
      env.vt.capture_expired_paths t._timestamped_version_tracker expired_stale_sweep_endtime
    if path_id_vec.isEmpty then some (Outcome.returned () s)
    else
      match rowset_with_max_version env.tm t with
      | none => none
      | some none => some (Outcome.returned () s)
      | some (some lastest_delta) =>
        let missed_versions :=
          calc_missed_versions_unlocked env.tm t lastest_delta.end_version
        match sweep_check env t lastest_delta t._timestamped_version_tracker [] path_id_vec with
        | SweepCheck.inconsistent tracker stale_version_path_map =>
          some (sweep_recover env cfg missed_versions lastest_delta
            { s with tablet := { t with _timestamped_version_tracker := tracker } }
            stale_version_path_map)
        | SweepCheck.consistent tracker stale_version_path_map =>
          let s1 := sweep_delete_paths env.tm
            { s with tablet := { t with _timestamped_version_tracker := tracker } }
            stale_version_path_map
          if env.tm.save_meta s1.tablet._tablet_meta ≠ OLAPStatus.OLAP_SUCCESS then
            some (Outcome.aborted s1)
          else some (Outcome.returned () s1)

end

/-- TTabletInfo (gen_cpp/MasterService): the optional fields that
Tablet::build_tablet_report_info computes from the members embedded here;
`none` is a field that is not set.  The ids, counts and sizes that it copies
from getters of tablet meta and of the data dir are left out. -/
structure TTabletInfo where
  version_miss : Option Bool
  used : Option Bool
  version : Option Int
  version_hash : Option Int
  deriving DecidableEq, Repr

/-- What Tablet::revise_tablet_meta leaves: the tablet, and the rowsets it
handed to `StorageEngine::add_unused_rowset`, in the order of the calls. -/
structure Revised (M K : Type) where
  tablet : Tablet M K
  unused_rowsets : List Rowset

section
variable {M K : Type}

/-- Tablet::build_tablet_report_info (tablet.cpp 1231-1266), on the fields of
`TTabletInfo` kept here; `tablet_state_running` is
`tablet_state() == TABLET_RUNNING`.  On an updatable tablet the fields are
filled by `_updates->get_tablet_info_extra`, which is not embedded: they are
left as they are.  The result is `none` where `rowset_with_max_version` is. -/
def build_tablet_report_info (tm : TabletMetaApi M) (t : Tablet M K)
    (tablet_state_running : Bool) (tablet_info : TTabletInfo) : Option TTabletInfo :=
  match t._updates with
  | some _ => some tablet_info
  | none =>
    let version := _max_continuous_version_from_beginning_unlocked tm t
    match rowset_with_max_version tm t with
    | none => none
    | some max_rowset =>
      let tablet_info1 :=
        match max_rowset with
        | some max_rowset =>
          if max_rowset.version ≠ version then { tablet_info with version_miss := some true }
          else tablet_info
        | none =>
          if tablet_state_running then { tablet_info with used := some false } else tablet_info
      some { tablet_info1 with version := some version.second, version_hash := some 0 }

/-- Tablet::_capture_consistent_rowsets_unlocked (tablet.cpp 604-632): the
status and `rowsets` after the call. -/
def _capture_consistent_rowsets_unlocked (t : Tablet M K) :
    List Version → List Rowset → OLAPStatus × List Rowset
  | [], rowsets => (OLAPStatus.OLAP_SUCCESS, rowsets)
  | version :: rest, rowsets =>
    match VersionMap.find t._rs_version_map version with
    | some rowset => _capture_consistent_rowsets_unlocked t rest (rowsets ++ [rowset])
    | none =>
      match VersionMap.find t._stale_rs_version_map version with
      | some rowset => _capture_consistent_rowsets_unlocked t rest (rowsets ++ [rowset])
      | none => (OLAPStatus.OLAP_ERR_CAPTURE_ROWSET_ERROR, rowsets)

/-- The loop of Tablet::revise_tablet_meta over `versions_to_delete` on the new
tablet meta (tablet.cpp 145-152). -/
def revise_delete_rs_metas (tm : TabletMetaApi M) : M → List Version → M
  | new_tablet_meta, [] => new_tablet_meta
  | new_tablet_meta, version :: rest =>
    let m1 := tm.delete_rs_meta_by_version new_tablet_meta version
    let m2 :=
      if tm.version_for_delete_predicate m1 version then
        tm.remove_delete_predicate_by_version m1 version
      else m1
    revise_delete_rs_metas tm m2 rest

/-- The loop of Tablet::revise_tablet_meta over `rowsets_to_clone` on the new
tablet meta (tablet.cpp 154-156); the status of `add_rs_meta` is not read. -/
def revise_add_rs_metas (tm : TabletMetaApi M) : M → List RowsetMeta → M
  | new_tablet_meta, [] => new_tablet_meta
  | new_tablet_meta, rs_meta :: rest =>
    revise_add_rs_metas tm (tm.add_rs_meta new_tablet_meta rs_meta).2 rest

/-- The loop of Tablet::revise_tablet_meta over `versions_to_delete` on the
current map (tablet.cpp 168-173): the rowset found goes to the reclaimer and
leaves the map; `none` when a version is no key, where the code dereferences
`end()`. -/
def revise_erase_versions : VersionMap → List Rowset → List Version →
    Option (VersionMap × List Rowset)
  | rs_version_map, unused_rowsets, [] => some (rs_version_map, unused_rowsets)
  | rs_version_map, unused_rowsets, version :: rest =>
    match VersionMap.find rs_version_map version with
    | none => none
    | some rowset =>
      revise_erase_versions (VersionMap.erase rs_version_map version)
        (unused_rowsets ++ [rowset]) rest

/-- The loop of Tablet::revise_tablet_meta that creates the cloned rowsets
(tablet.cpp 179-189): `create_rowset` is the status of
`RowsetFactory::create_rowset`, and the rowset it creates is the rowset of
`rs_meta`; the result is `res`, the current map, and whether the loop went to
its end (it returns from the function at the first rowset that cannot be
created). -/
def revise_clone_rowsets (create_rowset : RowsetMeta → OLAPStatus) :
    VersionMap → OLAPStatus → List RowsetMeta → OLAPStatus × VersionMap × Bool
  | rs_version_map, res, [] => (res, rs_version_map, true)
  | rs_version_map, _, rs_meta :: rest =>
    let version := Version.mk rs_meta.start_version rs_meta.end_version
    let res := create_rowset rs_meta
    if res ≠ OLAPStatus.OLAP_SUCCESS then (res, rs_version_map, false)
    else
      revise_clone_rowsets create_rowset
        (VersionMap.assign rs_version_map version (Rowset.mk rs_meta)) res rest

/-- Tablet::revise_tablet_meta (tablet.cpp 126-198): the status, the tablet and
the rowsets handed to the reclaimer.  The `break` after a failed `save_meta`
leaves the `do ... while (0)` block, and the loops below the block run; the
tablet schema that the new tablet meta shares with the old one is not
embedded.  The result is `none` when a version to delete is no key of the
current map. -/
def revise_tablet_meta (env : Env M K) (create_rowset : RowsetMeta → OLAPStatus)
    (t : Tablet M K) (rowsets_to_clone : List RowsetMeta) (versions_to_delete : List Version) :
    Option (OLAPStatus × Revised M K) :=
  if t._updates.isSome then
    some (OLAPStatus.OLAP_ERR_OTHER_ERROR, { tablet := t, unused_rowsets := [] })
  else
    let new_tablet_meta := revise_add_rs_metas env.tm
      (revise_delete_rs_metas env.tm (env.tm.meta_pb_copy t._tablet_meta) versions_to_delete)
      rowsets_to_clone
    let res := env.tm.save_meta new_tablet_meta
    let tablet_meta := if res ≠ OLAPStatus.OLAP_SUCCESS then t._tablet_meta else new_tablet_meta
    match revise_erase_versions t._rs_version_map [] versions_to_delete with
    | none => none
    | some erased =>
      let unused_rowsets := erased.2 ++ t._inc_rs_version_map.map Prod.snd
      let cloned := revise_clone_rowsets create_rowset erased.1 res rowsets_to_clone
      let t1 : Tablet M K :=
        { t with
          _tablet_meta := tablet_meta
          _rs_version_map := cloned.2.1
          _inc_rs_version_map := [] }
      if cloned.2.2 then
        some (cloned.1,
          { tablet := { t1 with
              _timestamped_version_tracker :=
                env.vt.construct_versioned_tracker t1._timestamped_version_tracker
                  (env.tm.all_rs_metas tablet_meta) }
            unused_rowsets := unused_rowsets })
      else some (cloned.1, { tablet := t1, unused_rowsets := unused_rowsets })

end

section
variable {M K : Type}

end

/-! ## Concrete collaborators and rowsets, for closed instances -/

/-- A tablet meta that keeps its rowset metas in a list and accepts every
rowset meta. -/
def list_tablet_meta : TabletMetaApi (List RowsetMeta) where
  all_rs_metas := fun m => m
  add_rs_meta := fun m rs_meta => (OLAPStatus.OLAP_SUCCESS, m ++ [rs_meta])
  modify_rs_metas := fun m to_add to_delete =>
    m.filter (fun rs_meta => decide (rs_meta ∉ to_delete)) ++ to_add
  max_version := fun m =>
    m.foldl (fun max_version rs_meta =>
      if rs_meta.version.second > max_version.second then rs_meta.version else max_version)
      (Version.mk (-1) 0)
  version_for_delete_predicate := fun _ _ => false
  acquire_stale_rs_meta_by_version := fun _ _ => none
  delete_stale_rs_meta_by_version := fun m _ => m
  save_meta := fun _ => OLAPStatus.OLAP_SUCCESS
  meta_pb_copy := fun m => m
  delete_rs_meta_by_version := fun m version =>
    m.filter (fun rs_meta => decide (rs_meta.version ≠ version))
  remove_delete_predicate_by_version := fun m _ => m

/-- A tracker that keeps the versions it was given and whose capture reports
`status`. -/
def list_tracker (status : OLAPStatus) : TrackerApi (List Version) where
  add_version := fun k v => k ++ [v]
  add_stale_path_version := fun k _ => k
  capture_consistent_versions := fun _ _ => (status, [])
  capture_expired_paths := fun _ _ => []
  fetch_and_delete_path_by_id := fun k _ => ([], k)
  recover_versioned_tracker := fun k _ => k
  construct_versioned_tracker := fun _ rs_metas => rs_metas.map RowsetMeta.version

/-- Collaborators whose durable save reports `save_ok` and whose tracker
capture reports `status`. -/
def list_env (save_ok : Bool) (status : OLAPStatus) : Env (List RowsetMeta) (List Version) where
  tm := list_tablet_meta
  vt := list_tracker status
  rowset_meta_save_ok := fun _ => save_ok

/-- A rowset with the given id and version `[first-second]`. -/
def mk_rowset (rowset_id : Nat) (first second : Int) : Rowset :=
  { rowset_meta :=
    { rowset_id := rowset_id
      version := Version.mk first second
      version_hash := 0
      creation_time := 0
      is_segments_overlapping := false
      is_singleton_delta := decide (first = second)
      get_compaction_score := 1 } }

/-- A non-updatable tablet over the list collaborators, with the given current
and stale maps and an unset cumulative point. -/
def mk_tablet (cur stale : VersionMap) : Tablet (List RowsetMeta) (List Version) :=
  { _tablet_meta := cur.map (fun it => it.2.rowset_meta)
    _updates := none
    _rs_version_map := cur
    _inc_rs_version_map := []
    _stale_rs_version_map := stale
    _timestamped_version_tracker := cur.map Prod.fst
    _newly_created_rowset_num := 0
    _cumulative_point := -1 }

/-- The map entry of a rowset: its version and the rowset. -/
def entry (r : Rowset) : Version × Rowset := (r.version, r)

/-- A tracker that keeps its stale paths in a path map, reports all of them
as expired, and whose capture reports `status`. -/
def path_tracker (status : OLAPStatus) : TrackerApi PathMap where
  add_version := fun k _ => k
  add_stale_path_version := fun k _ => k
  capture_consistent_versions := fun _ _ => (status, [])
  capture_expired_paths := fun k _ => PathMap.keys k
  fetch_and_delete_path_by_id := fun k path_id =>
    (((k.find? (fun it => decide (it.1 = path_id))).map Prod.snd).getD [],
      k.filter (fun it => decide (it.1 ≠ path_id)))
  recover_versioned_tracker := fun k removed => removed ++ k
  construct_versioned_tracker := fun _ _ => []

/-- Collaborators for the sweep: the list tablet meta and the path tracker. -/
def path_env (status : OLAPStatus) : Env (List RowsetMeta) PathMap where
  tm := list_tablet_meta
  vt := path_tracker status
  rowset_meta_save_ok := fun _ => true

/-- A non-updatable tablet over the sweep collaborators, with the given
current map, stale map and stale paths. -/
def mk_sweep_tablet (cur stale : VersionMap) (paths : PathMap) :
    Tablet (List RowsetMeta) PathMap :=
  { _tablet_meta := cur.map (fun it => it.2.rowset_meta)
    _updates := none
    _rs_version_map := cur
    _inc_rs_version_map := []
    _stale_rs_version_map := stale
    _timestamped_version_tracker := paths
    _newly_created_rowset_num := 0
    _cumulative_point := -1 }

/-- The stale path of the given versions, all retired at time 0. -/
def mk_path (versions : List Version) : PathVersionList :=
  versions.map (fun v => TimestampedVersion.mk v 0)

/-- Collaborators whose tablet meta cannot be saved: `save_meta` reports the
status `other (-1)`. -/
def unsaved_env : Env (List RowsetMeta) (List Version) where
  tm := { list_tablet_meta with save_meta := fun _ => OLAPStatus.other (-1) }
  vt := list_tracker OLAPStatus.OLAP_SUCCESS
  rowset_meta_save_ok := fun _ => true

/-- Collaborators whose tablet meta rejects a rowset meta of a version that it
holds already, with OLAP_ERR_PUSH_VERSION_ALREADY_EXIST, and accepts every
other one. -/
def strict_env : Env (List RowsetMeta) (List Version) where
  tm := { list_tablet_meta with
    add_rs_meta := fun m rs_meta =>
      if m.any (fun held => decide (held.version = rs_meta.version)) then
        (OLAPStatus.OLAP_ERR_PUSH_VERSION_ALREADY_EXIST, m)
      else (OLAPStatus.OLAP_SUCCESS, m ++ [rs_meta]) }
  vt := list_tracker OLAPStatus.OLAP_SUCCESS
  rowset_meta_save_ok := fun _ => true

/-! ## Lemmas on version maps -/

theorem VersionMap.find_assign_self (m : VersionMap) (v : Version) (r : Rowset) :
    VersionMap.find (VersionMap.assign m v r) v = some r := by
  simp [VersionMap.assign, VersionMap.find]

theorem VersionMap.erase_cons_eq (it : Version × Rowset) (rest : VersionMap) (v : Version)
    (h : it.1 = v) : VersionMap.erase (it :: rest) v = VersionMap.erase rest v := by
  unfold VersionMap.erase
  rw [List.filter_cons_of_neg]
  simpa using h

theorem VersionMap.erase_cons_ne (it : Version × Rowset) (rest : VersionMap) (v : Version)
    (h : it.1 ≠ v) : VersionMap.erase (it :: rest) v = it :: VersionMap.erase rest v := by
  unfold VersionMap.erase
  rw [List.filter_cons_of_pos]
  simpa using h

theorem VersionMap.find_cons_eq (it : Version × Rowset) (rest : VersionMap) (v : Version)
    (h : it.1 = v) : VersionMap.find (it :: rest) v = some it.2 := by
  show (if it.1 = v then some it.2 else VersionMap.find rest v) = some it.2
  rw [if_pos h]

theorem VersionMap.find_cons_ne (it : Version × Rowset) (rest : VersionMap) (v : Version)
    (h : it.1 ≠ v) : VersionMap.find (it :: rest) v = VersionMap.find rest v := by
  show (if it.1 = v then some it.2 else VersionMap.find rest v) = VersionMap.find rest v
  rw [if_neg h]

theorem VersionMap.find_erase_of_ne (m : VersionMap) {v w : Version} (h : w ≠ v) :
    VersionMap.find (VersionMap.erase m v) w = VersionMap.find m w := by
  induction m with
  | nil => rfl
  | cons it rest ih =>
    by_cases hk : it.1 = v
    · have hw : it.1 ≠ w := fun e => h (e ▸ hk)
      rw [VersionMap.erase_cons_eq it rest v hk, VersionMap.find_cons_ne it rest w hw, ih]
    · rw [VersionMap.erase_cons_ne it rest v hk]
      by_cases hw : it.1 = w
      · rw [VersionMap.find_cons_eq _ _ w hw, VersionMap.find_cons_eq _ _ w hw]
      · rw [VersionMap.find_cons_ne _ _ w hw, VersionMap.find_cons_ne _ _ w hw, ih]

theorem VersionMap.find_erase_self (m : VersionMap) (v : Version) :
    VersionMap.find (VersionMap.erase m v) v = none := by
  induction m with
  | nil => rfl
  | cons it rest ih =>
    by_cases hk : it.1 = v
    · rw [VersionMap.erase_cons_eq it rest v hk, ih]
    · rw [VersionMap.erase_cons_ne it rest v hk, VersionMap.find_cons_ne _ _ v hk, ih]

theorem VersionMap.find_assign_of_ne (m : VersionMap) {v w : Version} (r : Rowset) (h : w ≠ v) :
    VersionMap.find (VersionMap.assign m v r) w = VersionMap.find m w := by
  unfold VersionMap.assign
  rw [VersionMap.find_cons_ne (v, r) _ w (fun e => h e.symm)]
  exact VersionMap.find_erase_of_ne m h

theorem VersionMap.mem_of_find {m : VersionMap} {v : Version} {r : Rowset}
    (h : VersionMap.find m v = some r) : (v, r) ∈ m := by
  induction m with
  | nil => simp [VersionMap.find] at h
  | cons it rest ih =>
    by_cases hk : it.1 = v
    · simp only [VersionMap.find, hk, if_true, Option.some.injEq] at h
      have : it = (v, r) := Prod.ext hk h
      simp [this]
    · simp only [VersionMap.find, hk, if_false] at h
      exact List.mem_cons_of_mem _ (ih h)

theorem VersionMap.find_of_mem {m : VersionMap} (hm : (VersionMap.keys m).Nodup)
    {v : Version} {r : Rowset} (h : (v, r) ∈ m) : VersionMap.find m v = some r := by
  induction m with
  | nil => simp at h
  | cons it rest ih =>
    simp only [VersionMap.keys, List.map_cons, List.nodup_cons] at hm
    rcases List.mem_cons.1 h with h | h
    · subst h
      simp [VersionMap.find]
    · have hk : ¬ it.1 = v := by
        intro e
        exact hm.1 (e ▸ List.mem_map_of_mem Prod.fst h)
      simp only [VersionMap.find, hk, if_false]
      exact ih hm.2 h

theorem VersionMap.find_isSome_iff (m : VersionMap) (v : Version) :
    (VersionMap.find m v).isSome = true ↔ v ∈ VersionMap.keys m := by
  induction m with
  | nil => simp [VersionMap.find, VersionMap.keys]
  | cons it rest ih =>
    by_cases hk : it.1 = v
    · simp [VersionMap.find, VersionMap.keys, hk]
    · have hk2 : ¬ v = it.1 := fun e => hk e.symm
      simpa [VersionMap.find, VersionMap.keys, hk, hk2] using ih

theorem VersionMap.mem_erase {m : VersionMap} {v : Version} {it : Version × Rowset} :
    it ∈ VersionMap.erase m v ↔ it ∈ m ∧ it.1 ≠ v := by
  simp [VersionMap.erase]

theorem VersionMap.keys_erase_nodup {m : VersionMap} (v : Version)
    (h : (VersionMap.keys m).Nodup) : (VersionMap.keys (VersionMap.erase m v)).Nodup := by
  unfold VersionMap.keys VersionMap.erase
  exact (List.filter_sublist m).map Prod.fst |>.nodup h

theorem VersionMap.assign_ok {m : VersionMap} (h : VersionMap.ok m) (r : Rowset) :
    VersionMap.ok (VersionMap.assign m r.version r) := by
  refine ⟨?_, ?_⟩
  · simp only [VersionMap.assign, VersionMap.keys, List.map_cons, List.nodup_cons]
    refine ⟨?_, VersionMap.keys_erase_nodup _ h.1⟩
    intro hmem
    obtain ⟨it, hit, he⟩ := List.mem_map.1 hmem
    exact (VersionMap.mem_erase.1 hit).2 he
  · intro it hit
    rcases List.mem_cons.1 hit with e | hit
    · subst e; rfl
    · exact h.2 it (VersionMap.mem_erase.1 hit).1

/-! ## Lemmas on modify_rowsets and add_rowset -/

theorem modify_rowsets_delete_cur (cur stale : VersionMap) (to_delete : List Rowset) :
    (modify_rowsets_delete cur stale to_delete).1 =
      cur.filter (fun it => decide (it.1 ∉ to_delete.map Rowset.version)) := by
  induction to_delete generalizing cur stale with
  | nil => simp [modify_rowsets_delete]
  | cons rs rest ih =>
    rw [modify_rowsets_delete, ih, VersionMap.erase, List.filter_filter]
    apply List.filter_congr
    intro it _
    simp [not_or, Bool.and_comm]

theorem modify_rowsets_delete_stale_keys (cur stale : VersionMap) (to_delete : List Rowset)
    {v : Version} (h : v ∈ VersionMap.keys stale) :
    v ∈ VersionMap.keys (modify_rowsets_delete cur stale to_delete).2 := by
  induction to_delete generalizing cur stale with
  | nil => simpa [modify_rowsets_delete] using h
  | cons rs rest ih =>
    rw [modify_rowsets_delete]
    apply ih
    rw [← VersionMap.find_isSome_iff] at h ⊢
    by_cases e : v = rs.version
    · subst e; rw [VersionMap.find_assign_self]; rfl
    · rw [VersionMap.find_assign_of_ne _ _ e]; exact h

theorem modify_rowsets_delete_stale_find_other (cur stale : VersionMap)
    (to_delete : List Rowset) {v : Version} (h : v ∉ to_delete.map Rowset.version) :
    VersionMap.find (modify_rowsets_delete cur stale to_delete).2 v = VersionMap.find stale v := by
  induction to_delete generalizing cur stale with
  | nil => simp [modify_rowsets_delete]
  | cons rs rest ih =>
    simp only [List.map_cons, List.mem_cons, not_or] at h
    rw [modify_rowsets_delete, ih _ _ h.2, VersionMap.find_assign_of_ne _ _ h.1]

theorem modify_rowsets_delete_stale_find_deleted (cur stale : VersionMap)
    (to_delete : List Rowset) (hnd : (to_delete.map Rowset.version).Nodup) {rs : Rowset}
    (h : rs ∈ to_delete) :
    VersionMap.find (modify_rowsets_delete cur stale to_delete).2 rs.version = some rs := by
  induction to_delete generalizing cur stale with
  | nil => simp at h
  | cons r rest ih =>
    simp only [List.map_cons, List.nodup_cons] at hnd
    rw [modify_rowsets_delete]
    rcases List.mem_cons.1 h with e | hmem
    · subst e
      rw [modify_rowsets_delete_stale_find_other _ _ _ hnd.1, VersionMap.find_assign_self]
    · exact ih _ _ hnd.2 hmem

theorem contains_version_eq_success_iff {M K : Type} (t : Tablet M K) (version : Version) :
    _contains_version t version = OLAPStatus.OLAP_SUCCESS ↔
      ∀ key ∈ VersionMap.keys t._rs_version_map, key.contains version = false := by
  unfold _contains_version VersionMap.keys
  by_cases h : t._rs_version_map.any (fun it => it.1.contains version) = true
  · rw [if_pos h]
    simp only [reduceCtorEq, false_iff]
    intro hall
    obtain ⟨it, hit, hc⟩ := List.any_eq_true.1 h
    rw [hall it.1 (List.mem_map_of_mem Prod.fst hit)] at hc
    exact Bool.false_ne_true hc
  · rw [if_neg h]
    simp only [true_iff]
    intro key hkey
    obtain ⟨it, hit, rfl⟩ := List.mem_map.1 hkey
    by_contra hc
    exact h (List.any_eq_true.2 ⟨it, hit, by simpa using hc⟩)

theorem contains_version_cases {M K : Type} (t : Tablet M K) (version : Version) :
    _contains_version t version = OLAPStatus.OLAP_SUCCESS ∨
      _contains_version t version = OLAPStatus.OLAP_ERR_PUSH_VERSION_ALREADY_EXIST := by
  unfold _contains_version
  split
  · exact Or.inr rfl
  · exact Or.inl rfl

theorem add_rowset_inserted {M K : Type} (env : Env M K) (t : Tablet M K) (rowset : Rowset)
    (need_persist : Bool) (h_upd : t._updates = none)
    (h_new : _contains_rowset t rowset.rowset_id = false)
    (h_ver : _contains_version t rowset.version = OLAPStatus.OLAP_SUCCESS)
    (h_meta : (env.tm.add_rs_meta t._tablet_meta rowset.rowset_meta).1 = OLAPStatus.OLAP_SUCCESS) :
    ((add_rowset env t rowset need_persist).value = some OLAPStatus.OLAP_SUCCESS ∨
        (add_rowset env t rowset need_persist).value = none) ∧
      ((add_rowset env t rowset need_persist).value = none ↔
        (need_persist = true ∧ env.rowset_meta_save_ok rowset.rowset_meta = false)) ∧
      (add_rowset env t rowset need_persist).state._rs_version_map =
        (add_rowset_maps t._rs_version_map t._stale_rs_version_map rowset).1 ∧
      (add_rowset env t rowset need_persist).state._stale_rs_version_map =
        (add_rowset_maps t._rs_version_map t._stale_rs_version_map rowset).2 ∧
      (add_rowset env t rowset need_persist).state._inc_rs_version_map = t._inc_rs_version_map := by
  unfold add_rowset add_rowset_maps
  simp only [h_upd, h_new, h_ver, h_meta, Option.isSome_none, Bool.false_eq_true, if_false,
    ne_eq, not_true_eq_false, modify_rowsets]
  by_cases hs : (need_persist && !env.rowset_meta_save_ok rowset.rowset_meta) = true
  · rw [if_pos hs]
    simp only [Bool.and_eq_true, Bool.not_eq_true'] at hs
    simp [Outcome.value, Outcome.state, hs, modify_rowsets_add]
  · rw [if_neg hs]
    simp only [Bool.and_eq_true, Bool.not_eq_true'] at hs
    simp [Outcome.value, Outcome.state, hs, modify_rowsets_add]

theorem add_rowset_rowsets_to_delete_versions {cur : VersionMap}
    (h : ∀ it ∈ cur, it.2.version = it.1) (version : Version) :
    (add_rowset_rowsets_to_delete cur version).map Rowset.version =
      VersionMap.keys
        (cur.filter (fun it => version.contains it.1 && decide (version ≠ it.1))) := by
  unfold add_rowset_rowsets_to_delete VersionMap.keys
  rw [List.map_map]
  apply List.map_congr_left
  intro it hit
  exact h it (List.mem_filter.1 hit).1

theorem add_rowset_maps_cur {cur : VersionMap} (h : VersionMap.ok cur) (stale : VersionMap)
    (rowset : Rowset) :
    (add_rowset_maps cur stale rowset).1 =
      (VersionMap.assign cur rowset.version rowset).filter
        (fun it => !(rowset.version.contains it.1 && decide (rowset.version ≠ it.1))) := by
  have hA := VersionMap.assign_ok h rowset
  unfold add_rowset_maps
  rw [modify_rowsets_delete_cur, add_rowset_rowsets_to_delete_versions hA.2]
  apply List.filter_congr
  intro it hit
  by_cases hp : (rowset.version.contains it.1 && decide (rowset.version ≠ it.1)) = true
  · have : it.1 ∈ VersionMap.keys ((VersionMap.assign cur rowset.version rowset).filter
        (fun it => rowset.version.contains it.1 && decide (rowset.version ≠ it.1))) :=
      List.mem_map_of_mem Prod.fst (List.mem_filter.2 ⟨hit, hp⟩)
    simp only [hp, Bool.not_true, decide_eq_false_iff_not, not_not]
    exact this
  · have : it.1 ∉ VersionMap.keys ((VersionMap.assign cur rowset.version rowset).filter
        (fun it => rowset.version.contains it.1 && decide (rowset.version ≠ it.1))) := by
      intro hmem
      obtain ⟨it', hit', he⟩ := List.mem_map.1 hmem
      have hp' := (List.mem_filter.1 hit').2
      rw [he] at hp'
      exact hp hp'
    simp only [Bool.not_eq_true] at hp
    simp only [hp, Bool.not_false, decide_eq_true_eq]
    exact this

theorem add_rowset_maps_cur_nodup {cur : VersionMap} (h : VersionMap.ok cur)
    (stale : VersionMap) (rowset : Rowset) :
    (VersionMap.keys (add_rowset_maps cur stale rowset).1).Nodup := by
  rw [add_rowset_maps_cur h]
  exact ((List.filter_sublist _).map Prod.fst).nodup (VersionMap.assign_ok h rowset).1

theorem add_rowset_maps_cur_mem_self {cur : VersionMap} (h : VersionMap.ok cur)
    (stale : VersionMap) (rowset : Rowset) :
    (rowset.version, rowset) ∈ (add_rowset_maps cur stale rowset).1 := by
  rw [add_rowset_maps_cur h]
  refine List.mem_filter.2 ⟨?_, ?_⟩
  · simp [VersionMap.assign]
  · simp

theorem add_rowset_maps_stale_find {cur : VersionMap} (h : VersionMap.ok cur)
    (stale : VersionMap) (rowset : Rowset) {key : Version} {rs : Rowset}
    (hmem : (key, rs) ∈ cur) (hc : rowset.version.contains key = true)
    (hne : key ≠ rowset.version) :
    VersionMap.find (add_rowset_maps cur stale rowset).2 rs.version = some rs := by
  have hA := VersionMap.assign_ok h rowset
  unfold add_rowset_maps
  apply modify_rowsets_delete_stale_find_deleted
  · rw [add_rowset_rowsets_to_delete_versions hA.2]
    exact ((List.filter_sublist _).map Prod.fst).nodup hA.1
  · unfold add_rowset_rowsets_to_delete
    refine List.mem_map.2 ⟨(key, rs), List.mem_filter.2 ⟨?_, ?_⟩, rfl⟩
    · exact List.mem_cons_of_mem _ (VersionMap.mem_erase.2 ⟨hmem, hne⟩)
    · simp [hc, Ne.symm hne]

/-- What a call of `add_rowset` that returned OLAP_SUCCESS went through: the
rowset id was present and nothing changed, or the rowset was inserted. -/
theorem add_rowset_success_cases {M K : Type} (env : Env M K) (t t1 : Tablet M K)
    (rowset : Rowset) (need_persist : Bool)
    (h : add_rowset env t rowset need_persist = Outcome.returned OLAPStatus.OLAP_SUCCESS t1) :
    t._updates = none ∧ t1._updates = none ∧
      ((_contains_rowset t rowset.rowset_id = true ∧ t1 = t) ∨
        (_contains_rowset t rowset.rowset_id = false ∧
          _contains_version t rowset.version = OLAPStatus.OLAP_SUCCESS ∧
          (env.tm.add_rs_meta t._tablet_meta rowset.rowset_meta).1 = OLAPStatus.OLAP_SUCCESS ∧
          t1._rs_version_map =
            (add_rowset_maps t._rs_version_map t._stale_rs_version_map rowset).1 ∧
          t1._stale_rs_version_map =
            (add_rowset_maps t._rs_version_map t._stale_rs_version_map rowset).2 ∧
          t1._inc_rs_version_map = t._inc_rs_version_map)) := by
  have h_upd : t._updates = none := by
    cases hu : t._updates with
    | none => rfl
    | some u => simp [add_rowset, hu] at h
  by_cases h_new : _contains_rowset t rowset.rowset_id = true
  · have : t1 = t := by
      simp only [add_rowset, h_upd, h_new, Option.isSome_none, Bool.false_eq_true, if_false,
        if_true, Outcome.returned.injEq, true_and] at h
      exact h.symm
    subst this
    exact ⟨h_upd, h_upd, Or.inl ⟨h_new, rfl⟩⟩
  · simp only [Bool.not_eq_true] at h_new
    have h_ver : _contains_version t rowset.version = OLAPStatus.OLAP_SUCCESS := by
      rcases contains_version_cases t rowset.version with hv | hv
      · exact hv
      · simp [add_rowset, h_upd, h_new, hv] at h
    have h_meta :
        (env.tm.add_rs_meta t._tablet_meta rowset.rowset_meta).1 = OLAPStatus.OLAP_SUCCESS := by
      by_contra hm
      simp [add_rowset, h_upd, h_new, h_ver, hm] at h
    have hins := add_rowset_inserted env t rowset need_persist h_upd h_new h_ver h_meta
    rw [h] at hins
    refine ⟨h_upd, ?_, Or.inr ⟨h_new, h_ver, h_meta, hins.2.2.1, hins.2.2.2.1, hins.2.2.2.2⟩⟩
    simp only [add_rowset, h_upd, h_new, h_ver, h_meta, Option.isSome_none, Bool.false_eq_true,
      if_false, ne_eq, not_true_eq_false, modify_rowsets] at h
    split at h
    · exact absurd h (by simp)
    · simp only [Outcome.returned.injEq, true_and] at h
      rw [← h]

theorem Outcome.eq_returned_of_value {α σ : Type} {o : Outcome α σ} {a : α}
    (h : o.value = some a) : o = Outcome.returned a o.state := by
  cases o with
  | returned b s =>
    simp only [Outcome.value, Option.some.injEq] at h
    rw [h]; rfl
  | aborted s => simp [Outcome.value] at h

/-- Whether the tablet is updatable does not change in `add_rowset`. -/
theorem add_rowset_updates {M K : Type} (env : Env M K) (t : Tablet M K) (rowset : Rowset)
    (need_persist : Bool) : (add_rowset env t rowset need_persist).state._updates = t._updates := by
  cases hu : t._updates with
  | some u => simp [add_rowset, hu, Outcome.state]
  | none =>
    by_cases h_new : _contains_rowset t rowset.rowset_id = true
    · simp [add_rowset, hu, h_new, Outcome.state]
    · simp only [Bool.not_eq_true] at h_new
      rcases contains_version_cases t rowset.version with hv | hv
      · by_cases hm :
            (env.tm.add_rs_meta t._tablet_meta rowset.rowset_meta).1 = OLAPStatus.OLAP_SUCCESS
        · by_cases hs : (need_persist && !env.rowset_meta_save_ok rowset.rowset_meta) = true
          · simp [add_rowset, modify_rowsets, hu, h_new, hv, hm, hs, Outcome.state]
          · simp [add_rowset, modify_rowsets, hu, h_new, hv, hm, hs, Outcome.state]
        · simp [add_rowset, hu, h_new, hv, hm, Outcome.state]
      · simp [add_rowset, hu, h_new, hv, Outcome.state]

/-- Either `add_rowset` left the three maps and the counter as they were, or
the rowset passed every check and was inserted. -/
theorem add_rowset_state_cases {M K : Type} (env : Env M K) (t : Tablet M K) (rowset : Rowset)
    (need_persist : Bool) :
    (((add_rowset env t rowset need_persist).state._rs_version_map = t._rs_version_map ∧
        (add_rowset env t rowset need_persist).state._inc_rs_version_map =
          t._inc_rs_version_map ∧
        (add_rowset env t rowset need_persist).state._stale_rs_version_map =
          t._stale_rs_version_map ∧
        (add_rowset env t rowset need_persist).state._newly_created_rowset_num =
          t._newly_created_rowset_num) ∧
        (add_rowset env t rowset need_persist).value ≠ none ∧
        ((add_rowset env t rowset need_persist).value = some OLAPStatus.OLAP_SUCCESS →
          _contains_rowset t rowset.rowset_id = true)) ∨
      (t._updates = none ∧ _contains_rowset t rowset.rowset_id = false ∧
        _contains_version t rowset.version = OLAPStatus.OLAP_SUCCESS ∧
        (env.tm.add_rs_meta t._tablet_meta rowset.rowset_meta).1 = OLAPStatus.OLAP_SUCCESS) ∨
      (t._updates ≠ none ∧ add_rowset env t rowset need_persist = Outcome.aborted t) := by
  cases hu : t._updates with
  | some u => right; right; simp [add_rowset, hu]
  | none =>
    by_cases h_new : _contains_rowset t rowset.rowset_id = true
    · left
      simp [add_rowset, hu, h_new, Outcome.state, Outcome.value]
    · simp only [Bool.not_eq_true] at h_new
      rcases contains_version_cases t rowset.version with hv | hv
      · by_cases hm :
            (env.tm.add_rs_meta t._tablet_meta rowset.rowset_meta).1 = OLAPStatus.OLAP_SUCCESS
        · right; left; exact ⟨rfl, h_new, hv, hm⟩
        · left
          simp [add_rowset, hu, h_new, hv, hm, Outcome.state, Outcome.value]
      · left
        simp [add_rowset, hu, h_new, hv, Outcome.state, Outcome.value]

theorem Version.overlaps_symm {a b : Version} (h : a.overlaps b) : b.overlaps a :=
  ⟨h.2.1, h.1, h.2.2.2, h.2.2.1⟩

theorem Version.overlaps_of_contains {a b : Version} (ha : a.wellFormed) (hb : b.wellFormed)
    (h : a.contains b = true) : a.overlaps b := by
  simp only [Version.contains, Bool.and_eq_true, decide_eq_true_eq] at h
  unfold Version.wellFormed at ha hb
  unfold Version.overlaps
  omega

theorem VersionMap.erase_of_not_key {m : VersionMap} {v : Version}
    (h : v ∉ VersionMap.keys m) : VersionMap.erase m v = m := by
  unfold VersionMap.erase
  apply List.filter_eq_self.2
  intro it hit
  have : it.1 ≠ v := fun e => h (e ▸ List.mem_map_of_mem Prod.fst hit)
  simpa using this

/-- One call of `add_rowset` on a tablet none of whose current rowsets shares
the id of the new rowset or has a key containing or contained in its version. -/
theorem add_rowset_disjoint_step {M K : Type} (env : Env M K) (t : Tablet M K)
    (rowset : Rowset) (need_persist : Bool) (h_upd : t._updates = none)
    (h_inc : t._inc_rs_version_map = [])
    (h_ids : ∀ it ∈ t._rs_version_map, it.2.rowset_id ≠ rowset.rowset_id)
    (h_c1 : ∀ it ∈ t._rs_version_map, it.1.contains rowset.version = false)
    (h_c2 : ∀ it ∈ t._rs_version_map, rowset.version.contains it.1 = false)
    (h_meta : (env.tm.add_rs_meta t._tablet_meta rowset.rowset_meta).1 = OLAPStatus.OLAP_SUCCESS)
    (h_save : need_persist = true → env.rowset_meta_save_ok rowset.rowset_meta = true) :
    ∃ t1, add_rowset env t rowset need_persist = Outcome.returned OLAPStatus.OLAP_SUCCESS t1 ∧
      t1._updates = none ∧ t1._inc_rs_version_map = [] ∧
      t1._rs_version_map = (rowset.version, rowset) :: t._rs_version_map := by
  have h_new : _contains_rowset t rowset.rowset_id = false := by
    unfold _contains_rowset
    rw [h_inc, Bool.or_eq_false_iff]
    refine ⟨?_, rfl⟩
    rw [List.any_eq_false]
    intro it hit
    simpa using h_ids it hit
  have h_ver : _contains_version t rowset.version = OLAPStatus.OLAP_SUCCESS := by
    rw [contains_version_eq_success_iff]
    intro key hkey
    obtain ⟨it, hit, rfl⟩ := List.mem_map.1 hkey
    exact h_c1 it hit
  have h_notkey : rowset.version ∉ VersionMap.keys t._rs_version_map := by
    intro hkey
    obtain ⟨it, hit, he⟩ := List.mem_map.1 hkey
    have := h_c1 it hit
    rw [he] at this
    simp [Version.contains] at this
  have h_assign : VersionMap.assign t._rs_version_map rowset.version rowset =
      (rowset.version, rowset) :: t._rs_version_map := by
    unfold VersionMap.assign
    rw [VersionMap.erase_of_not_key h_notkey]
  have h_del : add_rowset_rowsets_to_delete
      ((rowset.version, rowset) :: t._rs_version_map) rowset.version = [] := by
    unfold add_rowset_rowsets_to_delete
    rw [List.map_eq_nil_iff, List.filter_eq_nil_iff]
    intro it hit
    rcases List.mem_cons.1 hit with e | hit
    · subst e; simp
    · simp [h_c2 it hit]
  have h_noabort : (need_persist && !env.rowset_meta_save_ok rowset.rowset_meta) = false := by
    cases need_persist with
    | false => rfl
    | true => simp [h_save rfl]
  obtain ⟨hval, habort, hcur, _, hinc⟩ :=
    add_rowset_inserted env t rowset need_persist h_upd h_new h_ver h_meta
  have hsome : (add_rowset env t rowset need_persist).value = some OLAPStatus.OLAP_SUCCESS := by
    rcases hval with h | h
    · exact h
    · have := habort.1 h
      rw [this.1, this.2] at h_noabort
      exact absurd h_noabort (by simp)
  refine ⟨(add_rowset env t rowset need_persist).state, Outcome.eq_returned_of_value hsome, ?_,
    ?_, ?_⟩
  · rw [add_rowset_updates]; exact h_upd
  · rw [hinc]; exact h_inc
  · rw [hcur]
    simp only [add_rowset_maps, h_assign, h_del, modify_rowsets_delete]

/-- The run of `add_rowsets` from a tablet whose current rowsets are disjoint
from all the rowsets to come. -/
theorem add_rowsets_disjoint {M K : Type} (env : Env M K) (calls : List (Rowset × Bool))
    (t : Tablet M K) (h_upd : t._updates = none) (h_inc : t._inc_rs_version_map = [])
    (h_cur : ∀ it ∈ t._rs_version_map, ∀ call ∈ calls,
      it.2.rowset_id ≠ call.1.rowset_id ∧ it.1.contains call.1.version = false ∧
        call.1.version.contains it.1 = false)
    (h_pair : calls.Pairwise (fun a b => a.1.rowset_id ≠ b.1.rowset_id ∧
      a.1.version.contains b.1.version = false ∧ b.1.version.contains a.1.version = false))
    (h_meta : ∀ done call rest t1, calls = done ++ call :: rest →
      add_rowsets env t done = some t1 →
      (env.tm.add_rs_meta t1._tablet_meta call.1.rowset_meta).1 = OLAPStatus.OLAP_SUCCESS)
    (h_save : ∀ call ∈ calls, call.2 = true → env.rowset_meta_save_ok call.1.rowset_meta = true) :
    ∃ t1, add_rowsets env t calls = some t1 ∧
      t1._rs_version_map =
        (calls.reverse.map (fun call => (call.1.version, call.1))) ++ t._rs_version_map := by
  induction calls generalizing t with
  | nil => exact ⟨t, rfl, by simp⟩
  | cons call rest ih =>
    obtain ⟨t1, hstep, h_upd1, h_inc1, hcur1⟩ := add_rowset_disjoint_step env t call.1 call.2 h_upd
      h_inc (fun it hit => (h_cur it hit call (List.mem_cons_self _ _)).1)
      (fun it hit => (h_cur it hit call (List.mem_cons_self _ _)).2.1)
      (fun it hit => (h_cur it hit call (List.mem_cons_self _ _)).2.2)
      (h_meta [] call rest t rfl rfl) (h_save call (List.mem_cons_self _ _))
    rw [List.pairwise_cons] at h_pair
    obtain ⟨t2, hrun, hcur2⟩ := ih t1 h_upd1 h_inc1
      (by
        intro it hit c hc
        rw [hcur1] at hit
        rcases List.mem_cons.1 hit with e | hit
        · subst e; exact h_pair.1 c hc
        · exact h_cur it hit c (List.mem_cons_of_mem _ hc))
      h_pair.2
      (fun done c rest2 t2 hsplit hrun =>
        h_meta (call :: done) c rest2 t2 (by rw [hsplit]; rfl)
          (by simp only [add_rowsets, hstep]; exact hrun))
      (fun c hc => h_save c (List.mem_cons_of_mem _ hc))
    refine ⟨t2, ?_, ?_⟩
    · simp only [add_rowsets, hstep]
      exact hrun
    · rw [hcur2, hcur1]
      simp

/-! ## Lemmas on calc_missed_versions_unlocked -/

theorem mem_unit_versions {lo hi : Int} {e : Version} :
    e ∈ unit_versions lo hi ↔ ∃ i, e = Version.mk i i ∧ lo ≤ i ∧ i < hi := by
  unfold unit_versions
  rw [List.mem_map]
  constructor
  · rintro ⟨k, hk, rfl⟩
    rw [List.mem_range] at hk
    exact ⟨lo + (k : Int), rfl, by omega, by omega⟩
  · rintro ⟨i, rfl, h1, h2⟩
    refine ⟨(i - lo).toNat, List.mem_range.2 (by omega), ?_⟩
    have : lo + ((i - lo).toNat : Int) = i := by omega
    rw [this]

theorem unit_mem_unit_versions {lo hi v : Int} :
    Version.mk v v ∈ unit_versions lo hi ↔ lo ≤ v ∧ v < hi := by
  rw [mem_unit_versions]
  constructor
  · rintro ⟨i, he, h1, h2⟩
    have : v = i := congrArg Version.first he
    subst this
    exact ⟨h1, h2⟩
  · rintro ⟨h1, h2⟩
    exact ⟨v, rfl, h1, h2⟩

/-- Behind versions that all start after `last_version`, the walk emits only
unit versions after `last_version`. -/
theorem calc_missed_versions_walk_after (spec_version : Int) (l : List Version)
    (last_version : Int) (h : ascending_disjoint l) (hlast : ∀ x ∈ l, last_version < x.first) :
    ∀ e ∈ calc_missed_versions_walk spec_version l last_version,
      ∃ i, e = Version.mk i i ∧ last_version < i := by
  induction l generalizing last_version with
  | nil =>
    intro e he
    obtain ⟨i, rfl, h1, _⟩ := mem_unit_versions.1 he
    exact ⟨i, rfl, by omega⟩
  | cons x rest ih =>
    intro e he
    have hx := hlast x (List.mem_cons_self _ _)
    have hxwf := h.2 x (List.mem_cons_self _ _)
    have hp := List.pairwise_cons.1 h.1
    unfold calc_missed_versions_walk at he
    rcases List.mem_append.1 he with he | he
    · split at he
      · obtain ⟨i, rfl, h1, _⟩ := mem_unit_versions.1 he
        exact ⟨i, rfl, by omega⟩
      · simp at he
    · split at he
      · obtain ⟨i, rfl, h1, _⟩ := mem_unit_versions.1 he
        exact ⟨i, rfl, by omega⟩
      · obtain ⟨i, rfl, h1⟩ := ih x.second ⟨hp.2, fun y hy => h.2 y (List.mem_cons_of_mem _ hy)⟩
          hp.1 e he
        exact ⟨i, rfl, by omega⟩

/-- Every version the walk emits is a unit version that no version of the
list covers. -/
theorem calc_missed_versions_walk_uncovered (spec_version : Int) (l : List Version)
    (last_version : Int) (h : ascending_disjoint l) :
    ∀ e ∈ calc_missed_versions_walk spec_version l last_version,
      ∃ i, e = Version.mk i i ∧ ∀ x ∈ l, ¬ x.covers i := by
  induction l generalizing last_version with
  | nil =>
    intro e he
    obtain ⟨i, rfl, _, _⟩ := mem_unit_versions.1 he
    exact ⟨i, rfl, by simp⟩
  | cons x rest ih =>
    intro e he
    have hxwf := h.2 x (List.mem_cons_self _ _)
    have hp := List.pairwise_cons.1 h.1
    have hrest : ascending_disjoint rest := ⟨hp.2, fun y hy => h.2 y (List.mem_cons_of_mem _ hy)⟩
    unfold calc_missed_versions_walk at he
    rcases List.mem_append.1 he with he | he
    · split at he
      · obtain ⟨i, rfl, _, h2⟩ := mem_unit_versions.1 he
        refine ⟨i, rfl, ?_⟩
        intro y hy hc
        unfold Version.covers at hc
        rcases List.mem_cons.1 hy with e | hy
        · subst e; omega
        · have := hp.1 y hy; omega
      · simp at he
    · split at he
      · rename_i hbreak
        obtain ⟨i, rfl, h1, h2⟩ := mem_unit_versions.1 he
        omega
      · obtain ⟨i, rfl, hun⟩ := ih x.second hrest e he
        obtain ⟨j, hj, hafter⟩ := calc_missed_versions_walk_after spec_version rest x.second hrest
          hp.1 _ he
        have hij : i = j := congrArg Version.first hj
        subst hij
        refine ⟨i, rfl, ?_⟩
        intro y hy hc
        rcases List.mem_cons.1 hy with e | hy
        · subst e
          unfold Version.covers at hc
          omega
        · exact hun y hy hc

/-- A position after `last_version` and up to `spec_version` is emitted by the
walk exactly when no version of the list covers it. -/
theorem calc_missed_versions_walk_iff (spec_version : Int) (l : List Version)
    (last_version v : Int) (h : ascending_disjoint l) (hlast : last_version < v)
    (hv : v ≤ spec_version) :
    Version.mk v v ∈ calc_missed_versions_walk spec_version l last_version ↔
      ∀ x ∈ l, ¬ x.covers v := by
  induction l generalizing last_version with
  | nil =>
    unfold calc_missed_versions_walk
    rw [unit_mem_unit_versions]
    simp only [List.not_mem_nil, false_implies, implies_true, iff_true]
    omega
  | cons x rest ih =>
    have hxwf := h.2 x (List.mem_cons_self _ _)
    have hp := List.pairwise_cons.1 h.1
    have hrest : ascending_disjoint rest := ⟨hp.2, fun y hy => h.2 y (List.mem_cons_of_mem _ hy)⟩
    constructor
    · intro he
      obtain ⟨i, hi, hun⟩ := calc_missed_versions_walk_uncovered spec_version (x :: rest)
        last_version h _ he
      have : v = i := congrArg Version.first hi
      subst this
      exact hun
    · intro hun
      have hx : ¬ x.covers v := hun x (List.mem_cons_self _ _)
      unfold Version.covers at hx
      unfold calc_missed_versions_walk
      rw [List.mem_append]
      by_cases hlt : v < x.first
      · left
        rw [if_pos (by omega), unit_mem_unit_versions]
        omega
      · right
        have hgt : x.second < v := by omega
        rw [if_neg (by omega)]
        exact (ih x.second hrest hgt).2 (fun y hy => hun y (List.mem_cons_of_mem _ hy))

theorem sort_existing_versions_ascending_disjoint (l : List Version)
    (h_wf : ∀ x ∈ l, x.wellFormed) (h_pair : l.Pairwise (fun a b => ¬ a.overlaps b)) :
    ascending_disjoint (sort_existing_versions l) := by
  haveI : IsTotal Version (fun a b => a.first ≤ b.first) := ⟨fun a b => le_total _ _⟩
  haveI : IsTrans Version (fun a b => a.first ≤ b.first) := ⟨fun _ _ _ h1 h2 => le_trans h1 h2⟩
  have hperm : (sort_existing_versions l).Perm l := List.perm_insertionSort _ l
  have hsorted : (sort_existing_versions l).Pairwise (fun a b => a.first ≤ b.first) :=
    List.sorted_insertionSort _ l
  have hpair2 : (sort_existing_versions l).Pairwise (fun a b => ¬ a.overlaps b) :=
    (hperm.pairwise_iff (fun h hba => h (Version.overlaps_symm hba))).2 h_pair
  have hwf2 : ∀ x ∈ sort_existing_versions l, x.first ≤ x.second :=
    fun x hx => h_wf x (hperm.subset hx)
  refine ⟨?_, hwf2⟩
  refine List.Pairwise.imp_of_mem ?_ (hsorted.and hpair2)
  intro a b ha hb hab
  have h1 := hwf2 a ha
  have h2 := hwf2 b hb
  have h3 := hab.1
  have h4 := hab.2
  unfold Version.overlaps at h4
  omega

/-! ## Lemmas on the sorted walks -/

/-- Sorting by the start of the version puts well-formed, pairwise
non-overlapping versions in ascending order, each ending before the next
starts. -/
theorem insertionSort_ascending_disjoint {α : Type} (ver : α → Version) (l : List α)
    (h_wf : ∀ x ∈ l, (ver x).wellFormed)
    (h_pair : l.Pairwise (fun a b => ¬ (ver a).overlaps (ver b))) :
    ascending_disjoint ((l.insertionSort (fun a b => (ver a).first ≤ (ver b).first)).map ver) := by
  haveI : IsTotal α (fun a b => (ver a).first ≤ (ver b).first) := ⟨fun a b => le_total _ _⟩
  haveI : IsTrans α (fun a b => (ver a).first ≤ (ver b).first) :=
    ⟨fun _ _ _ h1 h2 => le_trans h1 h2⟩
  have hperm := List.perm_insertionSort (fun a b => (ver a).first ≤ (ver b).first) l
  have hsorted : (l.insertionSort (fun a b => (ver a).first ≤ (ver b).first)).Pairwise
      (fun a b => (ver a).first ≤ (ver b).first) := List.sorted_insertionSort _ l
  have hpair2 := (hperm.pairwise_iff
    (fun {a b} (h : ¬ (ver a).overlaps (ver b)) hba => h (Version.overlaps_symm hba))).2 h_pair
  have hwf2 : ∀ x ∈ l.insertionSort (fun a b => (ver a).first ≤ (ver b).first),
      (ver x).first ≤ (ver x).second := fun x hx => h_wf x (hperm.subset hx)
  refine ⟨List.pairwise_map.2 ?_, ?_⟩
  · refine List.Pairwise.imp_of_mem ?_ (hsorted.and hpair2)
    intro a b ha hb hab
    have h1 := hwf2 a ha
    have h2 := hwf2 b hb
    have h3 := hab.1
    have h4 := hab.2
    unfold Version.overlaps at h4
    omega
  · intro x hx
    obtain ⟨y, hy, rfl⟩ := List.mem_map.1 hx
    exact hwf2 y hy

/-- Behind a version that ends before all the following start, the loop of
`_max_continuous_version_from_beginning_unlocked` ends on a version whose end
is followed by an uncovered position and is reached without a gap. -/
theorem max_continuous_version_loop_spec (l : List (Version × Int)) (m : Version)
    (h : ascending_disjoint (l.map Prod.fst)) (hm : ∀ x ∈ l, m.second < x.1.first) :
    m.second ≤ (max_continuous_version_loop l m).second ∧
      (∀ x ∈ l, ¬ x.1.covers ((max_continuous_version_loop l m).second + 1)) ∧
      (∀ v, m.second < v → v ≤ (max_continuous_version_loop l m).second →
        ∃ x ∈ l, x.1.covers v) := by
  induction l generalizing m with
  | nil => exact ⟨le_refl _, by simp, fun v h1 h2 => absurd h2 (by simp [max_continuous_version_loop]; omega)⟩
  | cons x rest ih =>
    have hp := List.pairwise_cons.1 (List.pairwise_map.1 h.1)
    have hxwf : x.1.first ≤ x.1.second := h.2 x.1 (by simp)
    have hxm := hm x (List.mem_cons_self _ _)
    have hrest : ascending_disjoint (rest.map Prod.fst) :=
      ⟨List.pairwise_map.2 hp.2, fun y hy => h.2 y (by
        rw [List.map_cons]; exact List.mem_cons_of_mem _ hy)⟩
    unfold max_continuous_version_loop
    by_cases hgap : x.1.first > m.second + 1
    · rw [if_pos hgap]
      refine ⟨le_refl _, ?_, fun v h1 h2 => by omega⟩
      intro y hy hc
      unfold Version.covers at hc
      rcases List.mem_cons.1 hy with e | hy
      · subst e; omega
      · have := hp.1 y hy; omega
    · rw [if_neg hgap]
      obtain ⟨h1, h2, h3⟩ := ih x.1 hrest (fun y hy => hp.1 y hy)
      refine ⟨by omega, ?_, ?_⟩
      · intro y hy hc
        rcases List.mem_cons.1 hy with e | hy
        · subst e
          unfold Version.covers at hc
          omega
        · exact h2 y hy hc
      · intro v hv1 hv2
        by_cases hvx : v ≤ x.1.second
        · exact ⟨x, List.mem_cons_self _ _, by unfold Version.covers; omega⟩
        · obtain ⟨y, hy, hc⟩ := h3 v (by omega) hv2
          exact ⟨y, List.mem_cons_of_mem _ hy, hc⟩


theorem is_chain_from_congr {a b : List RowsetMeta} (h : ∀ x, x ∈ a ↔ x ∈ b) (start : Int)
    (chain : List RowsetMeta) : is_chain_from a start chain = is_chain_from b start chain := by
  induction chain generalizing start with
  | nil =>
    unfold is_chain_from
    rw [Bool.eq_iff_iff, List.all_eq_true, List.all_eq_true]
    exact ⟨fun hall x hx => hall x ((h x).2 hx), fun hall x hx => hall x ((h x).1 hx)⟩
  | cons rs rest ih =>
    unfold is_chain_from
    rw [ih, decide_eq_decide.2 (h rs)]

/-- A chain that starts after the start of `x` does not use `x`. -/
theorem is_chain_from_tail {x : RowsetMeta} {rest : List RowsetMeta}
    (hwf : ∀ y ∈ x :: rest, y.version.first ≤ y.version.second) (start : Int)
    (chain : List RowsetMeta) (hx : x.version.first < start)
    (h : is_chain_from (x :: rest) start chain = true) : is_chain_from rest start chain = true := by
  induction chain generalizing start with
  | nil =>
    unfold is_chain_from at h ⊢
    rw [List.all_eq_true] at h ⊢
    exact fun y hy => h y (List.mem_cons_of_mem _ hy)
  | cons rs rest' ih =>
    unfold is_chain_from at h ⊢
    simp only [Bool.and_eq_true, decide_eq_true_eq] at h ⊢
    obtain ⟨⟨hmem, hstart⟩, hrest⟩ := h
    have hne : rs ≠ x := by
      intro e
      rw [e] at hstart
      omega
    have hmem' : rs ∈ rest := by
      rcases List.mem_cons.1 hmem with e | hm
      · exact absurd e hne
      · exact hm
    have := hwf rs hmem
    exact ⟨⟨hmem', hstart⟩, ih (rs.version.second + 1) (by omega) hrest⟩

/-- Over rowsets in ascending order that all start after `prev_version`, the
loop of `calculate_cumulative_point` gives what the chain from
`prev_version + 1` says. -/
theorem calculate_cumulative_point_loop_chain (is_delete : Version → Bool)
    (l : List RowsetMeta) (prev_version cumulative_point : Int) (chain : List RowsetMeta)
    (hl : ascending_disjoint (l.map RowsetMeta.version))
    (hprev : ∀ x ∈ l, prev_version < x.version.first)
    (hchain : is_chain_from l (prev_version + 1) chain = true) :
    calculate_cumulative_point_loop is_delete l prev_version cumulative_point =
      match chain.find? (stops_cumulative_point is_delete) with
      | some rs => rs.version.first
      | none =>
        match chain.getLast? with
        | some rs => rs.version.second + 1
        | none => cumulative_point := by
  induction l generalizing prev_version cumulative_point chain with
  | nil =>
    cases chain with
    | nil => rfl
    | cons rs rest => simp [is_chain_from] at hchain
  | cons x rest ih =>
    have hp := List.pairwise_cons.1 (List.pairwise_map.1 hl.1)
    have hwf : ∀ y ∈ x :: rest, y.version.first ≤ y.version.second :=
      fun y hy => hl.2 y.version (List.mem_map_of_mem _ hy)
    have hrest : ascending_disjoint (rest.map RowsetMeta.version) :=
      ⟨List.pairwise_map.2 hp.2, fun y hy => hl.2 y (by
        rw [List.map_cons]; exact List.mem_cons_of_mem _ hy)⟩
    have hxprev := hprev x (List.mem_cons_self _ _)
    cases chain with
    | nil =>
      unfold is_chain_from at hchain
      rw [List.all_eq_true] at hchain
      have hne : x.version.first ≠ prev_version + 1 := by
        simpa using hchain x (List.mem_cons_self _ _)
      unfold calculate_cumulative_point_loop
      rw [if_pos (by omega)]
      rfl
    | cons r chain' =>
      unfold is_chain_from at hchain
      simp only [Bool.and_eq_true, decide_eq_true_eq] at hchain
      obtain ⟨⟨hmem, hstart⟩, hchain'⟩ := hchain
      have hrx : r = x := by
        rcases List.mem_cons.1 hmem with e | hm
        · exact e
        · have h1 := hp.1 r hm
          have h2 := hwf x (List.mem_cons_self _ _)
          omega
      subst hrx
      unfold calculate_cumulative_point_loop
      rw [if_neg (by omega)]
      by_cases hstop : stops_cumulative_point is_delete r = true
      · have hstop' := hstop
        unfold stops_cumulative_point at hstop'
        rw [if_pos hstop', List.find?_cons_of_pos _ hstop]
      · have hstop' := hstop
        unfold stops_cumulative_point at hstop'
        rw [if_neg hstop', List.find?_cons_of_neg _ hstop]
        rw [ih r.version.second (r.version.second + 1) chain' hrest (fun y hy => hp.1 y hy)
          (is_chain_from_tail hwf _ _ (by have := hwf r (List.mem_cons_self _ _); omega) hchain')]
        cases hfind : List.find? (stops_cumulative_point is_delete) chain' with
        | some rs => rfl
        | none =>
          cases chain' with
          | nil => rfl
          | cons c cs =>
            rw [List.getLast?_cons_cons]
            cases h : (c :: cs).getLast? with
            | none => exact absurd h (by simp)
            | some rs => rfl

/-- Where the loop of `calculate_cumulative_point` can end: on the point it
was given, without having passed a rowset, or on the start of a rowset, or on
a rowset's end plus one. -/
theorem calculate_cumulative_point_loop_result (is_delete : Version → Bool)
    (l : List RowsetMeta) (prev_version cumulative_point : Int) :
    (calculate_cumulative_point_loop is_delete l prev_version cumulative_point =
          cumulative_point ∧
        ∀ x ∈ l.head?, x.version.first > prev_version + 1) ∨
      ∃ rs ∈ l,
        calculate_cumulative_point_loop is_delete l prev_version cumulative_point =
            rs.version.first ∨
          calculate_cumulative_point_loop is_delete l prev_version cumulative_point =
            rs.version.second + 1 := by
  induction l generalizing prev_version cumulative_point with
  | nil => left; exact ⟨rfl, by simp⟩
  | cons x rest ih =>
    unfold calculate_cumulative_point_loop
    by_cases hgap : x.version.first > prev_version + 1
    · rw [if_pos hgap]
      left
      exact ⟨rfl, by simpa using hgap⟩
    · rw [if_neg hgap]
      right
      split
      · exact ⟨x, List.mem_cons_self _ _, Or.inl rfl⟩
      · rcases ih x.version.second (x.version.second + 1) with ⟨h, _⟩ | ⟨rs, hrs, h⟩
        · exact ⟨x, List.mem_cons_self _ _, Or.inr h⟩
        · exact ⟨rs, List.mem_cons_of_mem _ hrs, h⟩

/-- A rowset that starts before `start` can be put before the rowsets a chain
from `start` is taken from. -/
theorem is_chain_from_cons {x : RowsetMeta} {rest : List RowsetMeta} (start : Int)
    (chain : List RowsetMeta) (hwf : ∀ y ∈ chain, y.version.first ≤ y.version.second)
    (hx : x.version.first < start) (h : is_chain_from rest start chain = true) :
    is_chain_from (x :: rest) start chain = true := by
  induction chain generalizing start with
  | nil =>
    unfold is_chain_from at h ⊢
    rw [List.all_eq_true] at h ⊢
    intro y hy
    rcases List.mem_cons.1 hy with e | hy
    · subst e
      simp only [decide_eq_true_eq]
      omega
    · exact h y hy
  | cons rs rest' ih =>
    unfold is_chain_from at h ⊢
    simp only [Bool.and_eq_true, decide_eq_true_eq] at h ⊢
    obtain ⟨⟨hmem, hstart⟩, hrest⟩ := h
    have := hwf rs (List.mem_cons_self _ _)
    exact ⟨⟨List.mem_cons_of_mem _ hmem, hstart⟩,
      ih (rs.version.second + 1) (fun y hy => hwf y (List.mem_cons_of_mem _ hy)) (by omega) hrest⟩

/-- Rowsets in ascending order that all start after `prev_version` have a
chain from `prev_version + 1`, made of rowsets among them. -/
theorem exists_chain_from (l : List RowsetMeta) (prev_version : Int)
    (hl : ascending_disjoint (l.map RowsetMeta.version))
    (hprev : ∀ x ∈ l, prev_version < x.version.first) :
    ∃ chain, is_chain_from l (prev_version + 1) chain = true ∧ ∀ y ∈ chain, y ∈ l := by
  induction l generalizing prev_version with
  | nil => exact ⟨[], by simp [is_chain_from], by simp⟩
  | cons x rest ih =>
    have hp := List.pairwise_cons.1 (List.pairwise_map.1 hl.1)
    have hwf : ∀ y ∈ x :: rest, y.version.first ≤ y.version.second :=
      fun y hy => hl.2 y.version (List.mem_map_of_mem _ hy)
    have hrest : ascending_disjoint (rest.map RowsetMeta.version) :=
      ⟨List.pairwise_map.2 hp.2, fun y hy => hl.2 y (by
        rw [List.map_cons]; exact List.mem_cons_of_mem _ hy)⟩
    have hxprev := hprev x (List.mem_cons_self _ _)
    have hxwf := hwf x (List.mem_cons_self _ _)
    by_cases hx : x.version.first = prev_version + 1
    · obtain ⟨chain, hchain, hsub⟩ := ih x.version.second hrest (fun y hy => hp.1 y hy)
      refine ⟨x :: chain, ?_, ?_⟩
      · unfold is_chain_from
        simp only [Bool.and_eq_true, decide_eq_true_eq]
        exact ⟨⟨List.mem_cons_self _ _, hx⟩, is_chain_from_cons _ _
          (fun y hy => hwf y (List.mem_cons_of_mem _ (hsub y hy))) (by omega) hchain⟩
      · intro y hy
        rcases List.mem_cons.1 hy with e | hy
        · rw [e]; exact List.mem_cons_self _ _
        · exact List.mem_cons_of_mem _ (hsub y hy)
    · refine ⟨[], ?_, by simp⟩
      unfold is_chain_from
      rw [List.all_eq_true]
      intro y hy
      simp only [decide_eq_true_eq]
      rcases List.mem_cons.1 hy with e | hy
      · subst e; exact hx
      · have := hp.1 y hy
        omega

/-- The loop of the compaction scores: with a score below 2^32 it adds, modulo
2^32, the scores of the rowset metas that are not skipped, and it notes
whether a rowset meta starts at version 0. -/
theorem compaction_score_loop_eq (skip : RowsetMeta → Bool) (l : List RowsetMeta) (score : Nat)
    (base_rowset_exist : Bool) (hscore : score < 2 ^ 32) :
    compaction_score_loop skip l score base_rowset_exist =
      ((score + ((l.filter (fun rs => !skip rs)).map RowsetMeta.get_compaction_score).sum) %
          2 ^ 32,
        base_rowset_exist || l.any (fun rs => decide (rs.start_version = 0))) := by
  induction l generalizing score base_rowset_exist with
  | nil =>
    simp only [compaction_score_loop, List.filter_nil, List.map_nil, List.sum_nil, Nat.add_zero,
      List.any_nil, Bool.or_false, Nat.mod_eq_of_lt hscore]
  | cons x rest ih =>
    have hbase : ∀ b : Bool, ((if x.start_version = 0 then true else b) ||
          rest.any (fun rs => decide (rs.start_version = 0))) =
        (b || (x :: rest).any (fun rs => decide (rs.start_version = 0))) := by
      intro b
      by_cases h0 : x.start_version = 0 <;> simp [h0]
    by_cases hskip : skip x = true
    · have hf : (x :: rest).filter (fun rs => !skip rs) = rest.filter (fun rs => !skip rs) := by
        simp [List.filter_cons, hskip]
      simp only [compaction_score_loop, hskip, if_true]
      rw [ih score _ hscore, hf, hbase]
    · have hs : skip x = false := by simpa using hskip
      have hf : (x :: rest).filter (fun rs => !skip rs) =
          x :: rest.filter (fun rs => !skip rs) := by
        simp [List.filter_cons, hs]
      simp only [compaction_score_loop, hs, Bool.false_eq_true, if_false]
      rw [ih _ _ (Nat.mod_lt _ (by norm_num)), hf, hbase, List.map_cons, List.sum_cons]
      refine Prod.ext ?_ rfl
      simp only
      omega

theorem pick_cumulative_loop_eq (cumulative_point skip_window_sec now : Int) (m : VersionMap)
    (candidate_rowsets : List Rowset) :
    pick_cumulative_loop cumulative_point skip_window_sec now m candidate_rowsets =
      candidate_rowsets ++
        (m.filter (fun it => decide (it.1.first ≥ cumulative_point) &&
          decide (it.2.creation_time + skip_window_sec < now))).map Prod.snd := by
  induction m generalizing candidate_rowsets with
  | nil => simp [pick_cumulative_loop]
  | cons it rest ih =>
    unfold pick_cumulative_loop
    by_cases h : (decide (it.1.first ≥ cumulative_point) &&
        decide (it.2.creation_time + skip_window_sec < now)) = true
    · rw [if_pos h, ih]
      simp only [List.filter_cons, h, if_true, List.map_cons, List.append_assoc,
        List.singleton_append]
    · rw [if_neg h, ih]
      simp only [List.filter_cons, h, if_false, Bool.false_eq_true]

theorem pick_base_loop_eq (cumulative_point : Int) (m : VersionMap)
    (candidate_rowsets : List Rowset) :
    pick_base_loop cumulative_point m candidate_rowsets =
      candidate_rowsets ++
        (m.filter (fun it => decide (it.1.first < cumulative_point))).map Prod.snd := by
  induction m generalizing candidate_rowsets with
  | nil => simp [pick_base_loop]
  | cons it rest ih =>
    unfold pick_base_loop
    by_cases h : it.1.first < cumulative_point
    · rw [if_pos h, ih]
      simp only [List.filter_cons, h, decide_True, if_true, List.map_cons, List.append_assoc,
        List.singleton_append]
    · rw [if_neg h, ih]
      simp only [List.filter_cons, h, decide_False, if_false, Bool.false_eq_true]

/-! ## Lemmas on the sweep of stale rowsets -/

theorem VersionMap.erase_of_find_none {m : VersionMap} {v : Version}
    (h : VersionMap.find m v = none) : VersionMap.erase m v = m := by
  apply VersionMap.erase_of_not_key
  intro hk
  have := (VersionMap.find_isSome_iff m v).2 hk
  rw [h] at this
  exact absurd this (by simp)

theorem VersionMap.find_erase_eq_some {m : VersionMap} {v w : Version} {r : Rowset} :
    VersionMap.find (VersionMap.erase m v) w = some r ↔ w ≠ v ∧ VersionMap.find m w = some r := by
  by_cases h : w = v
  · subst h
    rw [VersionMap.find_erase_self]
    simp
  · rw [VersionMap.find_erase_of_ne m h]
    simp [h]

/-- What is found under `v` once the keys of a list are filtered out. -/
theorem VersionMap.find_filter_not_mem (m : VersionMap) (vs : List Version) (v : Version) :
    VersionMap.find (m.filter (fun it => decide (it.1 ∉ vs))) v =
      if v ∈ vs then none else VersionMap.find m v := by
  induction m with
  | nil => simp [VersionMap.find]
  | cons it rest ih =>
    by_cases hin : it.1 ∈ vs
    · have hf : (it :: rest).filter (fun it => decide (it.1 ∉ vs)) =
          rest.filter (fun it => decide (it.1 ∉ vs)) := by
        simp [List.filter_cons, hin]
      rw [hf, ih]
      by_cases hv : v ∈ vs
      · simp [hv]
      · have hk : it.1 ≠ v := fun e => hv (e ▸ hin)
        rw [VersionMap.find_cons_ne _ _ v hk]
    · have hf : (it :: rest).filter (fun it => decide (it.1 ∉ vs)) =
          it :: rest.filter (fun it => decide (it.1 ∉ vs)) := by
        simp [List.filter_cons, hin]
      rw [hf]
      by_cases hk : it.1 = v
      · have hv : v ∉ vs := fun h => hin (hk ▸ h)
        rw [VersionMap.find_cons_eq _ _ v hk, VersionMap.find_cons_eq _ _ v hk, if_neg hv]
      · rw [VersionMap.find_cons_ne _ _ v hk, VersionMap.find_cons_ne _ _ v hk, ih]

/-- What the loop over the versions of one path leaves: the stale map without
the keys among these versions, the rowsets found under them handed to the
reclaimer, the current map and the recorded recover calls untouched. -/
theorem sweep_delete_versions_spec {M K : Type} (tm : TabletMetaApi M) (s : Sweep M K)
    (path : PathVersionList) :
    (sweep_delete_versions tm s path).tablet._stale_rs_version_map =
        s.tablet._stale_rs_version_map.filter
          (fun it => decide (it.1 ∉ path.map TimestampedVersion.version)) ∧
      (∀ r, r ∈ (sweep_delete_versions tm s path).unused_rowsets ↔
        r ∈ s.unused_rowsets ∨ ∃ v ∈ path.map TimestampedVersion.version,
          VersionMap.find s.tablet._stale_rs_version_map v = some r) ∧
      (sweep_delete_versions tm s path).tablet._rs_version_map = s.tablet._rs_version_map ∧
      (sweep_delete_versions tm s path).recover_calls = s.recover_calls := by
  induction path generalizing s with
  | nil => simp [sweep_delete_versions]
  | cons tv rest ih =>
    unfold sweep_delete_versions
    have hmeta : ∀ u : Tablet M K,
        (_delete_stale_rowset_by_version tm u tv.version)._stale_rs_version_map =
            u._stale_rs_version_map ∧
          (_delete_stale_rowset_by_version tm u tv.version)._rs_version_map =
            u._rs_version_map := by
      intro u
      unfold _delete_stale_rowset_by_version
      split <;> exact ⟨rfl, rfl⟩
    have hfilter : ∀ m : VersionMap,
        (VersionMap.erase m tv.version).filter
            (fun it => decide (it.1 ∉ rest.map TimestampedVersion.version)) =
          m.filter (fun it => decide (it.1 ∉ (tv :: rest).map TimestampedVersion.version)) := by
      intro m
      rw [VersionMap.erase, List.filter_filter]
      apply List.filter_congr
      intro it _
      simp [not_or, Bool.and_comm]
    cases hfind : VersionMap.find s.tablet._stale_rs_version_map tv.version with
    | none =>
      simp only []
      obtain ⟨h1, h2, h3, h4⟩ := ih { s with
        tablet := _delete_stale_rowset_by_version tm s.tablet tv.version }
      refine ⟨?_, ?_, ?_, ?_⟩
      · rw [h1, (hmeta s.tablet).1, ← hfilter, VersionMap.erase_of_find_none hfind]
      · intro r
        rw [h2, (hmeta s.tablet).1]
        constructor
        · rintro (h | ⟨v, hv, hr⟩)
          · exact Or.inl h
          · exact Or.inr ⟨v, by rw [List.map_cons]; exact List.mem_cons_of_mem _ hv, hr⟩
        · rintro (h | ⟨v, hv, hr⟩)
          · exact Or.inl h
          · rw [List.map_cons] at hv
            rcases List.mem_cons.1 hv with e | hv
            · rw [e, hfind] at hr
              exact absurd hr (by simp)
            · exact Or.inr ⟨v, hv, hr⟩
      · rw [h3, (hmeta s.tablet).2]
      · rw [h4]
    | some rowset =>
      simp only []
      obtain ⟨h1, h2, h3, h4⟩ := ih { s with
        unused_rowsets := s.unused_rowsets ++ [rowset]
        tablet := _delete_stale_rowset_by_version tm { s.tablet with
          _stale_rs_version_map :=
            VersionMap.erase s.tablet._stale_rs_version_map tv.version } tv.version }
      refine ⟨?_, ?_, ?_, ?_⟩
      · rw [h1, (hmeta _).1, hfilter]
      · intro r
        rw [h2, (hmeta _).1]
        simp only [List.mem_append, List.mem_singleton]
        constructor
        · rintro ((h | h) | ⟨v, hv, hr⟩)
          · exact Or.inl h
          · exact Or.inr ⟨tv.version, by simp, by rw [h]; exact hfind⟩
          · exact Or.inr ⟨v, by rw [List.map_cons]; exact List.mem_cons_of_mem _ hv,
              (VersionMap.find_erase_eq_some.1 hr).2⟩
        · rintro (h | ⟨v, hv, hr⟩)
          · exact Or.inl (Or.inl h)
          · by_cases e : v = tv.version
            · rw [e, hfind] at hr
              exact Or.inl (Or.inr (Option.some.inj hr).symm)
            · rw [List.map_cons] at hv
              rcases List.mem_cons.1 hv with e' | hv
              · exact absurd e' e
              · exact Or.inr ⟨v, hv, VersionMap.find_erase_eq_some.2 ⟨e, hr⟩⟩
      · rw [h3, (hmeta _).2]
      · rw [h4]

/-- What the loop over the path map leaves, as `sweep_delete_versions_spec`
for the versions of all its paths. -/
theorem sweep_delete_paths_spec {M K : Type} (tm : TabletMetaApi M) (s : Sweep M K)
    (m : PathMap) :
    (sweep_delete_paths tm s m).tablet._stale_rs_version_map =
        s.tablet._stale_rs_version_map.filter (fun it => decide (it.1 ∉ PathMap.versions m)) ∧
      (∀ r, r ∈ (sweep_delete_paths tm s m).unused_rowsets ↔
        r ∈ s.unused_rowsets ∨ ∃ v ∈ PathMap.versions m,
          VersionMap.find s.tablet._stale_rs_version_map v = some r) ∧
      (sweep_delete_paths tm s m).tablet._rs_version_map = s.tablet._rs_version_map ∧
      (sweep_delete_paths tm s m).recover_calls = s.recover_calls := by
  induction m generalizing s with
  | nil => simp [sweep_delete_paths, PathMap.versions]
  | cons it rest ih =>
    unfold sweep_delete_paths
    obtain ⟨a1, a2, a3, a4⟩ := sweep_delete_versions_spec tm s it.2
    obtain ⟨b1, b2, b3, b4⟩ := ih (sweep_delete_versions tm s it.2)
    have hv : PathMap.versions (it :: rest) =
        it.2.map TimestampedVersion.version ++ PathMap.versions rest := by
      simp [PathMap.versions]
    refine ⟨?_, ?_, ?_, ?_⟩
    · rw [b1, a1, List.filter_filter, hv]
      apply List.filter_congr
      intro e _
      simp only [List.mem_append, not_or, Bool.decide_and, Bool.and_comm]
    · intro r
      rw [b2, a2, a1, hv]
      constructor
      · rintro ((h | ⟨v, hv1, hr⟩) | ⟨v, hv1, hr⟩)
        · exact Or.inl h
        · exact Or.inr ⟨v, List.mem_append_left _ hv1, hr⟩
        · rw [VersionMap.find_filter_not_mem] at hr
          split at hr
          · exact absurd hr (by simp)
          · exact Or.inr ⟨v, List.mem_append_right _ hv1, hr⟩
      · rintro (h | ⟨v, hv1, hr⟩)
        · exact Or.inl (Or.inl h)
        · by_cases hin : v ∈ it.2.map TimestampedVersion.version
          · exact Or.inl (Or.inr ⟨v, hin, hr⟩)
          · rcases List.mem_append.1 hv1 with h | h
            · exact absurd h hin
            · refine Or.inr ⟨v, h, ?_⟩
              rw [VersionMap.find_filter_not_mem, if_neg hin]
              exact hr
    · rw [b3, a3]
    · rw [b4, a4]

theorem PathMap.mem_keys_assign (m : PathMap) (path_id : Int) (path : PathVersionList)
    (id : Int) :
    id ∈ PathMap.keys (PathMap.assign m path_id path) ↔ id = path_id ∨ id ∈ PathMap.keys m := by
  induction m with
  | nil => simp [PathMap.assign, PathMap.keys]
  | cons it rest ih =>
    unfold PathMap.assign
    by_cases h1 : path_id < it.1
    · rw [if_pos h1]
      simp [PathMap.keys]
    · rw [if_neg h1]
      by_cases h2 : path_id = it.1
      · rw [if_pos h2]
        simp only [PathMap.keys, List.map_cons, List.mem_cons]
        rw [← h2]
        tauto
      · rw [if_neg h2]
        have ih' : id ∈ List.map Prod.fst (PathMap.assign rest path_id path) ↔
            id = path_id ∨ id ∈ List.map Prod.fst rest := ih
        simp only [PathMap.keys, List.map_cons, List.mem_cons, ih']
        tauto

/-- The path map at the end of the consistency check holds the paths fetched
so far: all of them when every check passed, those up to the failing one
otherwise. -/
theorem sweep_check_keys {M K : Type} (env : Env M K) (t : Tablet M K) (lastest_delta : Rowset)
    (path_ids : List Int) (tracker : K) (m : PathMap) :
    (∀ tracker2 m2, sweep_check env t lastest_delta tracker m path_ids =
          SweepCheck.consistent tracker2 m2 →
        ∀ id, id ∈ PathMap.keys m2 ↔ id ∈ PathMap.keys m ∨ id ∈ path_ids) ∧
      (∀ tracker2 m2, sweep_check env t lastest_delta tracker m path_ids =
          SweepCheck.inconsistent tracker2 m2 →
        ∃ done failed rest, path_ids = done ++ failed :: rest ∧
          ∀ id, id ∈ PathMap.keys m2 ↔ id ∈ PathMap.keys m ∨ id ∈ done ++ [failed]) := by
  induction path_ids generalizing tracker m with
  | nil =>
    constructor
    · intro tracker2 m2 h
      simp only [sweep_check, SweepCheck.consistent.injEq] at h
      rw [← h.2]
      simp
    · intro tracker2 m2 h
      simp [sweep_check] at h
  | cons path_id rest ih =>
    by_cases hs : (capture_consistent_versions env
        { t with _timestamped_version_tracker :=
          (env.vt.fetch_and_delete_path_by_id tracker path_id).2 }
        (Version.mk 0 lastest_delta.end_version)).1 ≠ OLAPStatus.OLAP_SUCCESS
    · constructor
      · intro tracker2 m2 h
        simp only [sweep_check, hs, ne_eq, not_false_eq_true, if_true] at h
        exact absurd h (by simp)
      · intro tracker2 m2 h
        simp only [sweep_check, hs, ne_eq, not_false_eq_true, if_true,
          SweepCheck.inconsistent.injEq] at h
        refine ⟨[], path_id, rest, rfl, ?_⟩
        intro id
        rw [← h.2, PathMap.mem_keys_assign]
        simp [or_comm]
    · obtain ⟨ih1, ih2⟩ := ih (env.vt.fetch_and_delete_path_by_id tracker path_id).2
        (PathMap.assign m path_id (env.vt.fetch_and_delete_path_by_id tracker path_id).1)
      constructor
      · intro tracker2 m2 h
        simp only [sweep_check, hs, if_false] at h
        intro id
        rw [ih1 tracker2 m2 h id, PathMap.mem_keys_assign]
        simp only [List.mem_cons]
        tauto
      · intro tracker2 m2 h
        simp only [sweep_check, hs, if_false] at h
        obtain ⟨done, failed, rest2, hsplit, hkeys⟩ := ih2 tracker2 m2 h
        refine ⟨path_id :: done, failed, rest2, by rw [hsplit]; rfl, ?_⟩
        intro id
        rw [hkeys id, PathMap.mem_keys_assign]
        simp only [List.cons_append, List.mem_cons, List.mem_append, List.mem_singleton]
        tauto

theorem missed_versions_differ_self (missed_versions : List Version) :
    missed_versions_differ missed_versions missed_versions = false := by
  unfold missed_versions_differ
  have hz : ∀ l : List Version,
      (List.zip l l).any (fun p => decide (p.1 ≠ p.2)) = false := by
    intro l
    induction l with
    | nil => rfl
    | cons a rest ih =>
      rw [List.zip_cons_cons, List.any_cons, ih]
      simp
  rw [hz]
  simp

/-- Recovering the tracker leaves tablet meta, and with it the missed versions,
as they are. -/
theorem calc_missed_versions_unlocked_recover {M K : Type} (env : Env M K) (s : Sweep M K)
    (stale_version_path_map : PathMap) (spec_version : Int) :
    calc_missed_versions_unlocked env.tm
        (sweep_recover_tracker env.vt s stale_version_path_map).tablet spec_version =
      calc_missed_versions_unlocked env.tm s.tablet spec_version := rfl

/-- With the missed versions of before the tentative removal, the branch after
a failed check recovers the tracker once and returns. -/
theorem sweep_recover_returns {M K : Type} (env : Env M K) (cfg : Config)
    (lastest_delta : Rowset) (s : Sweep M K) (stale_version_path_map : PathMap) :
    sweep_recover env cfg
        (calc_missed_versions_unlocked env.tm s.tablet lastest_delta.end_version) lastest_delta s
        stale_version_path_map =
      Outcome.returned () (sweep_recover_tracker env.vt s stale_version_path_map) := by
  unfold sweep_recover
  simp only [calc_missed_versions_unlocked_recover, missed_versions_differ_self,
    Bool.false_eq_true, if_false]

/-! ## Lemmas on _capture_consistent_rowsets_unlocked -/

theorem capture_consistent_rowsets_loop {M K : Type} (t : Tablet M K) (p : List Version)
    (rowsets : List Rowset) :
    ((_capture_consistent_rowsets_unlocked t p rowsets).1 = OLAPStatus.OLAP_SUCCESS ∨
        (_capture_consistent_rowsets_unlocked t p rowsets).1 =
          OLAPStatus.OLAP_ERR_CAPTURE_ROWSET_ERROR) ∧
      ((_capture_consistent_rowsets_unlocked t p rowsets).1 = OLAPStatus.OLAP_SUCCESS ↔
        ∀ v ∈ p, ((VersionMap.find t._rs_version_map v).or
          (VersionMap.find t._stale_rs_version_map v)).isSome = true) ∧
      ((_capture_consistent_rowsets_unlocked t p rowsets).1 = OLAPStatus.OLAP_SUCCESS →
        (_capture_consistent_rowsets_unlocked t p rowsets).2.map some =
          rowsets.map some ++ p.map (fun v => (VersionMap.find t._rs_version_map v).or
            (VersionMap.find t._stale_rs_version_map v))) := by
  induction p generalizing rowsets with
  | nil => simp [_capture_consistent_rowsets_unlocked]
  | cons version rest ih =>
    unfold _capture_consistent_rowsets_unlocked
    cases hc : VersionMap.find t._rs_version_map version with
    | some rowset =>
      obtain ⟨h1, h2, h3⟩ := ih (rowsets ++ [rowset])
      simp only [hc]
      refine ⟨h1, ?_, ?_⟩
      · rw [h2]
        simp [hc]
      · intro hs
        rw [h3 hs]
        simp [hc]
    | none =>
      cases hst : VersionMap.find t._stale_rs_version_map version with
      | some rowset =>
        obtain ⟨h1, h2, h3⟩ := ih (rowsets ++ [rowset])
        simp only [hc, hst]
        refine ⟨h1, ?_, ?_⟩
        · rw [h2]
          simp [hc, hst]
        · intro hs
          rw [h3 hs]
          simp [hc, hst]
      | none =>
        simp [hc, hst]

theorem sweep_delete_versions_warned {M K : Type} (tm : TabletMetaApi M) (s : Sweep M K)
    (path : PathVersionList) :
    (sweep_delete_versions tm s path).unconsistent_delete_warned =
      s.unconsistent_delete_warned := by
  induction path generalizing s with
  | nil => rfl
  | cons timestampedVersion rest ih =>
    unfold sweep_delete_versions
    rw [ih]
    cases VersionMap.find s.tablet._stale_rs_version_map timestampedVersion.version <;> rfl

theorem sweep_delete_paths_warned {M K : Type} (tm : TabletMetaApi M) (s : Sweep M K)
    (m : PathMap) :
    (sweep_delete_paths tm s m).unconsistent_delete_warned = s.unconsistent_delete_warned := by
  induction m generalizing s with
  | nil => rfl
  | cons to_delete rest ih =>
    unfold sweep_delete_paths
    rw [ih, sweep_delete_versions_warned]

/-! ## Lemmas relating the walks over the sorted versions -/

/-- The two sorts, of the versions and of the pairs of version and hash, put
the versions in the same order. -/
theorem sort_existing_version_pairs_versions (l : List RowsetMeta) :
    (sort_existing_version_pairs (l.map (fun rs => (rs.version, rs.version_hash)))).map
        Prod.fst =
      sort_existing_versions (l.map RowsetMeta.version) := by
  unfold sort_existing_version_pairs sort_existing_versions
  rw [List.map_insertionSort (fun left right : Version × Int => left.1.first ≤ right.1.first)
    (fun a b : Version => a.first ≤ b.first) Prod.fst _ (fun _ _ _ _ => Iff.rfl), List.map_map]
  rfl

theorem unit_versions_eq_nil {lo hi : Int} : unit_versions lo hi = [] ↔ hi ≤ lo := by
  unfold unit_versions
  rw [List.map_eq_nil_iff, List.range_eq_nil]
  omega

/-- Behind a version that ends before `spec_version` and before all the
following start, the walk of `calc_missed_versions_unlocked` emits nothing
exactly when the loop of `_max_continuous_version_from_beginning_unlocked`
reaches `spec_version`. -/
theorem calc_missed_versions_walk_eq_nil_iff (spec_version : Int) (l : List (Version × Int))
    (m : Version) (h : ascending_disjoint (l.map Prod.fst))
    (hm : ∀ x ∈ l, m.second < x.1.first) (hspec : m.second < spec_version) :
    calc_missed_versions_walk spec_version (l.map Prod.fst) m.second = [] ↔
      spec_version ≤ (max_continuous_version_loop l m).second := by
  induction l generalizing m with
  | nil =>
    simp only [List.map_nil, calc_missed_versions_walk, max_continuous_version_loop,
      unit_versions_eq_nil]
    omega
  | cons x rest ih =>
    have hp := List.pairwise_cons.1 (List.pairwise_map.1 h.1)
    have hxwf : x.1.first ≤ x.1.second := h.2 x.1 (by simp)
    have hxm := hm x (List.mem_cons_self _ _)
    have hrest : ascending_disjoint (rest.map Prod.fst) :=
      ⟨List.pairwise_map.2 hp.2, fun y hy => h.2 y (by
        rw [List.map_cons]; exact List.mem_cons_of_mem _ hy)⟩
    rw [List.map_cons]
    unfold calc_missed_versions_walk max_continuous_version_loop
    by_cases hgap : x.1.first > m.second + 1
    · rw [if_pos hgap, if_pos hgap]
      constructor
      · intro hnil
        have h1 := (List.append_eq_nil.1 hnil).1
        rw [unit_versions_eq_nil] at h1
        omega
      · intro hle
        omega
    · rw [if_neg hgap, if_neg hgap, List.nil_append]
      by_cases hbreak : x.1.second ≥ spec_version
      · rw [if_pos hbreak, unit_versions_eq_nil]
        have h1 := (max_continuous_version_loop_spec rest x.1 hrest (fun y hy => hp.1 y hy)).1
        constructor
        · intro _; omega
        · intro _; omega
      · rw [if_neg hbreak]
        exact ih x.1 hrest (fun y hy => hp.1 y hy) (by omega)

/-- With well-formed, pairwise non-overlapping rowset versions of which one
starts at 0, on a non-updatable tablet: `calc_missed_versions_unlocked` emits
nothing exactly when the max continuous version reaches `spec_version`. -/
theorem calc_missed_versions_unlocked_eq_nil_iff {M K : Type} (tm : TabletMetaApi M)
    (t : Tablet M K) (spec_version : Int) (h_upd : t._updates = none)
    (h_wf : ∀ rs ∈ tm.all_rs_metas t._tablet_meta, rs.version.wellFormed)
    (h_pair : (tm.all_rs_metas t._tablet_meta).Pairwise
      (fun a b => ¬ a.version.overlaps b.version))
    (h_zero : ∃ rs ∈ tm.all_rs_metas t._tablet_meta, rs.version.first = 0) :
    calc_missed_versions_unlocked tm t spec_version = [] ↔
      spec_version ≤ (_max_continuous_version_from_beginning_unlocked tm t).second := by
  have hasc := insertionSort_ascending_disjoint (Prod.fst : Version × Int → Version)
    ((tm.all_rs_metas t._tablet_meta).map (fun rs => (rs.version, rs.version_hash)))
    (by
      intro x hx
      obtain ⟨rs, hrs, rfl⟩ := List.mem_map.1 hx
      exact h_wf rs hrs)
    (List.pairwise_map.2 h_pair)
  have hperm : (sort_existing_version_pairs
      ((tm.all_rs_metas t._tablet_meta).map (fun rs => (rs.version, rs.version_hash)))).Perm
      ((tm.all_rs_metas t._tablet_meta).map (fun rs => (rs.version, rs.version_hash))) :=
    List.perm_insertionSort _ _
  have of_meta : ∀ rs ∈ tm.all_rs_metas t._tablet_meta,
      (rs.version, rs.version_hash) ∈ sort_existing_version_pairs
        ((tm.all_rs_metas t._tablet_meta).map (fun rs => (rs.version, rs.version_hash))) :=
    fun rs hrs => hperm.symm.subset (List.mem_map_of_mem _ hrs)
  have hr : _max_continuous_version_from_beginning_unlocked tm t =
      max_continuous_version_loop (sort_existing_version_pairs
        ((tm.all_rs_metas t._tablet_meta).map (fun rs => (rs.version, rs.version_hash))))
        (Version.mk (-1) 0) := by
    simp only [_max_continuous_version_from_beginning_unlocked, h_upd]
  rw [hr]
  unfold calc_missed_versions_unlocked
  simp only []
  rw [← sort_existing_version_pairs_versions]
  change ascending_disjoint ((sort_existing_version_pairs _).map Prod.fst) at hasc
  generalize sort_existing_version_pairs
    ((tm.all_rs_metas t._tablet_meta).map (fun rs => (rs.version, rs.version_hash))) = l
    at hasc of_meta
  obtain ⟨rs0, hrs0, h0⟩ := h_zero
  cases l with
  | nil =>
    have := of_meta rs0 hrs0
    simp at this
  | cons x rest =>
    have hp := List.pairwise_cons.1 (List.pairwise_map.1 hasc.1)
    have hxwf : x.1.first ≤ x.1.second := hasc.2 x.1 (by simp)
    have hrest : ascending_disjoint (rest.map Prod.fst) :=
      ⟨List.pairwise_map.2 hp.2, fun y hy => hasc.2 y (by
        rw [List.map_cons]; exact List.mem_cons_of_mem _ hy)⟩
    have hx0 : x.1.first ≤ 0 := by
      rcases List.mem_cons.1 (of_meta rs0 hrs0) with e | hy
      · have hx1 : rs0.version = x.1 := congrArg Prod.fst e
        rw [← hx1, h0]
      · have := hp.1 _ hy
        simp only at this
        omega
    have hw : calc_missed_versions_walk spec_version (List.map Prod.fst (x :: rest)) (-1) =
        if x.1.second ≥ spec_version then unit_versions (x.1.second + 1) (spec_version + 1)
        else calc_missed_versions_walk spec_version (rest.map Prod.fst) x.1.second := by
      rw [List.map_cons, calc_missed_versions_walk,
        if_neg (show ¬ x.1.first > -1 + 1 by omega), List.nil_append]
    have hl : max_continuous_version_loop (x :: rest) (Version.mk (-1) 0) =
        max_continuous_version_loop rest x.1 := by
      rw [max_continuous_version_loop,
        if_neg (show ¬ x.1.first > (Version.mk (-1) 0).second + 1 by simp only; omega)]
    rw [hw, hl]
    by_cases hbreak : x.1.second ≥ spec_version
    · rw [if_pos hbreak, unit_versions_eq_nil]
      have h1 := (max_continuous_version_loop_spec rest x.1 hrest (fun y hy => hp.1 y hy)).1
      constructor
      · intro _; omega
      · intro _; omega
    · rw [if_neg hbreak]
      exact calc_missed_versions_walk_eq_nil_iff spec_version rest x.1 hrest
        (fun y hy => hp.1 y hy) (by omega)

/-- Over rowsets in ascending order that all start after `prev_version`, with a
point not beyond `prev_version + 1`: the loop of `calculate_cumulative_point`
does not lower the point, no rowset that starts before the point it gives
stops the point, and rowsets that start before it cover every position from
`prev_version + 1` up to it. -/
theorem calculate_cumulative_point_loop_base (is_delete : Version → Bool)
    (l : List RowsetMeta) (prev_version cumulative_point : Int)
    (hl : ascending_disjoint (l.map RowsetMeta.version))
    (hprev : ∀ x ∈ l, prev_version < x.version.first)
    (hcp : cumulative_point ≤ prev_version + 1) :
    cumulative_point ≤
        calculate_cumulative_point_loop is_delete l prev_version cumulative_point ∧
      (∀ x ∈ l,
        x.version.first <
            calculate_cumulative_point_loop is_delete l prev_version cumulative_point →
          stops_cumulative_point is_delete x = false) ∧
      (∀ v, prev_version < v →
        v < calculate_cumulative_point_loop is_delete l prev_version cumulative_point →
        ∃ x ∈ l,
          x.version.first <
              calculate_cumulative_point_loop is_delete l prev_version cumulative_point ∧
            x.version.covers v) := by
  induction l generalizing prev_version cumulative_point with
  | nil =>
    refine ⟨le_refl _, by simp, ?_⟩
    intro v h1 h2
    simp only [calculate_cumulative_point_loop] at h2
    omega
  | cons x rest ih =>
    have hp := List.pairwise_cons.1 (List.pairwise_map.1 hl.1)
    have hwf : ∀ y ∈ x :: rest, y.version.first ≤ y.version.second :=
      fun y hy => hl.2 y.version (List.mem_map_of_mem _ hy)
    have hrest : ascending_disjoint (rest.map RowsetMeta.version) :=
      ⟨List.pairwise_map.2 hp.2, fun y hy => hl.2 y (by
        rw [List.map_cons]; exact List.mem_cons_of_mem _ hy)⟩
    have hxprev := hprev x (List.mem_cons_self _ _)
    have hxwf := hwf x (List.mem_cons_self _ _)
    unfold calculate_cumulative_point_loop
    by_cases hgap : x.version.first > prev_version + 1
    · rw [if_pos hgap]
      refine ⟨le_refl _, ?_, ?_⟩
      · intro y hy hlt
        have := hprev y hy
        omega
      · intro v h1 h2
        omega
    · rw [if_neg hgap]
      by_cases hstop : stops_cumulative_point is_delete x = true
      · have hstop' := hstop
        unfold stops_cumulative_point at hstop'
        rw [if_pos hstop']
        refine ⟨by omega, ?_, ?_⟩
        · intro y hy hlt
          rcases List.mem_cons.1 hy with e | hy
          · subst e; omega
          · have := hp.1 y hy
            omega
        · intro v h1 h2
          omega
      · have hstop' := hstop
        unfold stops_cumulative_point at hstop'
        rw [if_neg hstop']
        obtain ⟨h1, h2, h3⟩ := ih x.version.second (x.version.second + 1) hrest
          (fun y hy => hp.1 y hy) (le_refl _)
        refine ⟨by omega, ?_, ?_⟩
        · intro y hy hlt
          rcases List.mem_cons.1 hy with e | hy
          · subst e
            simpa using hstop
          · exact h2 y hy hlt
        · intro v hv1 hv2
          by_cases hvx : v ≤ x.version.second
          · exact ⟨x, List.mem_cons_self _ _, by omega, by unfold Version.covers; omega⟩
          · obtain ⟨y, hy, hlt, hc⟩ := h3 v (by omega) hv2
            exact ⟨y, List.mem_cons_of_mem _ hy, hlt, hc⟩

theorem max_continuous_version_loop_mem (l : List (Version × Int)) (m : Version) :
    max_continuous_version_loop l m = m ∨
      ∃ x ∈ l, max_continuous_version_loop l m = x.1 := by
  induction l generalizing m with
  | nil => exact Or.inl rfl
  | cons x rest ih =>
    unfold max_continuous_version_loop
    split
    · exact Or.inl rfl
    · rcases ih x.1 with h | ⟨y, hy, h⟩
      · exact Or.inr ⟨x, List.mem_cons_self _ _, h⟩
      · exact Or.inr ⟨y, List.mem_cons_of_mem _ hy, h⟩

/-- Every version the walk emits is a unit version up to `spec_version` or
before the start of a version of the list. -/
theorem calc_missed_versions_walk_bound (spec_version : Int) (l : List Version)
    (last_version : Int) :
    ∀ e ∈ calc_missed_versions_walk spec_version l last_version,
      ∃ i, e = Version.mk i i ∧ (i ≤ spec_version ∨ ∃ x ∈ l, i < x.first) := by
  induction l generalizing last_version with
  | nil =>
    intro e he
    obtain ⟨i, rfl, _, h2⟩ := mem_unit_versions.1 he
    exact ⟨i, rfl, Or.inl (by omega)⟩
  | cons x rest ih =>
    intro e he
    unfold calc_missed_versions_walk at he
    rcases List.mem_append.1 he with he | he
    · split at he
      · obtain ⟨i, rfl, _, h2⟩ := mem_unit_versions.1 he
        exact ⟨i, rfl, Or.inr ⟨x, List.mem_cons_self _ _, h2⟩⟩
      · simp at he
    · split at he
      · obtain ⟨i, rfl, _, h2⟩ := mem_unit_versions.1 he
        exact ⟨i, rfl, Or.inl (by omega)⟩
      · obtain ⟨i, hi, hb⟩ := ih x.second e he
        refine ⟨i, hi, ?_⟩
        rcases hb with hb | ⟨y, hy, hb⟩
        · exact Or.inl hb
        · exact Or.inr ⟨y, List.mem_cons_of_mem _ hy, hb⟩

/-- With a rowset starting at 0, the max continuous version is the version of
a rowset meta. -/
theorem max_continuous_version_is_rowset_version {M K : Type} (tm : TabletMetaApi M)
    (t : Tablet M K) (h_upd : t._updates = none)
    (h_wf : ∀ rs ∈ tm.all_rs_metas t._tablet_meta, rs.version.wellFormed)
    (h_pair : (tm.all_rs_metas t._tablet_meta).Pairwise
      (fun a b => ¬ a.version.overlaps b.version))
    (h_zero : ∃ rs ∈ tm.all_rs_metas t._tablet_meta, rs.version.first = 0) :
    ∃ rs ∈ tm.all_rs_metas t._tablet_meta,
      rs.version = _max_continuous_version_from_beginning_unlocked tm t := by
  have hasc := insertionSort_ascending_disjoint (Prod.fst : Version × Int → Version)
    ((tm.all_rs_metas t._tablet_meta).map (fun rs => (rs.version, rs.version_hash)))
    (by
      intro x hx
      obtain ⟨rs, hrs, rfl⟩ := List.mem_map.1 hx
      exact h_wf rs hrs)
    (List.pairwise_map.2 h_pair)
  have hperm : (sort_existing_version_pairs
      ((tm.all_rs_metas t._tablet_meta).map (fun rs => (rs.version, rs.version_hash)))).Perm
      ((tm.all_rs_metas t._tablet_meta).map (fun rs => (rs.version, rs.version_hash))) :=
    List.perm_insertionSort _ _
  have to_meta : ∀ x ∈ sort_existing_version_pairs
      ((tm.all_rs_metas t._tablet_meta).map (fun rs => (rs.version, rs.version_hash))),
      ∃ rs ∈ tm.all_rs_metas t._tablet_meta, rs.version = x.1 := by
    intro x hx
    obtain ⟨rs, hrs, rfl⟩ := List.mem_map.1 (hperm.subset hx)
    exact ⟨rs, hrs, rfl⟩
  have of_meta : ∀ rs ∈ tm.all_rs_metas t._tablet_meta,
      (rs.version, rs.version_hash) ∈ sort_existing_version_pairs
        ((tm.all_rs_metas t._tablet_meta).map (fun rs => (rs.version, rs.version_hash))) :=
    fun rs hrs => hperm.symm.subset (List.mem_map_of_mem _ hrs)
  have hr : _max_continuous_version_from_beginning_unlocked tm t =
      max_continuous_version_loop (sort_existing_version_pairs
        ((tm.all_rs_metas t._tablet_meta).map (fun rs => (rs.version, rs.version_hash))))
        (Version.mk (-1) 0) := by
    simp only [_max_continuous_version_from_beginning_unlocked, h_upd]
  rw [hr]
  change ascending_disjoint ((sort_existing_version_pairs _).map Prod.fst) at hasc
  generalize sort_existing_version_pairs
    ((tm.all_rs_metas t._tablet_meta).map (fun rs => (rs.version, rs.version_hash))) = l
    at hasc to_meta of_meta
  obtain ⟨rs0, hrs0, h0⟩ := h_zero
  cases l with
  | nil =>
    have := of_meta rs0 hrs0
    simp at this
  | cons x rest =>
    have hp := List.pairwise_cons.1 (List.pairwise_map.1 hasc.1)
    have hxwf : x.1.first ≤ x.1.second := hasc.2 x.1 (by simp)
    have hx0 : x.1.first ≤ 0 := by
      rcases List.mem_cons.1 (of_meta rs0 hrs0) with e | hy
      · have hx1 : rs0.version = x.1 := congrArg Prod.fst e
        rw [← hx1, h0]
      · have := hp.1 _ hy
        simp only at this
        omega
    have hl : max_continuous_version_loop (x :: rest) (Version.mk (-1) 0) =
        max_continuous_version_loop rest x.1 := by
      rw [max_continuous_version_loop,
        if_neg (show ¬ x.1.first > (Version.mk (-1) 0).second + 1 by simp only; omega)]
    rw [hl]
    rcases max_continuous_version_loop_mem rest x.1 with h | ⟨y, hy, h⟩
    · rw [h]
      exact to_meta x (List.mem_cons_self _ _)
    · rw [h]
      exact to_meta y (List.mem_cons_of_mem _ hy)

/-- With well-formed, non-negative, pairwise non-overlapping rowset versions
that all end up to `spec_version`: `calc_missed_versions_unlocked` emits a
version exactly when a position of [0, spec_version] is covered by no rowset
version. -/
theorem calc_missed_versions_unlocked_ne_nil_iff {M K : Type} (tm : TabletMetaApi M)
    (t : Tablet M K) (spec_version : Int)
    (h_wf : ∀ rs ∈ tm.all_rs_metas t._tablet_meta, rs.version.wellFormed)
    (h_nonneg : ∀ rs ∈ tm.all_rs_metas t._tablet_meta, 0 ≤ rs.version.first)
    (h_pair : (tm.all_rs_metas t._tablet_meta).Pairwise
      (fun a b => ¬ a.version.overlaps b.version))
    (h_end : ∀ rs ∈ tm.all_rs_metas t._tablet_meta, rs.version.second ≤ spec_version) :
    calc_missed_versions_unlocked tm t spec_version ≠ [] ↔
      ∃ v : Int, 0 ≤ v ∧ v ≤ spec_version ∧
        ∀ rs ∈ tm.all_rs_metas t._tablet_meta, ¬ rs.version.covers v := by
  have hasc := sort_existing_versions_ascending_disjoint
    ((tm.all_rs_metas t._tablet_meta).map RowsetMeta.version)
    (by
      intro x hx
      obtain ⟨rs, hrs, rfl⟩ := List.mem_map.1 hx
      exact h_wf rs hrs)
    (List.pairwise_map.2 h_pair)
  have hperm : (sort_existing_versions
      ((tm.all_rs_metas t._tablet_meta).map RowsetMeta.version)).Perm
      ((tm.all_rs_metas t._tablet_meta).map RowsetMeta.version) := List.perm_insertionSort _ _
  have to_meta : ∀ x ∈ sort_existing_versions
      ((tm.all_rs_metas t._tablet_meta).map RowsetMeta.version),
      ∃ rs ∈ tm.all_rs_metas t._tablet_meta, rs.version = x := by
    intro x hx
    obtain ⟨rs, hrs, rfl⟩ := List.mem_map.1 (hperm.subset hx)
    exact ⟨rs, hrs, rfl⟩
  have of_meta : ∀ rs ∈ tm.all_rs_metas t._tablet_meta,
      rs.version ∈ sort_existing_versions
        ((tm.all_rs_metas t._tablet_meta).map RowsetMeta.version) :=
    fun rs hrs => hperm.symm.subset (List.mem_map_of_mem _ hrs)
  have hlast : ∀ x ∈ sort_existing_versions
      ((tm.all_rs_metas t._tablet_meta).map RowsetMeta.version), (-1 : Int) < x.first := by
    intro x hx
    obtain ⟨rs, hrs, rfl⟩ := to_meta x hx
    have := h_nonneg rs hrs
    omega
  unfold calc_missed_versions_unlocked
  simp only []
  constructor
  · intro hne
    obtain ⟨e, he⟩ := List.exists_mem_of_ne_nil _ hne
    obtain ⟨i, hi, hun⟩ := calc_missed_versions_walk_uncovered spec_version _ (-1) hasc e he
    obtain ⟨j, hj, hafter⟩ := calc_missed_versions_walk_after spec_version _ (-1) hasc hlast e he
    obtain ⟨k, hk, hbound⟩ := calc_missed_versions_walk_bound spec_version _ (-1) e he
    have hij : i = j := by
      rw [hi] at hj
      exact congrArg Version.first hj
    have hik : i = k := by
      rw [hi] at hk
      exact congrArg Version.first hk
    subst hij hik
    refine ⟨i, by omega, ?_, fun rs hrs => hun rs.version (of_meta rs hrs)⟩
    rcases hbound with hb | ⟨x, hx, hb⟩
    · exact hb
    · obtain ⟨rs, hrs, rfl⟩ := to_meta x hx
      have h1 := h_end rs hrs
      have h2 := h_wf rs hrs
      unfold Version.wellFormed at h2
      omega
  · rintro ⟨v, h0, hv, hun⟩
    have hmem := (calc_missed_versions_walk_iff spec_version _ (-1) v hasc (by omega) hv).2
      (by
        intro x hx
        obtain ⟨rs, hrs, rfl⟩ := to_meta x hx
        exact hun rs hrs)
    exact List.ne_nil_of_mem hmem

/-! ## Lemmas on the paths fetched by the sweep -/

/-- C1: on a non-updatable tablet, for a rowset whose id is in neither the
current nor the incremental map and whose rowset meta tablet meta accepts,
`add_rowset` returns OLAP_ERR_PUSH_VERSION_ALREADY_EXIST exactly when some key of
the current map contains the rowset's version; in particular when the version
itself is a key, held by another rowset. -/
theorem add_rowset_version_already_exists_iff {M K : Type} (env : Env M K) (t : Tablet M K)
    (rowset : Rowset) (need_persist : Bool) (h_upd : t._updates = none)
    (h_new : _contains_rowset t rowset.rowset_id = false)
    (h_meta : (env.tm.add_rs_meta t._tablet_meta rowset.rowset_meta).1 = OLAPStatus.OLAP_SUCCESS) :
    ((add_rowset env t rowset need_persist).value =
          some OLAPStatus.OLAP_ERR_PUSH_VERSION_ALREADY_EXIST ↔
        ∃ key ∈ VersionMap.keys t._rs_version_map, key.contains rowset.version = true) ∧
      (∀ other : Rowset, (rowset.version, other) ∈ t._rs_version_map →
        (add_rowset env t rowset need_persist).value =
          some OLAPStatus.OLAP_ERR_PUSH_VERSION_ALREADY_EXIST) := by
  have key_iff : (add_rowset env t rowset need_persist).value =
        some OLAPStatus.OLAP_ERR_PUSH_VERSION_ALREADY_EXIST ↔
      ∃ key ∈ VersionMap.keys t._rs_version_map, key.contains rowset.version = true := by
    rcases contains_version_cases t rowset.version with hv | hv
    · have hins := (add_rowset_inserted env t rowset need_persist h_upd h_new hv h_meta).1
      have hall := (contains_version_eq_success_iff t rowset.version).1 hv
      constructor
      · intro h
        rcases hins with h1 | h1 <;> rw [h1] at h <;> simp at h
      · rintro ⟨key, hk, hc⟩
        rw [hall key hk] at hc
        exact absurd hc (by simp)
    · have hne : ¬ ∀ key ∈ VersionMap.keys t._rs_version_map,
          key.contains rowset.version = false := by
        intro hall
        rw [(contains_version_eq_success_iff t rowset.version).2 hall] at hv
        exact absurd hv (by simp)
      constructor
      · intro _
        by_contra hex
        apply hne
        intro key hk
        by_contra hc
        exact hex ⟨key, hk, by simpa using hc⟩
      · intro _
        simp [add_rowset, h_upd, h_new, hv, Outcome.value]
  refine ⟨key_iff, ?_⟩
  intro other hmem
  refine key_iff.2 ⟨rowset.version, List.mem_map_of_mem Prod.fst hmem, ?_⟩
  simp [Version.contains]

/-- C1, at a concrete input: the current map holds [0-5] under rowset 1; adding
rowset 2 with version [2-3] is refused, and so is rowset 2 with version [0-5]. -/
theorem add_rowset_version_already_exists_iff_witness :
    (add_rowset (list_env true OLAPStatus.OLAP_SUCCESS) (mk_tablet [entry (mk_rowset 1 0 5)] [])
        (mk_rowset 2 2 3) true).value = some OLAPStatus.OLAP_ERR_PUSH_VERSION_ALREADY_EXIST ∧
      (add_rowset (list_env true OLAPStatus.OLAP_SUCCESS) (mk_tablet [entry (mk_rowset 1 0 5)] [])
        (mk_rowset 2 0 5) true).value = some OLAPStatus.OLAP_ERR_PUSH_VERSION_ALREADY_EXIST := by
  constructor
  · exact (add_rowset_version_already_exists_iff (list_env true OLAPStatus.OLAP_SUCCESS)
      (mk_tablet [entry (mk_rowset 1 0 5)] []) (mk_rowset 2 2 3) true rfl (by decide) rfl).1.2
      ⟨Version.mk 0 5, by decide, by decide⟩
  · exact (add_rowset_version_already_exists_iff (list_env true OLAPStatus.OLAP_SUCCESS)
      (mk_tablet [entry (mk_rowset 1 0 5)] []) (mk_rowset 2 0 5) true rfl (by decide) rfl).2
      (mk_rowset 1 0 5) (by decide)

/-- C2: when `add_rowset` of a rowset returned OLAP_SUCCESS and left the state
`t1`, the next `add_rowset` of the same rowset, with any persist flag, returns
OLAP_SUCCESS and leaves exactly `t1`: the current, incremental and stale maps
and the counter of newly created rowsets are those of before the second call.
The current map of the first state is a well-formed map (`VersionMap.ok`). -/
theorem add_rowset_twice_is_noop {M K : Type} (env : Env M K) (t t1 : Tablet M K)
    (rowset : Rowset) (need_persist need_persist2 : Bool)
    (h_ok : VersionMap.ok t._rs_version_map)
    (h : add_rowset env t rowset need_persist = Outcome.returned OLAPStatus.OLAP_SUCCESS t1) :
    add_rowset env t1 rowset need_persist2 = Outcome.returned OLAPStatus.OLAP_SUCCESS t1 ∧
      (add_rowset env t1 rowset need_persist2).state._rs_version_map = t1._rs_version_map ∧
      (add_rowset env t1 rowset need_persist2).state._inc_rs_version_map =
        t1._inc_rs_version_map ∧
      (add_rowset env t1 rowset need_persist2).state._stale_rs_version_map =
        t1._stale_rs_version_map ∧
      (add_rowset env t1 rowset need_persist2).state._newly_created_rowset_num =
        t1._newly_created_rowset_num := by
  obtain ⟨_, h_upd1, hcases⟩ := add_rowset_success_cases env t t1 rowset need_persist h
  have h_in : _contains_rowset t1 rowset.rowset_id = true := by
    rcases hcases with ⟨hc, ht⟩ | ⟨_, _, _, hcur, _, _⟩
    · rw [ht]; exact hc
    · unfold _contains_rowset
      rw [hcur, Bool.or_eq_true]
      left
      exact List.any_eq_true.2
        ⟨(rowset.version, rowset), add_rowset_maps_cur_mem_self h_ok _ rowset, by simp⟩
  have hsecond :
      add_rowset env t1 rowset need_persist2 = Outcome.returned OLAPStatus.OLAP_SUCCESS t1 := by
    simp [add_rowset, h_upd1, h_in]
  rw [hsecond]
  exact ⟨rfl, rfl, rfl, rfl, rfl⟩

/-- C2, at a concrete input: rowset 2 with version [6-9] is added to a tablet
holding [0-5], and then added again. -/
theorem add_rowset_twice_is_noop_witness :
    add_rowset (list_env true OLAPStatus.OLAP_SUCCESS)
        (add_rowset (list_env true OLAPStatus.OLAP_SUCCESS)
          (mk_tablet [entry (mk_rowset 1 0 5)] []) (mk_rowset 2 6 9) true).state
        (mk_rowset 2 6 9) false =
      Outcome.returned OLAPStatus.OLAP_SUCCESS
        (add_rowset (list_env true OLAPStatus.OLAP_SUCCESS)
          (mk_tablet [entry (mk_rowset 1 0 5)] []) (mk_rowset 2 6 9) true).state :=
  (add_rowset_twice_is_noop (list_env true OLAPStatus.OLAP_SUCCESS)
    (mk_tablet [entry (mk_rowset 1 0 5)] []) _ (mk_rowset 2 6 9) true false (by decide)
    (by rfl)).1

/-- C3: after `add_rowset` returned OLAP_SUCCESS for a rowset whose id was in
neither map, on a tablet whose current map is well formed: the current map
holds the rowset under its version, no other key of the current map is
contained in that version, and every rowset that was current under a key
strictly contained in that version is in the stale map under its own
version. -/
theorem add_rowset_retires_contained {M K : Type} (env : Env M K) (t t1 : Tablet M K)
    (rowset : Rowset) (need_persist : Bool) (h_ok : VersionMap.ok t._rs_version_map)
    (h_new : _contains_rowset t rowset.rowset_id = false)
    (h : add_rowset env t rowset need_persist = Outcome.returned OLAPStatus.OLAP_SUCCESS t1) :
    VersionMap.find t1._rs_version_map rowset.version = some rowset ∧
      (∀ key ∈ VersionMap.keys t1._rs_version_map, key ≠ rowset.version →
        rowset.version.contains key = false) ∧
      (∀ key rs, (key, rs) ∈ t._rs_version_map → rowset.version.contains key = true →
        key ≠ rowset.version →
        VersionMap.find t1._stale_rs_version_map rs.version = some rs) := by
  obtain ⟨_, _, hcases⟩ := add_rowset_success_cases env t t1 rowset need_persist h
  rcases hcases with ⟨hc, _⟩ | ⟨_, _, _, hcur, hstale, _⟩
  · rw [h_new] at hc
    exact absurd hc (by simp)
  · refine ⟨?_, ?_, ?_⟩
    · rw [hcur]
      exact VersionMap.find_of_mem (add_rowset_maps_cur_nodup h_ok _ rowset)
        (add_rowset_maps_cur_mem_self h_ok _ rowset)
    · intro key hkey hne
      rw [hcur, add_rowset_maps_cur h_ok] at hkey
      obtain ⟨it, hit, rfl⟩ := List.mem_map.1 hkey
      have hp := (List.mem_filter.1 hit).2
      by_contra hcon
      have hcon2 : rowset.version.contains it.1 = true := by simpa using hcon
      simp [hcon2, Ne.symm hne] at hp
    · intro key rs hmem hc hne
      rw [hstale]
      exact add_rowset_maps_stale_find h_ok _ rowset hmem hc hne

/-- C3, at a concrete input: [0-9] is added to a tablet holding [0-4], [5-5]
and [6-9]; the three of them end in the stale map and [0-9] is current. -/
theorem add_rowset_retires_contained_witness :
    VersionMap.find (add_rowset (list_env true OLAPStatus.OLAP_SUCCESS)
        (mk_tablet [entry (mk_rowset 1 0 4), entry (mk_rowset 2 5 5), entry (mk_rowset 3 6 9)] [])
        (mk_rowset 4 0 9) true).state._rs_version_map (Version.mk 0 9) = some (mk_rowset 4 0 9) ∧
      VersionMap.find (add_rowset (list_env true OLAPStatus.OLAP_SUCCESS)
        (mk_tablet [entry (mk_rowset 1 0 4), entry (mk_rowset 2 5 5), entry (mk_rowset 3 6 9)] [])
        (mk_rowset 4 0 9) true).state._stale_rs_version_map (Version.mk 5 5) =
          some (mk_rowset 2 5 5) := by
  have h := add_rowset_retires_contained (list_env true OLAPStatus.OLAP_SUCCESS)
    (mk_tablet [entry (mk_rowset 1 0 4), entry (mk_rowset 2 5 5), entry (mk_rowset 3 6 9)] [])
    _ (mk_rowset 4 0 9) true (by decide) (by decide) (by rfl)
  exact ⟨h.1, h.2.2 (Version.mk 5 5) (mk_rowset 2 5 5) (by decide) (by decide) (by decide)⟩

/-- C4, as stated, fails: the current map holds only [0-5], so no two keys
overlap; `add_rowset` of a rowset with version [3-8] returns OLAP_SUCCESS, since
no key contains [3-8], and leaves the keys [3-8] and [0-5], which overlap. -/
theorem add_rowset_overlap_counterexample :
    no_overlapping_keys (mk_tablet [entry (mk_rowset 1 0 5)] [])._rs_version_map ∧
      (add_rowset (list_env true OLAPStatus.OLAP_SUCCESS)
        (mk_tablet [entry (mk_rowset 1 0 5)] []) (mk_rowset 2 3 8) false).value =
          some OLAPStatus.OLAP_SUCCESS ∧
      ¬ no_overlapping_keys (add_rowset (list_env true OLAPStatus.OLAP_SUCCESS)
        (mk_tablet [entry (mk_rowset 1 0 5)] []) (mk_rowset 2 3 8) false).state._rs_version_map := by
  refine ⟨by decide, by rfl, by decide⟩

/-- C4, amended: when no two distinct keys of a well-formed current map
overlap and the version of the new rowset crosses no key (each key is
disjoint from it, contains it, or is contained in it), then in the state that
`add_rowset` leaves, however it ends, no two distinct keys of the current map
overlap. -/
theorem add_rowset_preserves_no_overlap {M K : Type} (env : Env M K) (t : Tablet M K)
    (rowset : Rowset) (need_persist : Bool) (h_ok : VersionMap.ok t._rs_version_map)
    (h_inv : no_overlapping_keys t._rs_version_map)
    (h_nested : ∀ key ∈ VersionMap.keys t._rs_version_map,
      ¬ key.overlaps rowset.version ∨ key.contains rowset.version = true ∨
        rowset.version.contains key = true) :
    no_overlapping_keys (add_rowset env t rowset need_persist).state._rs_version_map := by
  rcases add_rowset_state_cases env t rowset need_persist with h | h | h
  · rw [h.1.1]; exact h_inv
  · obtain ⟨h_upd, h_new, h_ver, h_meta⟩ := h
    rw [(add_rowset_inserted env t rowset need_persist h_upd h_new h_ver h_meta).2.2.1,
      add_rowset_maps_cur h_ok]
    have hall := (contains_version_eq_success_iff t rowset.version).1 h_ver
    -- a key of the new map is the new version, or an old key that it does not contain
    have hkey : ∀ a ∈ VersionMap.keys ((VersionMap.assign t._rs_version_map rowset.version
          rowset).filter (fun it =>
            !(rowset.version.contains it.1 && decide (rowset.version ≠ it.1)))),
        a = rowset.version ∨ (a ∈ VersionMap.keys t._rs_version_map ∧
          ¬ a.overlaps rowset.version) := by
      intro a ha
      obtain ⟨it, hit, rfl⟩ := List.mem_map.1 ha
      obtain ⟨hmem, hp⟩ := List.mem_filter.1 hit
      by_cases he : it.1 = rowset.version
      · exact Or.inl he
      · right
        rcases List.mem_cons.1 hmem with e | hmem
        · exact absurd (by rw [e]) he
        · have hk : it.1 ∈ VersionMap.keys t._rs_version_map :=
            List.mem_map_of_mem Prod.fst (VersionMap.mem_erase.1 hmem).1
          refine ⟨hk, ?_⟩
          rcases h_nested it.1 hk with h1 | h1 | h1
          · exact h1
          · rw [hall it.1 hk] at h1; exact absurd h1 (by simp)
          · simp [h1, Ne.symm he] at hp
    intro a ha b hb hab
    rcases hkey a ha with ea | ⟨hao, han⟩ <;> rcases hkey b hb with eb | ⟨hbo, hbn⟩
    · exact absurd (ea.trans eb.symm) hab
    · rw [ea]; exact fun h => hbn (Version.overlaps_symm h)
    · rw [eb]; exact han
    · exact h_inv a hao b hbo hab
  · rw [h.2]; exact h_inv

/-- C4 amended, at a concrete input: [0-9] is added to a tablet holding [0-4]
and [5-5]. -/
theorem add_rowset_preserves_no_overlap_witness :
    no_overlapping_keys (add_rowset (list_env true OLAPStatus.OLAP_SUCCESS)
      (mk_tablet [entry (mk_rowset 1 0 4), entry (mk_rowset 2 5 5)] [])
      (mk_rowset 3 0 9) true).state._rs_version_map :=
  add_rowset_preserves_no_overlap (list_env true OLAPStatus.OLAP_SUCCESS)
    (mk_tablet [entry (mk_rowset 1 0 4), entry (mk_rowset 2 5 5)] []) (mk_rowset 3 0 9) true
    (by decide) (by decide) (by decide)

/-- C5, as stated, fails: from a tablet with empty maps, one rowset is added
with persist set while the durable save reports an error (tablet meta accepts
the rowset meta); the call does not return OLAP_SUCCESS, it ends the process
at the `LOG(FATAL)`. -/
theorem add_rowsets_save_failure_counterexample :
    (mk_tablet [] [])._rs_version_map = [] ∧ (mk_tablet [] [])._inc_rs_version_map = [] ∧
      (mk_tablet [] [])._stale_rs_version_map = [] ∧
      (list_tablet_meta.add_rs_meta (mk_tablet [] [])._tablet_meta
        (mk_rowset 1 0 4).rowset_meta).1 = OLAPStatus.OLAP_SUCCESS ∧
      (add_rowset (list_env false OLAPStatus.OLAP_SUCCESS) (mk_tablet [] [])
        (mk_rowset 1 0 4) true).value = none ∧
      add_rowsets (list_env false OLAPStatus.OLAP_SUCCESS) (mk_tablet [] [])
        [(mk_rowset 1 0 4, true)] = none := by
  refine ⟨rfl, rfl, rfl, rfl, by rfl, by rfl⟩

/-- C5, amended: from a non-updatable tablet whose current and incremental
maps are empty, for rowsets with pairwise distinct ids and well-formed,
pairwise non-overlapping versions, each accepted by tablet meta in the state
that the calls before it left and each saved without error when its call asks
to persist: every `add_rowset` call returns OLAP_SUCCESS, and afterwards
`list_versions` is a permutation of the inserted versions, each of them
exactly once. -/
theorem add_rowsets_list_versions {M K : Type} (env : Env M K) (t : Tablet M K)
    (calls : List (Rowset × Bool)) (h_upd : t._updates = none)
    (h_cur : t._rs_version_map = []) (h_inc : t._inc_rs_version_map = [])
    (h_wf : ∀ call ∈ calls, call.1.version.wellFormed)
    (h_pair : calls.Pairwise (fun a b => a.1.rowset_id ≠ b.1.rowset_id ∧
      ¬ a.1.version.overlaps b.1.version))
    (h_meta : ∀ done call rest t1, calls = done ++ call :: rest →
      add_rowsets env t done = some t1 →
      (env.tm.add_rs_meta t1._tablet_meta call.1.rowset_meta).1 = OLAPStatus.OLAP_SUCCESS)
    (h_save : ∀ call ∈ calls, call.2 = true → env.rowset_meta_save_ok call.1.rowset_meta = true) :
    ∃ t1, add_rowsets env t calls = some t1 ∧
      (list_versions t1).Perm (calls.map (fun call => call.1.version)) := by
  have h_pair2 : calls.Pairwise (fun a b => a.1.rowset_id ≠ b.1.rowset_id ∧
      a.1.version.contains b.1.version = false ∧ b.1.version.contains a.1.version = false) := by
    refine List.Pairwise.imp_of_mem ?_ h_pair
    intro a b ha hb hab
    refine ⟨hab.1, ?_, ?_⟩
    · by_contra hc
      exact hab.2 (Version.overlaps_of_contains (h_wf a ha) (h_wf b hb) (by simpa using hc))
    · by_contra hc
      exact hab.2 (Version.overlaps_symm
        (Version.overlaps_of_contains (h_wf b hb) (h_wf a ha) (by simpa using hc)))
  obtain ⟨t1, hrun, hcur1⟩ := add_rowsets_disjoint env calls t h_upd h_inc
    (by rw [h_cur]; intro it hit; simp at hit) h_pair2 h_meta h_save
  refine ⟨t1, hrun, ?_⟩
  unfold list_versions VersionMap.keys
  rw [hcur1, h_cur, List.append_nil, List.map_map]
  exact (List.reverse_perm calls).map _

/-- C5 amended, at a concrete input: a tablet meta that rejects a version it
holds already; [0-4], [5-5] and [6-9] are added to an empty tablet, the second
one with persist set, and each is accepted in the state the calls before it
left. -/
theorem add_rowsets_list_versions_witness :
    (strict_env.tm.add_rs_meta [(mk_rowset 1 0 4).rowset_meta] (mk_rowset 1 0 4).rowset_meta).1 ≠
        OLAPStatus.OLAP_SUCCESS ∧
      ∃ t1, add_rowsets strict_env (mk_tablet [] [])
          [(mk_rowset 1 0 4, false), (mk_rowset 2 5 5, true), (mk_rowset 3 6 9, false)] =
          some t1 ∧
        (list_versions t1).Perm [Version.mk 0 4, Version.mk 5 5, Version.mk 6 9] :=
  ⟨by decide, add_rowsets_list_versions strict_env (mk_tablet [] [])
    [(mk_rowset 1 0 4, false), (mk_rowset 2 5 5, true), (mk_rowset 3 6 9, false)]
    rfl rfl rfl (by decide) (by decide)
    (by
      intro done call rest t1 hsplit hrun
      rcases done with _ | ⟨d1, _ | ⟨d2, _ | ⟨d3, done⟩⟩⟩
      · simp only [List.nil_append, List.cons.injEq] at hsplit
        obtain ⟨rfl, _⟩ := hsplit
        have ht : t1 = (add_rowsets strict_env (mk_tablet [] []) []).getD (mk_tablet [] []) := by
          rw [hrun]; rfl
        subst ht
        decide
      · simp only [List.cons_append, List.nil_append, List.cons.injEq] at hsplit
        obtain ⟨rfl, rfl, _⟩ := hsplit
        have ht : t1 = (add_rowsets strict_env (mk_tablet [] [])
            [(mk_rowset 1 0 4, false)]).getD (mk_tablet [] []) := by
          rw [hrun]; rfl
        subst ht
        decide
      · simp only [List.cons_append, List.nil_append, List.cons.injEq] at hsplit
        obtain ⟨rfl, rfl, rfl, _⟩ := hsplit
        have ht : t1 = (add_rowsets strict_env (mk_tablet [] [])
            [(mk_rowset 1 0 4, false), (mk_rowset 2 5 5, true)]).getD (mk_tablet [] []) := by
          rw [hrun]; rfl
        subst ht
        decide
      · simp only [List.cons_append, List.cons.injEq] at hsplit
        obtain ⟨_, _, _, hnil⟩ := hsplit
        exact absurd hnil (by simp))
    (fun _ _ _ => rfl)⟩

/-- C6, as stated, fails: rowset 2 with version [6-9] is added with persist set
to a tablet holding [0-5], and the durable save reports an error.  The call
does not complete: the process ends at the `LOG(FATAL)`, and the current map at
that point already holds [6-9], so it is not the map of before the call. -/
theorem add_rowset_save_failure_counterexample :
    (add_rowset (list_env false OLAPStatus.OLAP_SUCCESS) (mk_tablet [entry (mk_rowset 1 0 5)] [])
        (mk_rowset 2 6 9) true).value = none ∧
      (add_rowset (list_env false OLAPStatus.OLAP_SUCCESS)
        (mk_tablet [entry (mk_rowset 1 0 5)] []) (mk_rowset 2 6 9) true).state._rs_version_map ≠
        (mk_tablet [entry (mk_rowset 1 0 5)] [])._rs_version_map ∧
      VersionMap.find (add_rowset (list_env false OLAPStatus.OLAP_SUCCESS)
        (mk_tablet [entry (mk_rowset 1 0 5)] []) (mk_rowset 2 6 9) true).state._rs_version_map
        (Version.mk 6 9) = some (mk_rowset 2 6 9) := by
  refine ⟨by rfl, by decide, by rfl⟩

/-- C6, amended: whenever `add_rowset` with persist set returns a status other
than OLAP_SUCCESS, the current map is the one of before the call; and when the
durable save of a rowset whose id is not yet present reports an error, the
call never returns OLAP_SUCCESS: either it returned an error before reaching
the save, or the process ends at the `LOG(FATAL)`. -/
theorem add_rowset_persist_failure {M K : Type} (env : Env M K) (t : Tablet M K)
    (rowset : Rowset) :
    (∀ status t1, add_rowset env t rowset true = Outcome.returned status t1 →
        status ≠ OLAPStatus.OLAP_SUCCESS → t1._rs_version_map = t._rs_version_map) ∧
      (env.rowset_meta_save_ok rowset.rowset_meta = false →
        _contains_rowset t rowset.rowset_id = false →
        (add_rowset env t rowset true).value ≠ some OLAPStatus.OLAP_SUCCESS ∧
          ((add_rowset env t rowset true).value = none ∨
            (add_rowset env t rowset true).state._rs_version_map = t._rs_version_map)) := by
  constructor
  · intro status t1 h hne
    rcases add_rowset_state_cases env t rowset true with hc | hc | hc
    · have := hc.1.1
      rw [h] at this
      exact this
    · obtain ⟨h_upd, h_new, h_ver, h_meta⟩ := hc
      have hv := (add_rowset_inserted env t rowset true h_upd h_new h_ver h_meta).1
      rw [h] at hv
      rcases hv with hv | hv
      · simp only [Outcome.value, Option.some.injEq] at hv
        exact absurd hv hne
      · simp [Outcome.value] at hv
    · rw [hc.2] at h
      exact absurd h (by simp)
  · intro h_save h_new
    rcases add_rowset_state_cases env t rowset true with hc | hc | hc
    · refine ⟨?_, Or.inr hc.1.1⟩
      intro hs
      have := hc.2.2 hs
      rw [h_new] at this
      exact absurd this (by simp)
    · obtain ⟨h_upd, _, h_ver, h_meta⟩ := hc
      have hv := (add_rowset_inserted env t rowset true h_upd h_new h_ver h_meta).2.1
      have hnone := hv.2 ⟨rfl, h_save⟩
      rw [hnone]
      exact ⟨by simp, Or.inl rfl⟩
    · rw [hc.2]
      exact ⟨by simp [Outcome.value], Or.inl rfl⟩

/-- C6 amended, at a concrete input: [2-3] is refused by a tablet holding
[0-5], whose current map stays as it was. -/
theorem add_rowset_persist_failure_witness :
    (add_rowset (list_env false OLAPStatus.OLAP_SUCCESS) (mk_tablet [entry (mk_rowset 1 0 5)] [])
        (mk_rowset 2 2 3) true).state._rs_version_map = [entry (mk_rowset 1 0 5)] :=
  (add_rowset_persist_failure (list_env false OLAPStatus.OLAP_SUCCESS)
    (mk_tablet [entry (mk_rowset 1 0 5)] []) (mk_rowset 2 2 3)).1
    OLAPStatus.OLAP_ERR_PUSH_VERSION_ALREADY_EXIST _ (by rfl) (by decide)

/-- C7: on a non-updatable tablet whose current map holds `r` under version
`v`, for `r2` of the same version `v`: `modify_rowsets` with `to_add = [r2]` and
`to_delete = [r]` returns, afterwards `get_rowset_by_version(v)` is `r2` and the
stale map holds `r` under `v`. -/
theorem modify_rowsets_same_version {M K : Type} (env : Env M K) (t : Tablet M K)
    (r r2 : Rowset) (v : Version) (h_upd : t._updates = none)
    (_h_cur : get_rowset_by_version t v = some r) (h_r : r.version = v)
    (h_r2 : r2.version = v) :
    ∃ t1, modify_rowsets env t [r2] [r] = Outcome.returned () t1 ∧
      get_rowset_by_version t1 v = some r2 ∧
      VersionMap.find t1._stale_rs_version_map v = some r := by
  have hrun : modify_rowsets env t [r2] [r] =
      Outcome.returned () (modify_rowsets env t [r2] [r]).state := by
    simp only [modify_rowsets, h_upd, Option.isSome_none, Bool.false_eq_true, if_false,
      Outcome.state]
  refine ⟨(modify_rowsets env t [r2] [r]).state, hrun, ?_, ?_⟩
  · simp only [modify_rowsets, h_upd, Option.isSome_none, Bool.false_eq_true, if_false,
      Outcome.state, get_rowset_by_version, modify_rowsets_add, modify_rowsets_delete, h_r2]
    exact VersionMap.find_assign_self _ _ _
  · simp only [modify_rowsets, h_upd, Option.isSome_none, Bool.false_eq_true, if_false,
      Outcome.state, modify_rowsets_delete, h_r]
    exact VersionMap.find_assign_self _ _ _

/-- C7, at a concrete input: the single-version compaction of [4-4], rowset 2
replaced by rowset 5, next to [0-3]. -/
theorem modify_rowsets_same_version_witness :
    ∃ t1, modify_rowsets (list_env true OLAPStatus.OLAP_SUCCESS)
        (mk_tablet [entry (mk_rowset 1 0 3), entry (mk_rowset 2 4 4)] [])
        [mk_rowset 5 4 4] [mk_rowset 2 4 4] = Outcome.returned () t1 ∧
      get_rowset_by_version t1 (Version.mk 4 4) = some (mk_rowset 5 4 4) ∧
      VersionMap.find t1._stale_rs_version_map (Version.mk 4 4) = some (mk_rowset 2 4 4) :=
  modify_rowsets_same_version (list_env true OLAPStatus.OLAP_SUCCESS)
    (mk_tablet [entry (mk_rowset 1 0 3), entry (mk_rowset 2 4 4)] [])
    (mk_rowset 2 4 4) (mk_rowset 5 4 4) (Version.mk 4 4) rfl (by rfl) rfl rfl

/-- C8, as stated, fails: the stale map holds rowset 1 under [4-4] (retired by
an earlier single-version compaction) and the current map holds rowset 2
under [4-4]; `modify_rowsets` with `to_add = [rowset 3]`, `to_delete = [rowset 2]`
stores rowset 2 under the stale key [4-4], and rowset 1 is in the stale map no
more, without any sweep. -/
theorem modify_rowsets_stale_overwrite_counterexample :
    (Version.mk 4 4, mk_rowset 1 4 4) ∈
        (mk_tablet [entry (mk_rowset 2 4 4)] [entry (mk_rowset 1 4 4)])._stale_rs_version_map ∧
      (modify_rowsets (list_env true OLAPStatus.OLAP_SUCCESS)
        (mk_tablet [entry (mk_rowset 2 4 4)] [entry (mk_rowset 1 4 4)])
        [mk_rowset 3 4 4] [mk_rowset 2 4 4]).state._stale_rs_version_map =
          [entry (mk_rowset 2 4 4)] ∧
      ∀ it ∈ (modify_rowsets (list_env true OLAPStatus.OLAP_SUCCESS)
        (mk_tablet [entry (mk_rowset 2 4 4)] [entry (mk_rowset 1 4 4)])
        [mk_rowset 3 4 4] [mk_rowset 2 4 4]).state._stale_rs_version_map,
        it.2 ≠ mk_rowset 1 4 4 := by
  refine ⟨by decide, by rfl, by decide⟩

/-- C8, amended: across `modify_rowsets`, every key of the stale map stays a
key, and a stale rowset stays under its key when no rowset of `to_delete` has
that version; likewise across `add_rowset`, where (the current map being well
formed) a stale rowset stays under its key when that key is not a key of the
current map strictly contained in the new version. -/
theorem modify_rowsets_keeps_stale {M K : Type} (env : Env M K) (t : Tablet M K)
    (to_add to_delete : List Rowset) (rowset : Rowset) (need_persist : Bool) :
    (∀ v ∈ VersionMap.keys t._stale_rs_version_map,
        v ∈ VersionMap.keys (modify_rowsets env t to_add to_delete).state._stale_rs_version_map) ∧
      (∀ v rs, VersionMap.find t._stale_rs_version_map v = some rs →
        v ∉ to_delete.map Rowset.version →
        VersionMap.find (modify_rowsets env t to_add to_delete).state._stale_rs_version_map v =
          some rs) ∧
      (∀ v ∈ VersionMap.keys t._stale_rs_version_map,
        v ∈ VersionMap.keys
          (add_rowset env t rowset need_persist).state._stale_rs_version_map) ∧
      (VersionMap.ok t._rs_version_map →
        ∀ v rs, VersionMap.find t._stale_rs_version_map v = some rs →
        ¬ (v ∈ VersionMap.keys t._rs_version_map ∧ rowset.version.contains v = true ∧
          v ≠ rowset.version) →
        VersionMap.find (add_rowset env t rowset need_persist).state._stale_rs_version_map v =
          some rs) := by
  have hmod : (modify_rowsets env t to_add to_delete).state._stale_rs_version_map =
        t._stale_rs_version_map ∨
      (modify_rowsets env t to_add to_delete).state._stale_rs_version_map =
        (modify_rowsets_delete t._rs_version_map t._stale_rs_version_map to_delete).2 := by
    unfold modify_rowsets
    split
    · exact Or.inl rfl
    · exact Or.inr rfl
  refine ⟨?_, ?_, ?_, ?_⟩
  · intro v hv
    rcases hmod with h | h <;> rw [h]
    · exact hv
    · exact modify_rowsets_delete_stale_keys _ _ _ hv
  · intro v rs hfind hnot
    rcases hmod with h | h <;> rw [h]
    · exact hfind
    · rw [modify_rowsets_delete_stale_find_other _ _ _ hnot]
      exact hfind
  · intro v hv
    rcases add_rowset_state_cases env t rowset need_persist with hc | hc | hc
    · rw [hc.1.2.2.1]; exact hv
    · obtain ⟨h_upd, h_new, h_ver, h_meta⟩ := hc
      rw [(add_rowset_inserted env t rowset need_persist h_upd h_new h_ver h_meta).2.2.2.1]
      exact modify_rowsets_delete_stale_keys _ _ _ hv
    · rw [hc.2]; exact hv
  · intro h_ok v rs hfind hnot
    rcases add_rowset_state_cases env t rowset need_persist with hc | hc | hc
    · rw [hc.1.2.2.1]; exact hfind
    · obtain ⟨h_upd, h_new, h_ver, h_meta⟩ := hc
      rw [(add_rowset_inserted env t rowset need_persist h_upd h_new h_ver h_meta).2.2.2.1]
      unfold add_rowset_maps
      rw [modify_rowsets_delete_stale_find_other]
      · exact hfind
      · rw [add_rowset_rowsets_to_delete_versions (VersionMap.assign_ok h_ok rowset).2]
        intro hmem
        obtain ⟨it, hit, he⟩ := List.mem_map.1 hmem
        obtain ⟨hin, hp⟩ := List.mem_filter.1 hit
        simp only [Bool.and_eq_true, decide_eq_true_eq] at hp
        rcases List.mem_cons.1 hin with e | hin
        · exact hp.2 (by rw [e])
        · apply hnot
          rw [← he]
          exact ⟨List.mem_map_of_mem Prod.fst (VersionMap.mem_erase.1 hin).1, hp.1,
            fun e => hp.2 e.symm⟩
    · rw [hc.2]; exact hfind

/-- C8 amended, at a concrete input: the stale rowset 1 under [0-4] stays where
it is when the compaction of [5-5] and [6-9] to [5-9] retires those two. -/
theorem modify_rowsets_keeps_stale_witness :
    VersionMap.find (modify_rowsets (list_env true OLAPStatus.OLAP_SUCCESS)
        (mk_tablet [entry (mk_rowset 2 5 5), entry (mk_rowset 3 6 9)] [entry (mk_rowset 1 0 4)])
        [mk_rowset 4 5 9] [mk_rowset 2 5 5, mk_rowset 3 6 9]).state._stale_rs_version_map
        (Version.mk 0 4) = some (mk_rowset 1 0 4) :=
  (modify_rowsets_keeps_stale (list_env true OLAPStatus.OLAP_SUCCESS)
    (mk_tablet [entry (mk_rowset 2 5 5), entry (mk_rowset 3 6 9)] [entry (mk_rowset 1 0 4)])
    [mk_rowset 4 5 9] [mk_rowset 2 5 5, mk_rowset 3 6 9] (mk_rowset 4 5 9) false).2.1
    (Version.mk 0 4) (mk_rowset 1 0 4) (by rfl) (by decide)

/-- C9, as stated, fails: the tracker's capture fails with the status
OLAP_ERR_VERSION_ALREADY_MERGED on a tablet whose rowsets are [0-4] and [8-9];
for the version [0-9] the positions 5, 6 and 7 are missed, the tablet hands
the tracker's status on, and so returns OLAP_ERR_VERSION_ALREADY_MERGED while
the list of missed versions is not empty. -/
theorem capture_consistent_versions_counterexample :
    ((list_env true OLAPStatus.OLAP_ERR_VERSION_ALREADY_MERGED).vt.capture_consistent_versions
        (mk_tablet [entry (mk_rowset 1 0 4),
          entry (mk_rowset 2 8 9)] [])._timestamped_version_tracker (Version.mk 0 9)).1 ≠
        OLAPStatus.OLAP_SUCCESS ∧
      (capture_consistent_versions (list_env true OLAPStatus.OLAP_ERR_VERSION_ALREADY_MERGED)
        (mk_tablet [entry (mk_rowset 1 0 4), entry (mk_rowset 2 8 9)] []) (Version.mk 0 9)).1 =
        OLAPStatus.OLAP_ERR_VERSION_ALREADY_MERGED ∧
      calc_missed_versions_unlocked list_tablet_meta
        (mk_tablet [entry (mk_rowset 1 0 4), entry (mk_rowset 2 8 9)] []) 9 =
        [Version.mk 5 5, Version.mk 6 6, Version.mk 7 7] := by
  refine ⟨by decide, by decide, by decide⟩

/-- C9, amended: on a non-updatable tablet, `capture_consistent_versions`
returns OLAP_SUCCESS exactly when the tracker's capture does; when the
tracker's capture fails with status `s`, the tablet returns
OLAP_ERR_VERSION_ALREADY_MERGED if `calc_missed_versions_unlocked(spec_version.second)`
is empty and `s` unchanged otherwise, so that it returns
OLAP_ERR_VERSION_ALREADY_MERGED exactly when the list is empty or `s` is that
status itself. -/
theorem capture_consistent_versions_status {M K : Type} (env : Env M K) (t : Tablet M K)
    (spec_version : Version) (h_upd : t._updates = none) :
    ((capture_consistent_versions env t spec_version).1 = OLAPStatus.OLAP_SUCCESS ↔
        (env.vt.capture_consistent_versions t._timestamped_version_tracker spec_version).1 =
          OLAPStatus.OLAP_SUCCESS) ∧
      ((env.vt.capture_consistent_versions t._timestamped_version_tracker spec_version).1 ≠
          OLAPStatus.OLAP_SUCCESS →
        (calc_missed_versions_unlocked env.tm t spec_version.second = [] →
          (capture_consistent_versions env t spec_version).1 =
            OLAPStatus.OLAP_ERR_VERSION_ALREADY_MERGED) ∧
        (calc_missed_versions_unlocked env.tm t spec_version.second ≠ [] →
          (capture_consistent_versions env t spec_version).1 =
            (env.vt.capture_consistent_versions t._timestamped_version_tracker spec_version).1) ∧
        ((capture_consistent_versions env t spec_version).1 =
            OLAPStatus.OLAP_ERR_VERSION_ALREADY_MERGED ↔
          (calc_missed_versions_unlocked env.tm t spec_version.second = [] ∨
            (env.vt.capture_consistent_versions t._timestamped_version_tracker spec_version).1 =
              OLAPStatus.OLAP_ERR_VERSION_ALREADY_MERGED))) := by
  by_cases hs : (env.vt.capture_consistent_versions t._timestamped_version_tracker
      spec_version).1 = OLAPStatus.OLAP_SUCCESS
  · simp [capture_consistent_versions, h_upd, hs]
  · by_cases hm : calc_missed_versions_unlocked env.tm t spec_version.second = []
    · simp [capture_consistent_versions, h_upd, hs, hm]
    · simp [capture_consistent_versions, h_upd, hs, hm]

/-- C9 amended, at a concrete input: the tracker fails with another status on a
tablet that misses 5, 6 and 7; the tablet returns that status. -/
theorem capture_consistent_versions_status_witness :
    (capture_consistent_versions (list_env true (OLAPStatus.other (-1)))
        (mk_tablet [entry (mk_rowset 1 0 4), entry (mk_rowset 2 8 9)] []) (Version.mk 0 9)).1 =
      OLAPStatus.other (-1) :=
  ((capture_consistent_versions_status (list_env true (OLAPStatus.other (-1)))
    (mk_tablet [entry (mk_rowset 1 0 4), entry (mk_rowset 2 8 9)] []) (Version.mk 0 9) rfl).2
    (by decide)).2.1 (by decide)

/-- C10: for rowset metas of tablet meta with well-formed, pairwise
non-overlapping versions and a position `v` with `0 <= v <= spec_version`:
`Version(v, v)` is in the output of `calc_missed_versions_unlocked(spec_version)`
exactly when no rowset version covers `v`; and every version of the output is
a unit version that no rowset version covers. -/
theorem calc_missed_versions_unlocked_gaps {M K : Type} (tm : TabletMetaApi M) (t : Tablet M K)
    (spec_version v : Int)
    (h_wf : ∀ rs ∈ tm.all_rs_metas t._tablet_meta, rs.version.wellFormed)
    (h_pair : (tm.all_rs_metas t._tablet_meta).Pairwise
      (fun a b => ¬ a.version.overlaps b.version))
    (h0 : 0 ≤ v) (hv : v ≤ spec_version) :
    (Version.mk v v ∈ calc_missed_versions_unlocked tm t spec_version ↔
        ∀ rs ∈ tm.all_rs_metas t._tablet_meta, ¬ rs.version.covers v) ∧
      (∀ e ∈ calc_missed_versions_unlocked tm t spec_version,
        ∃ i, e = Version.mk i i ∧ ∀ rs ∈ tm.all_rs_metas t._tablet_meta, ¬ rs.version.covers i) := by
  have hasc := sort_existing_versions_ascending_disjoint
    ((tm.all_rs_metas t._tablet_meta).map RowsetMeta.version)
    (by
      intro x hx
      obtain ⟨rs, hrs, rfl⟩ := List.mem_map.1 hx
      exact h_wf rs hrs)
    (List.pairwise_map.2 h_pair)
  have hperm : (sort_existing_versions
      ((tm.all_rs_metas t._tablet_meta).map RowsetMeta.version)).Perm
      ((tm.all_rs_metas t._tablet_meta).map RowsetMeta.version) := List.perm_insertionSort _ _
  have hcov : ∀ i : Int, (∀ x ∈ sort_existing_versions
        ((tm.all_rs_metas t._tablet_meta).map RowsetMeta.version), ¬ x.covers i) ↔
      ∀ rs ∈ tm.all_rs_metas t._tablet_meta, ¬ rs.version.covers i := by
    intro i
    constructor
    · intro h rs hrs
      exact h rs.version (hperm.symm.subset (List.mem_map_of_mem RowsetMeta.version hrs))
    · intro h x hx
      obtain ⟨rs, hrs, rfl⟩ := List.mem_map.1 (hperm.subset hx)
      exact h rs hrs
  constructor
  · unfold calc_missed_versions_unlocked
    rw [calc_missed_versions_walk_iff spec_version _ (-1) v hasc (by omega) hv]
    exact hcov v
  · intro e he
    obtain ⟨i, hi, hun⟩ := calc_missed_versions_walk_uncovered spec_version _ (-1) hasc e he
    exact ⟨i, hi, (hcov i).1 hun⟩

/-- C10, at a concrete input: the rowsets [0-4] and [8-9] with `spec_version`
9 give [5-5], [6-6], [7-7]; position 5 is reported and lies in no rowset. -/
theorem calc_missed_versions_unlocked_gaps_witness :
    calc_missed_versions_unlocked list_tablet_meta
        (mk_tablet [entry (mk_rowset 1 0 4), entry (mk_rowset 2 8 9)] []) 9 =
        [Version.mk 5 5, Version.mk 6 6, Version.mk 7 7] ∧
      (Version.mk 5 5 ∈ calc_missed_versions_unlocked list_tablet_meta
          (mk_tablet [entry (mk_rowset 1 0 4), entry (mk_rowset 2 8 9)] []) 9 ↔
        ∀ rs ∈ list_tablet_meta.all_rs_metas
          (mk_tablet [entry (mk_rowset 1 0 4), entry (mk_rowset 2 8 9)] [])._tablet_meta,
          ¬ rs.version.covers 5) :=
  ⟨by decide, (calc_missed_versions_unlocked_gaps list_tablet_meta
    (mk_tablet [entry (mk_rowset 1 0 4), entry (mk_rowset 2 8 9)] []) 9 5
    (by decide) (by decide) (by decide) (by decide)).1⟩

/-- C11: the code goes beyond `spec_version`.  The rowset versions [0-4],
[5-5], [8-8], [9-9] are well formed and pairwise non-overlapping, and
`calc_missed_versions_unlocked(6)` emits [6-6] and [7-7]: the gap before [8-8]
is emitted whole, so [7-7] lies beyond `spec_version`. -/
theorem calc_missed_versions_unlocked_beyond_spec_version :
    (∀ rs ∈ list_tablet_meta.all_rs_metas (mk_tablet [entry (mk_rowset 1 0 4),
        entry (mk_rowset 2 5 5), entry (mk_rowset 3 8 8), entry (mk_rowset 4 9 9)]
        [])._tablet_meta, rs.version.wellFormed) ∧
      (list_tablet_meta.all_rs_metas (mk_tablet [entry (mk_rowset 1 0 4),
        entry (mk_rowset 2 5 5), entry (mk_rowset 3 8 8), entry (mk_rowset 4 9 9)]
        [])._tablet_meta).Pairwise (fun a b => ¬ a.version.overlaps b.version) ∧
      calc_missed_versions_unlocked list_tablet_meta (mk_tablet [entry (mk_rowset 1 0 4),
        entry (mk_rowset 2 5 5), entry (mk_rowset 3 8 8), entry (mk_rowset 4 9 9)] []) 6 =
        [Version.mk 6 6, Version.mk 7 7] ∧
      ¬ (∀ e ∈ calc_missed_versions_unlocked list_tablet_meta (mk_tablet
        [entry (mk_rowset 1 0 4), entry (mk_rowset 2 5 5), entry (mk_rowset 3 8 8),
          entry (mk_rowset 4 9 9)] []) 6,
        ∃ i, e = Version.mk i i ∧ 0 ≤ i ∧ i ≤ 6) := by
  refine ⟨by decide, by decide, by decide, ?_⟩
  intro h
  obtain ⟨i, hi, _, h6⟩ := h (Version.mk 7 7) (by decide)
  have : (7 : Int) = i := congrArg Version.first hi
  omega

/-- C13: for a tablet meta whose rowset versions are well formed, not
negative and pairwise non-overlapping, with a rowset starting at 0, and a
cumulative point that is not set: the chain from 0 exists, and for every such
chain `calculate_cumulative_point` sets the point to the start of the first
chain rowset with overlapping segments or that is a singleton delta without
delete predicate, and without such a rowset to the end of the last chain
rowset plus one. -/
theorem calculate_cumulative_point_chain {M K : Type} (tm : TabletMetaApi M) (t : Tablet M K)
    (h_unset : t._cumulative_point = kInvalidCumulativePoint)
    (h_wf : ∀ rs ∈ tm.all_rs_metas t._tablet_meta, rs.version.wellFormed)
    (h_nonneg : ∀ rs ∈ tm.all_rs_metas t._tablet_meta, 0 ≤ rs.version.first)
    (h_pair : (tm.all_rs_metas t._tablet_meta).Pairwise
      (fun a b => ¬ a.version.overlaps b.version))
    (h_zero : ∃ rs ∈ tm.all_rs_metas t._tablet_meta, rs.version.first = 0) :
    (∃ chain, is_chain_from (tm.all_rs_metas t._tablet_meta) 0 chain = true) ∧
      ∀ chain, is_chain_from (tm.all_rs_metas t._tablet_meta) 0 chain = true →
        chain_cumulative_point (tm.version_for_delete_predicate t._tablet_meta) chain =
          some (calculate_cumulative_point tm t)._cumulative_point := by
  have hasc := insertionSort_ascending_disjoint RowsetMeta.version
    (tm.all_rs_metas t._tablet_meta) h_wf h_pair
  have hperm : (sort_existing_rss (tm.all_rs_metas t._tablet_meta)).Perm
      (tm.all_rs_metas t._tablet_meta) := List.perm_insertionSort _ _
  have hmem : ∀ x, x ∈ tm.all_rs_metas t._tablet_meta ↔
      x ∈ sort_existing_rss (tm.all_rs_metas t._tablet_meta) :=
    fun x => ⟨fun h => hperm.symm.subset h, fun h => hperm.subset h⟩
  have hprev : ∀ x ∈ sort_existing_rss (tm.all_rs_metas t._tablet_meta),
      (-1 : Int) < x.version.first := by
    intro x hx
    have := h_nonneg x (hperm.subset hx)
    omega
  change ascending_disjoint ((sort_existing_rss _).map RowsetMeta.version) at hasc
  constructor
  · obtain ⟨chain, hchain, _⟩ := exists_chain_from _ (-1) hasc hprev
    refine ⟨chain, ?_⟩
    rw [is_chain_from_congr hmem]
    exact hchain
  · intro chain hchain
    have hne : chain ≠ [] := by
      rintro rfl
      obtain ⟨rs, hrs, h0⟩ := h_zero
      unfold is_chain_from at hchain
      rw [List.all_eq_true] at hchain
      simpa [h0] using hchain rs hrs
    rw [is_chain_from_congr hmem] at hchain
    have hloop := calculate_cumulative_point_loop_chain
      (tm.version_for_delete_predicate t._tablet_meta) _ (-1) t._cumulative_point chain hasc hprev
      hchain
    have hp : (calculate_cumulative_point tm t)._cumulative_point =
        calculate_cumulative_point_loop (tm.version_for_delete_predicate t._tablet_meta)
          (sort_existing_rss (tm.all_rs_metas t._tablet_meta)) (-1) t._cumulative_point := by
      simp [calculate_cumulative_point, h_unset]
    rw [hp, hloop]
    unfold chain_cumulative_point
    cases hfind : List.find? (stops_cumulative_point
        (tm.version_for_delete_predicate t._tablet_meta)) chain with
    | some rs => rfl
    | none =>
      cases hlast : chain.getLast? with
      | none => exact absurd (List.getLast?_eq_none_iff.1 hlast) hne
      | some rs => rfl

/-- C13, at a concrete input: [0-4] without overlapping segments, then the
singleton [5-5] without delete predicate; the chain is [0-4], [5-5] and the
point is 5. -/
theorem calculate_cumulative_point_chain_witness :
    (calculate_cumulative_point list_tablet_meta
        (mk_tablet [entry (mk_rowset 2 5 5), entry (mk_rowset 1 0 4)] []))._cumulative_point = 5 ∧
      chain_cumulative_point (fun _ => false)
        [(mk_rowset 1 0 4).rowset_meta, (mk_rowset 2 5 5).rowset_meta] =
        some (calculate_cumulative_point list_tablet_meta
          (mk_tablet [entry (mk_rowset 2 5 5), entry (mk_rowset 1 0 4)] []))._cumulative_point :=
  ⟨by decide, (calculate_cumulative_point_chain list_tablet_meta
    (mk_tablet [entry (mk_rowset 2 5 5), entry (mk_rowset 1 0 4)] []) rfl (by decide) (by decide)
    (by decide) (by decide)).2
    [(mk_rowset 1 0 4).rowset_meta, (mk_rowset 2 5 5).rowset_meta] (by decide)⟩

/-- C14: on a tablet whose cumulative point is set (it is not
`kInvalidCumulativePoint`), `calculate_cumulative_point` changes nothing: the
state, and with it the point, is as before, whatever rowsets tablet meta
holds; so the point does not decrease. -/
theorem calculate_cumulative_point_once {M K : Type} (tm : TabletMetaApi M) (t : Tablet M K)
    (h_set : t._cumulative_point ≠ kInvalidCumulativePoint) :
    calculate_cumulative_point tm t = t ∧
      (calculate_cumulative_point tm t)._cumulative_point = t._cumulative_point ∧
      t._cumulative_point ≤ (calculate_cumulative_point tm t)._cumulative_point := by
  have h : calculate_cumulative_point tm t = t := by
    unfold calculate_cumulative_point
    rw [if_pos h_set]
  rw [h]
  exact ⟨rfl, rfl, le_refl _⟩

/-- C14, at a concrete input: the point is 3 and stays 3, although the rowsets
[0-4] and [5-5] would give 5. -/
theorem calculate_cumulative_point_once_witness :
    (calculate_cumulative_point list_tablet_meta
      { mk_tablet [entry (mk_rowset 2 5 5), entry (mk_rowset 1 0 4)] [] with
        _cumulative_point := 3 })._cumulative_point = 3 :=
  (calculate_cumulative_point_once list_tablet_meta
    { mk_tablet [entry (mk_rowset 2 5 5), entry (mk_rowset 1 0 4)] [] with
      _cumulative_point := 3 } (by decide)).2.1

/-- C15: for a tablet meta whose rowset versions are well formed and pairwise
non-overlapping and a cumulative point that is not set, the point that
`calculate_cumulative_point` leaves lies in the middle of no rowset: no rowset
version has `first < point <= second`. -/
theorem calculate_cumulative_point_boundary {M K : Type} (tm : TabletMetaApi M) (t : Tablet M K)
    (h_unset : t._cumulative_point = kInvalidCumulativePoint)
    (h_wf : ∀ rs ∈ tm.all_rs_metas t._tablet_meta, rs.version.wellFormed)
    (h_pair : (tm.all_rs_metas t._tablet_meta).Pairwise
      (fun a b => ¬ a.version.overlaps b.version)) :
    ∀ rs ∈ tm.all_rs_metas t._tablet_meta,
      ¬ (rs.version.first < (calculate_cumulative_point tm t)._cumulative_point ∧
        (calculate_cumulative_point tm t)._cumulative_point ≤ rs.version.second) := by
  have hasc := insertionSort_ascending_disjoint RowsetMeta.version
    (tm.all_rs_metas t._tablet_meta) h_wf h_pair
  have hperm : (sort_existing_rss (tm.all_rs_metas t._tablet_meta)).Perm
      (tm.all_rs_metas t._tablet_meta) := List.perm_insertionSort _ _
  change ascending_disjoint ((sort_existing_rss _).map RowsetMeta.version) at hasc
  have hp : (calculate_cumulative_point tm t)._cumulative_point =
      calculate_cumulative_point_loop (tm.version_for_delete_predicate t._tablet_meta)
        (sort_existing_rss (tm.all_rs_metas t._tablet_meta)) (-1) t._cumulative_point := by
    simp [calculate_cumulative_point, h_unset]
  have hdis : ∀ a ∈ tm.all_rs_metas t._tablet_meta, ∀ b ∈ tm.all_rs_metas t._tablet_meta,
      a ≠ b → ¬ a.version.overlaps b.version :=
    List.Pairwise.forall (R := fun a b : RowsetMeta => ¬ a.version.overlaps b.version)
      (fun _ _ h hba => h (Version.overlaps_symm hba)) h_pair
  intro rs hrs hmid
  rw [hp] at hmid
  rcases calculate_cumulative_point_loop_result (tm.version_for_delete_predicate t._tablet_meta)
    (sort_existing_rss (tm.all_rs_metas t._tablet_meta)) (-1) t._cumulative_point with
    ⟨heq, hhead⟩ | ⟨rs0, hrs0, heq⟩
  · rw [heq, h_unset] at hmid
    unfold kInvalidCumulativePoint at hmid
    have hrs' : rs ∈ sort_existing_rss (tm.all_rs_metas t._tablet_meta) :=
      hperm.symm.subset hrs
    generalize sort_existing_rss (tm.all_rs_metas t._tablet_meta) = l at hasc hhead hrs'
    cases l with
    | nil => simp at hrs'
    | cons x rest =>
      have hx : x.version.first > -1 + 1 := hhead x (by simp)
      have hpw := List.pairwise_cons.1 (List.pairwise_map.1 hasc.1)
      have hxwf : x.version.first ≤ x.version.second := hasc.2 x.version (by simp)
      rcases List.mem_cons.1 hrs' with e | hm
      · subst e; omega
      · have := hpw.1 rs hm
        omega
  · have hrs0' : rs0 ∈ tm.all_rs_metas t._tablet_meta := hperm.subset hrs0
    have hwf0 := h_wf rs0 hrs0'
    have hwf1 := h_wf rs hrs
    unfold Version.wellFormed at hwf0 hwf1
    have hne : rs ≠ rs0 := by
      rintro rfl
      rcases heq with h | h <;> rw [h] at hmid <;> omega
    apply hdis rs hrs rs0 hrs0' hne
    unfold Version.overlaps
    rcases heq with h | h <;> rw [h] at hmid <;> omega

/-- C15, at a concrete input: [0-4] and [6-9] give the point 5, which lies in
the middle of neither. -/
theorem calculate_cumulative_point_boundary_witness :
    ¬ ((mk_rowset 2 6 9).rowset_meta.version.first <
        (calculate_cumulative_point list_tablet_meta
          (mk_tablet [entry (mk_rowset 2 6 9), entry (mk_rowset 1 0 4)] []))._cumulative_point ∧
      (calculate_cumulative_point list_tablet_meta
          (mk_tablet [entry (mk_rowset 2 6 9), entry (mk_rowset 1 0 4)] []))._cumulative_point ≤
        (mk_rowset 2 6 9).rowset_meta.version.second) :=
  calculate_cumulative_point_boundary list_tablet_meta
    (mk_tablet [entry (mk_rowset 2 6 9), entry (mk_rowset 1 0 4)] []) rfl (by decide) (by decide)
    (mk_rowset 2 6 9).rowset_meta (by decide)

/-- C16: for every tablet meta and cumulative point: when no rowset meta
starts at version 0, `calc_cumulative_compaction_score` and
`calc_base_compaction_score` are 0; otherwise the first is the sum, modulo
2^32, of `get_compaction_score` over the rowset metas that start at or after
the point, the second the sum over those that start before it; and neither
depends on the order of `all_rs_metas`. -/
theorem compaction_score_sums {M K : Type} (tm : TabletMetaApi M) (t : Tablet M K) :
    ((∀ rs ∈ tm.all_rs_metas t._tablet_meta, rs.start_version ≠ 0) →
        calc_cumulative_compaction_score tm t = 0 ∧ calc_base_compaction_score tm t = 0) ∧
      ((∃ rs ∈ tm.all_rs_metas t._tablet_meta, rs.start_version = 0) →
        calc_cumulative_compaction_score tm t =
            (((tm.all_rs_metas t._tablet_meta).filter
              (fun rs => decide (rs.start_version ≥ t._cumulative_point))).map
                RowsetMeta.get_compaction_score).sum % 2 ^ 32 ∧
          calc_base_compaction_score tm t =
            (((tm.all_rs_metas t._tablet_meta).filter
              (fun rs => decide (rs.start_version < t._cumulative_point))).map
                RowsetMeta.get_compaction_score).sum % 2 ^ 32) ∧
      (∀ t2 : Tablet M K,
        (tm.all_rs_metas t2._tablet_meta).Perm (tm.all_rs_metas t._tablet_meta) →
        t2._cumulative_point = t._cumulative_point →
        calc_cumulative_compaction_score tm t2 = calc_cumulative_compaction_score tm t ∧
          calc_base_compaction_score tm t2 = calc_base_compaction_score tm t) := by
  have hcum : ∀ u : Tablet M K, calc_cumulative_compaction_score tm u =
      if (tm.all_rs_metas u._tablet_meta).any (fun rs => decide (rs.start_version = 0)) then
        (((tm.all_rs_metas u._tablet_meta).filter
          (fun rs => decide (rs.start_version ≥ u._cumulative_point))).map
            RowsetMeta.get_compaction_score).sum % 2 ^ 32
      else 0 := by
    intro u
    unfold calc_cumulative_compaction_score
    simp only [compaction_score_loop_eq _ _ 0 false (by norm_num), Bool.false_or, Nat.zero_add]
    have hf : (tm.all_rs_metas u._tablet_meta).filter
          (fun rs => !decide (rs.start_version < u._cumulative_point)) =
        (tm.all_rs_metas u._tablet_meta).filter
          (fun rs => decide (rs.start_version ≥ u._cumulative_point)) := by
      apply List.filter_congr
      intro rs _
      by_cases hlt : rs.start_version < u._cumulative_point
      · simp [hlt]
      · simp [hlt, not_lt.1 hlt]
    rw [hf]
  have hbase : ∀ u : Tablet M K, calc_base_compaction_score tm u =
      if (tm.all_rs_metas u._tablet_meta).any (fun rs => decide (rs.start_version = 0)) then
        (((tm.all_rs_metas u._tablet_meta).filter
          (fun rs => decide (rs.start_version < u._cumulative_point))).map
            RowsetMeta.get_compaction_score).sum % 2 ^ 32
      else 0 := by
    intro u
    unfold calc_base_compaction_score
    simp only [compaction_score_loop_eq _ _ 0 false (by norm_num), Bool.false_or, Nat.zero_add]
    have hf : (tm.all_rs_metas u._tablet_meta).filter
          (fun rs => !decide (rs.start_version ≥ u._cumulative_point)) =
        (tm.all_rs_metas u._tablet_meta).filter
          (fun rs => decide (rs.start_version < u._cumulative_point)) := by
      apply List.filter_congr
      intro rs _
      by_cases hlt : rs.start_version < u._cumulative_point
      · simp [hlt]
      · simp [hlt, not_lt.1 hlt]
    rw [hf]
  refine ⟨?_, ?_, ?_⟩
  · intro hno
    have hany : (tm.all_rs_metas t._tablet_meta).any
        (fun rs => decide (rs.start_version = 0)) = false := by
      rw [List.any_eq_false]
      intro rs hrs
      simpa using hno rs hrs
    rw [hcum, hbase, hany]
    exact ⟨rfl, rfl⟩
  · rintro ⟨rs, hrs, h0⟩
    have hany : (tm.all_rs_metas t._tablet_meta).any
        (fun rs => decide (rs.start_version = 0)) = true :=
      List.any_eq_true.2 ⟨rs, hrs, by simpa using h0⟩
    rw [hcum, hbase, hany]
    exact ⟨rfl, rfl⟩
  · intro t2 hperm hpoint
    have hany : (tm.all_rs_metas t2._tablet_meta).any
          (fun rs => decide (rs.start_version = 0)) =
        (tm.all_rs_metas t._tablet_meta).any (fun rs => decide (rs.start_version = 0)) := by
      rw [Bool.eq_iff_iff, List.any_eq_true, List.any_eq_true]
      exact ⟨fun ⟨x, hx, h⟩ => ⟨x, hperm.subset hx, h⟩,
        fun ⟨x, hx, h⟩ => ⟨x, hperm.symm.subset hx, h⟩⟩
    rw [hcum t2, hcum t, hbase t2, hbase t, hany, hpoint]
    rw [((hperm.filter _).map _).sum_eq, ((hperm.filter _).map _).sum_eq]
    exact ⟨rfl, rfl⟩

/-- C16, at a concrete input: the rowsets [6-9] and [0-4], of score 1 each,
with the point at 5: one on each side. -/
theorem compaction_score_sums_witness :
    calc_cumulative_compaction_score list_tablet_meta
        { mk_tablet [entry (mk_rowset 1 6 9), entry (mk_rowset 2 0 4)] [] with
          _cumulative_point := 5 } = 1 ∧
      calc_base_compaction_score list_tablet_meta
        { mk_tablet [entry (mk_rowset 1 6 9), entry (mk_rowset 2 0 4)] [] with
          _cumulative_point := 5 } = 1 := by
  have h := (compaction_score_sums list_tablet_meta
    { mk_tablet [entry (mk_rowset 1 6 9), entry (mk_rowset 2 0 4)] [] with
      _cumulative_point := 5 }).2.1 ⟨(mk_rowset 2 0 4).rowset_meta, by decide, by decide⟩
  exact ⟨h.1.trans (by decide), h.2.trans (by decide)⟩

/-- C17: with `now` the current time, `pick_candicate_rowsets_to_cumulative_compaction`
appends the rowsets of the current-map entries whose key starts at or after
the cumulative point and whose creation time plus the skip window is below
`now` (not those where it equals `now`), and
`pick_candicate_rowsets_to_base_compaction` those whose key starts before the
point; no entry qualifies for both, and in a well-formed current map no
rowset is in both lists. -/
theorem pick_candidates_split {M K : Type} (t : Tablet M K) (skip_window_sec now : Int)
    (candidate_rowsets : List Rowset) :
    pick_candicate_rowsets_to_cumulative_compaction t skip_window_sec now candidate_rowsets =
        candidate_rowsets ++ (t._rs_version_map.filter (fun it =>
          decide (it.1.first ≥ t._cumulative_point) &&
            decide (it.2.creation_time + skip_window_sec < now))).map Prod.snd ∧
      pick_candicate_rowsets_to_base_compaction t candidate_rowsets =
        candidate_rowsets ++ (t._rs_version_map.filter (fun it =>
          decide (it.1.first < t._cumulative_point))).map Prod.snd ∧
      (∀ r, r ∈ pick_candicate_rowsets_to_cumulative_compaction t skip_window_sec now [] ↔
        ∃ key, (key, r) ∈ t._rs_version_map ∧ key.first ≥ t._cumulative_point ∧
          r.creation_time + skip_window_sec < now) ∧
      (∀ r, r ∈ pick_candicate_rowsets_to_base_compaction t [] ↔
        ∃ key, (key, r) ∈ t._rs_version_map ∧ key.first < t._cumulative_point) ∧
      (∀ it ∈ t._rs_version_map, it.2.creation_time + skip_window_sec = now →
        (it.1, it.2) ∉ t._rs_version_map.filter (fun it =>
          decide (it.1.first ≥ t._cumulative_point) &&
            decide (it.2.creation_time + skip_window_sec < now))) ∧
      (VersionMap.ok t._rs_version_map →
        ∀ r, r ∈ pick_candicate_rowsets_to_cumulative_compaction t skip_window_sec now [] →
          r ∉ pick_candicate_rowsets_to_base_compaction t []) := by
  have hc : ∀ r, r ∈ pick_candicate_rowsets_to_cumulative_compaction t skip_window_sec now [] ↔
      ∃ key, (key, r) ∈ t._rs_version_map ∧ key.first ≥ t._cumulative_point ∧
        r.creation_time + skip_window_sec < now := by
    intro r
    unfold pick_candicate_rowsets_to_cumulative_compaction
    rw [pick_cumulative_loop_eq, List.nil_append, List.mem_map]
    constructor
    · rintro ⟨it, hit, rfl⟩
      obtain ⟨hmem, hcond⟩ := List.mem_filter.1 hit
      simp only [Bool.and_eq_true, decide_eq_true_eq] at hcond
      exact ⟨it.1, hmem, hcond.1, hcond.2⟩
    · rintro ⟨key, hmem, h1, h2⟩
      exact ⟨(key, r), List.mem_filter.2 ⟨hmem, by simp [h1, h2]⟩, rfl⟩
  have hb : ∀ r, r ∈ pick_candicate_rowsets_to_base_compaction t [] ↔
      ∃ key, (key, r) ∈ t._rs_version_map ∧ key.first < t._cumulative_point := by
    intro r
    unfold pick_candicate_rowsets_to_base_compaction
    rw [pick_base_loop_eq, List.nil_append, List.mem_map]
    constructor
    · rintro ⟨it, hit, rfl⟩
      obtain ⟨hmem, hcond⟩ := List.mem_filter.1 hit
      simp only [decide_eq_true_eq] at hcond
      exact ⟨it.1, hmem, hcond⟩
    · rintro ⟨key, hmem, h1⟩
      exact ⟨(key, r), List.mem_filter.2 ⟨hmem, by simp [h1]⟩, rfl⟩
  refine ⟨pick_cumulative_loop_eq _ _ _ _ _, pick_base_loop_eq _ _ _, hc, hb, ?_, ?_⟩
  · intro it _ heq hmem
    have hcond := (List.mem_filter.1 hmem).2
    simp only [Bool.and_eq_true, decide_eq_true_eq] at hcond
    omega
  · intro hok r hr1 hr2
    obtain ⟨k1, hm1, h1, _⟩ := (hc r).1 hr1
    obtain ⟨k2, hm2, h2⟩ := (hb r).1 hr2
    have e1 := hok.2 _ hm1
    have e2 := hok.2 _ hm2
    simp only at e1 e2
    rw [← e1] at h1
    rw [← e2] at h2
    omega

/-- C17, at a concrete input: with the point at 5, a skip window of 10 and
`now` 10, the rowset [6-9] created at time 0 is not yet a cumulative
candidate, and [0-4] is the base candidate. -/
theorem pick_candidates_split_witness :
    pick_candicate_rowsets_to_cumulative_compaction
        { mk_tablet [entry (mk_rowset 1 6 9), entry (mk_rowset 2 0 4)] [] with
          _cumulative_point := 5 } 10 10 [] = [] ∧
      pick_candicate_rowsets_to_base_compaction
        { mk_tablet [entry (mk_rowset 1 6 9), entry (mk_rowset 2 0 4)] [] with
          _cumulative_point := 5 } [] = [mk_rowset 2 0 4] := by
  have h := pick_candidates_split
    { mk_tablet [entry (mk_rowset 1 6 9), entry (mk_rowset 2 0 4)] [] with
      _cumulative_point := 5 } 10 10 []
  exact ⟨h.1.trans (by decide), h.2.1.trans (by decide)⟩

/-- C18: when the max version of tablet meta is (-1, ·) or a key of the
current map, `can_do_compaction` returns; it returns true exactly when that max
version does not start at -1, the current map holds a rowset under it, and
`capture_consistent_versions` of [0, end of that rowset] returns OLAP_SUCCESS;
for a tablet without rowsets it returns false. -/
theorem can_do_compaction_iff {M K : Type} (env : Env M K) (t : Tablet M K)
    (h_max : (env.tm.max_version t._tablet_meta).first = -1 ∨
      env.tm.max_version t._tablet_meta ∈ VersionMap.keys t._rs_version_map) :
    ∃ b, can_do_compaction env t = some b ∧
      (b = true ↔ ((env.tm.max_version t._tablet_meta).first ≠ -1 ∧
        ∃ rowset, VersionMap.find t._rs_version_map (env.tm.max_version t._tablet_meta) =
            some rowset ∧
          (capture_consistent_versions env t (Version.mk 0 rowset.end_version)).1 =
            OLAPStatus.OLAP_SUCCESS)) ∧
      (t._rs_version_map = [] → b = false) := by
  by_cases h1 : (env.tm.max_version t._tablet_meta).first = -1
  · refine ⟨false, ?_, ?_, fun _ => rfl⟩
    · simp [can_do_compaction, rowset_with_max_version, h1]
    · simp [h1]
  · have hkey : env.tm.max_version t._tablet_meta ∈ VersionMap.keys t._rs_version_map := by
      rcases h_max with h | h
      · exact absurd h h1
      · exact h
    have hsome := (VersionMap.find_isSome_iff _ _).2 hkey
    obtain ⟨rowset, hfind⟩ := Option.isSome_iff_exists.1 hsome
    have hne : t._rs_version_map ≠ [] := by
      intro he
      rw [he] at hkey
      simp [VersionMap.keys] at hkey
    cases hu : t._updates with
    | some u =>
      refine ⟨false, ?_, ?_, fun he => absurd he hne⟩
      · simp [can_do_compaction, rowset_with_max_version, h1, hu]
      · simp [h1, hfind, capture_consistent_versions, hu]
    | none =>
      by_cases hcap : (capture_consistent_versions env t (Version.mk 0 rowset.end_version)).1 =
          OLAPStatus.OLAP_SUCCESS
      · refine ⟨true, ?_, ?_, fun he => absurd he hne⟩
        · simp [can_do_compaction, rowset_with_max_version, h1, hu, hfind, hcap]
        · simp [h1, hfind, hcap]
      · refine ⟨false, ?_, ?_, fun he => absurd he hne⟩
        · simp only [can_do_compaction, rowset_with_max_version, h1, hu, hfind, if_false,
            Option.isSome_none, Bool.false_eq_true]
          rw [if_pos (fun e => hcap e.symm)]
        · simp [h1, hfind, hcap]

/-- C18, at a concrete input: a tablet with [6-9] and [0-4] whose tracker
captures every version can be compacted. -/
theorem can_do_compaction_iff_witness :
    ∃ b, can_do_compaction (list_env true OLAPStatus.OLAP_SUCCESS)
        (mk_tablet [entry (mk_rowset 1 6 9), entry (mk_rowset 2 0 4)] []) = some b ∧
      (b = true ↔ ((list_tablet_meta.max_version
          (mk_tablet [entry (mk_rowset 1 6 9), entry (mk_rowset 2 0 4)] [])._tablet_meta).first ≠
            -1 ∧
        ∃ rowset, VersionMap.find
            (mk_tablet [entry (mk_rowset 1 6 9), entry (mk_rowset 2 0 4)] [])._rs_version_map
            (list_tablet_meta.max_version
              (mk_tablet [entry (mk_rowset 1 6 9), entry (mk_rowset 2 0 4)] [])._tablet_meta) =
            some rowset ∧
          (capture_consistent_versions (list_env true OLAPStatus.OLAP_SUCCESS)
            (mk_tablet [entry (mk_rowset 1 6 9), entry (mk_rowset 2 0 4)] [])
            (Version.mk 0 rowset.end_version)).1 = OLAPStatus.OLAP_SUCCESS)) ∧
      ((mk_tablet [entry (mk_rowset 1 6 9), entry (mk_rowset 2 0 4)] [])._rs_version_map = [] →
        b = false) :=
  can_do_compaction_iff (list_env true OLAPStatus.OLAP_SUCCESS)
    (mk_tablet [entry (mk_rowset 1 6 9), entry (mk_rowset 2 0 4)] []) (by decide)

/-- C24: `_capture_consistent_rowsets_unlocked(p, out)`, with `out` empty
before the call, returns OLAP_SUCCESS exactly when every version of `p` is a
key of the current map or of the stale map, and OLAP_ERR_CAPTURE_ROWSET_ERROR
otherwise; on success `out` is as long as `p`, and at each index it holds the
rowset of the current map for the version of `p` at that index if there is
one, else the rowset of the stale map. -/
theorem capture_consistent_rowsets_unlocked_spec {M K : Type} (t : Tablet M K)
    (p : List Version) :
    ((_capture_consistent_rowsets_unlocked t p []).1 = OLAPStatus.OLAP_SUCCESS ↔
        ∀ v ∈ p, v ∈ VersionMap.keys t._rs_version_map ∨
          v ∈ VersionMap.keys t._stale_rs_version_map) ∧
      ((_capture_consistent_rowsets_unlocked t p []).1 ≠ OLAPStatus.OLAP_SUCCESS →
        (_capture_consistent_rowsets_unlocked t p []).1 =
          OLAPStatus.OLAP_ERR_CAPTURE_ROWSET_ERROR) ∧
      ((_capture_consistent_rowsets_unlocked t p []).1 = OLAPStatus.OLAP_SUCCESS →
        (_capture_consistent_rowsets_unlocked t p []).2.length = p.length ∧
          ∀ (i : Nat) (v : Version), p[i]? = some v →
            ∃ rowset, (_capture_consistent_rowsets_unlocked t p []).2[i]? = some rowset ∧
              (VersionMap.find t._rs_version_map v).or
                (VersionMap.find t._stale_rs_version_map v) = some rowset) := by
  obtain ⟨h1, h2, h3⟩ := capture_consistent_rowsets_loop t p []
  refine ⟨?_, ?_, ?_⟩
  · rw [h2]
    refine forall_congr' (fun v => forall_congr' (fun _ => ?_))
    rw [← VersionMap.find_isSome_iff, ← VersionMap.find_isSome_iff]
    cases VersionMap.find t._rs_version_map v <;> simp
  · intro hne
    rcases h1 with h | h
    · exact absurd h hne
    · exact h
  · intro hs
    have hmap := h3 hs
    simp only [List.map_nil, List.nil_append] at hmap
    have hlen := congrArg List.length hmap
    simp only [List.length_map] at hlen
    refine ⟨hlen, ?_⟩
    intro i v hv
    have hi := congrArg (fun l => l[i]?) hmap
    simp only [List.getElem?_map, hv, Option.map_some'] at hi
    cases ho : (_capture_consistent_rowsets_unlocked t p []).2[i]? with
    | none => simp [ho] at hi
    | some rowset =>
      rw [ho] at hi
      simp only [Option.map_some', Option.some.injEq] at hi
      exact ⟨rowset, rfl, hi.symm⟩

/-- C24, at a concrete input: the path [5-5], [0-4], [7-7] over a current map
with [0-4] (rowset 1) and [7-7] (rowset 4) and a stale map with [5-5]
(rowset 2) and [7-7] (rowset 3) succeeds with the rowsets 2, 1, 4: the current
rowset of [7-7] is taken, not the stale one. -/
theorem capture_consistent_rowsets_unlocked_spec_witness :
    (_capture_consistent_rowsets_unlocked
        (mk_tablet [entry (mk_rowset 1 0 4), entry (mk_rowset 4 7 7)]
          [entry (mk_rowset 2 5 5), entry (mk_rowset 3 7 7)])
        [Version.mk 5 5, Version.mk 0 4, Version.mk 7 7] []).2 =
        [mk_rowset 2 5 5, mk_rowset 1 0 4, mk_rowset 4 7 7] ∧
      (_capture_consistent_rowsets_unlocked
        (mk_tablet [entry (mk_rowset 1 0 4), entry (mk_rowset 4 7 7)]
          [entry (mk_rowset 2 5 5), entry (mk_rowset 3 7 7)])
        [Version.mk 5 5, Version.mk 0 4, Version.mk 7 7] []).2.length = 3 :=
  ⟨by decide, ((capture_consistent_rowsets_unlocked_spec
    (mk_tablet [entry (mk_rowset 1 0 4), entry (mk_rowset 4 7 7)]
      [entry (mk_rowset 2 5 5), entry (mk_rowset 3 7 7)])
    [Version.mk 5 5, Version.mk 0 4, Version.mk 7 7]).2.2 (by decide)).1⟩

/-- C25: an `add_rowset` call that returns a status other than OLAP_SUCCESS
leaves the current map, the incremental map, the stale map and the counter of
newly created rowsets as they were before the call; the status is that of
`_contains_version` or that of `add_rs_meta` of tablet meta. -/
theorem add_rowset_failure_keeps_maps {M K : Type} (env : Env M K) (t t1 : Tablet M K)
    (rowset : Rowset) (need_persist : Bool) (status : OLAPStatus)
    (h : add_rowset env t rowset need_persist = Outcome.returned status t1)
    (h_status : status ≠ OLAPStatus.OLAP_SUCCESS) :
    t1._rs_version_map = t._rs_version_map ∧
      t1._inc_rs_version_map = t._inc_rs_version_map ∧
      t1._stale_rs_version_map = t._stale_rs_version_map ∧
      t1._newly_created_rowset_num = t._newly_created_rowset_num ∧
      (status = _contains_version t rowset.version ∨
        status = (env.tm.add_rs_meta t._tablet_meta rowset.rowset_meta).1) := by
  cases hu : t._updates with
  | some u => simp [add_rowset, hu] at h
  | none =>
    by_cases h_new : _contains_rowset t rowset.rowset_id = true
    · simp only [add_rowset, hu, h_new, Option.isSome_none, Bool.false_eq_true, if_false,
        if_true, Outcome.returned.injEq] at h
      exact absurd h.1.symm h_status
    · simp only [Bool.not_eq_true] at h_new
      rcases contains_version_cases t rowset.version with hv | hv
      · by_cases hm :
            (env.tm.add_rs_meta t._tablet_meta rowset.rowset_meta).1 = OLAPStatus.OLAP_SUCCESS
        · have hins := add_rowset_inserted env t rowset need_persist hu h_new hv hm
          rw [h] at hins
          rcases hins.1 with hval | hval
          · simp only [Outcome.value, Option.some.injEq] at hval
            exact absurd hval h_status
          · simp [Outcome.value] at hval
        · simp only [add_rowset, hu, h_new, hv, hm, Option.isSome_none, Bool.false_eq_true,
            if_false, ne_eq, not_true_eq_false, not_false_eq_true, if_true,
            Outcome.returned.injEq] at h
          obtain ⟨hst, ht⟩ := h
          subst ht
          exact ⟨rfl, rfl, rfl, rfl, Or.inr hst.symm⟩
      · simp only [add_rowset, hu, h_new, hv, Option.isSome_none, Bool.false_eq_true,
          if_false, ne_eq, reduceCtorEq, not_false_eq_true, if_true,
          Outcome.returned.injEq] at h
        obtain ⟨hst, ht⟩ := h
        subst ht
        exact ⟨rfl, rfl, rfl, rfl, Or.inl (hst.symm.trans hv.symm)⟩

/-- C25, at a concrete input: [2-3] is offered to a tablet whose current map
holds [0-4]; the call returns OLAP_ERR_PUSH_VERSION_ALREADY_EXIST and the
current map of the state it leaves is that of before. -/
theorem add_rowset_failure_keeps_maps_witness :
    (add_rowset (list_env true OLAPStatus.OLAP_SUCCESS)
        (mk_tablet [entry (mk_rowset 1 0 4)] [entry (mk_rowset 2 0 1)]) (mk_rowset 3 2 3)
        true).value = some OLAPStatus.OLAP_ERR_PUSH_VERSION_ALREADY_EXIST ∧
      (add_rowset (list_env true OLAPStatus.OLAP_SUCCESS)
        (mk_tablet [entry (mk_rowset 1 0 4)] [entry (mk_rowset 2 0 1)]) (mk_rowset 3 2 3)
        true).state._rs_version_map =
        (mk_tablet [entry (mk_rowset 1 0 4)] [entry (mk_rowset 2 0 1)])._rs_version_map :=
  ⟨by decide, (add_rowset_failure_keeps_maps (list_env true OLAPStatus.OLAP_SUCCESS)
    (mk_tablet [entry (mk_rowset 1 0 4)] [entry (mk_rowset 2 0 1)])
    (add_rowset (list_env true OLAPStatus.OLAP_SUCCESS)
      (mk_tablet [entry (mk_rowset 1 0 4)] [entry (mk_rowset 2 0 1)]) (mk_rowset 3 2 3)
      true).state (mk_rowset 3 2 3) true
    OLAPStatus.OLAP_ERR_PUSH_VERSION_ALREADY_EXIST (by rfl) (by decide)).1⟩

/-- C29: the tracker is a separate object and
`calc_missed_versions_unlocked` reads tablet meta only, so in
`delete_expired_stale_rowset` the missed versions computed after the recovery
are those computed before the tentative removal and `is_missng` is false: the
branch after a failed check recovers once and returns.  In every state the
sweep leaves, the message "rowset stale unconsistent delete" was not logged
and `recover_versioned_tracker` was called at most once; the process is ended
only where tablet meta cannot be saved, after a sweep without recovery. -/
theorem sweep_recovery_check_never_fires {M K : Type} (env : Env M K) (cfg : Config) (now : Int)
    (t : Tablet M K) (out : Outcome Unit (Sweep M K))
    (h : delete_expired_stale_rowset env cfg now t = some out) :
    (∀ (lastest_delta : Rowset) (s : Sweep M K) (stale_version_path_map : PathMap),
        missed_versions_differ
            (calc_missed_versions_unlocked env.tm s.tablet lastest_delta.end_version)
            (calc_missed_versions_unlocked env.tm
              (sweep_recover_tracker env.vt s stale_version_path_map).tablet
              lastest_delta.end_version) = false ∧
          sweep_recover env cfg
              (calc_missed_versions_unlocked env.tm s.tablet lastest_delta.end_version)
              lastest_delta s stale_version_path_map =
            Outcome.returned () (sweep_recover_tracker env.vt s stale_version_path_map)) ∧
      out.state.unconsistent_delete_warned = false ∧
      out.state.recover_calls.length ≤ 1 ∧
      (out.value = none →
        out.state.recover_calls = [] ∧
          env.tm.save_meta out.state.tablet._tablet_meta ≠ OLAPStatus.OLAP_SUCCESS) := by
  refine ⟨fun lastest_delta s m => ⟨?_, sweep_recover_returns env cfg lastest_delta s m⟩, ?_⟩
  · rw [calc_missed_versions_unlocked_recover]
    exact missed_versions_differ_self _
  · unfold delete_expired_stale_rowset at h
    simp only [] at h
    split at h
    · simp only [Option.some.injEq] at h
      subst h
      simp [Outcome.state, Outcome.value]
    · split at h
      · simp only [Option.some.injEq] at h
        subst h
        simp [Outcome.state, Outcome.value]
      · split at h
        · exact absurd h (by simp)
        · simp only [Option.some.injEq] at h
          subst h
          simp [Outcome.state, Outcome.value]
        · rename_i lastest_delta _
          split at h
          · rename_i tracker stale_version_path_map _
            have hr := sweep_recover_returns env cfg lastest_delta
              ({ tablet := { t with _timestamped_version_tracker := tracker }
                 unused_rowsets := []
                 recover_calls := []
                 unconsistent_delete_warned := false } : Sweep M K) stale_version_path_map
            rw [show sweep_recover env cfg
                (calc_missed_versions_unlocked env.tm t lastest_delta.end_version) lastest_delta
                ({ tablet := { t with _timestamped_version_tracker := tracker }
                   unused_rowsets := []
                   recover_calls := []
                   unconsistent_delete_warned := false } : Sweep M K) stale_version_path_map =
                _ from hr] at h
            simp only [Option.some.injEq] at h
            subst h
            simp [Outcome.state, Outcome.value, sweep_recover_tracker]
          · rename_i tracker stale_version_path_map _
            obtain ⟨_, _, _, s4⟩ := sweep_delete_paths_spec env.tm
              ({ tablet := { t with _timestamped_version_tracker := tracker }
                 unused_rowsets := []
                 recover_calls := []
                 unconsistent_delete_warned := false } : Sweep M K) stale_version_path_map
            have s5 := sweep_delete_paths_warned env.tm
              ({ tablet := { t with _timestamped_version_tracker := tracker }
                 unused_rowsets := []
                 recover_calls := []
                 unconsistent_delete_warned := false } : Sweep M K) stale_version_path_map
            split at h
            · rename_i hsave
              simp only [Option.some.injEq] at h
              subst h
              simp only [Outcome.state, Outcome.value]
              exact ⟨s5, by rw [s4]; simp, fun _ => ⟨s4, hsave⟩⟩
            · simp only [Option.some.injEq] at h
              subst h
              simp only [Outcome.state, Outcome.value]
              exact ⟨s5, by rw [s4]; simp, fun hn => absurd hn (by simp)⟩

/-- C29, at a concrete input: the stale rowsets [0-2] and [3-4] form one
expired path and the capture fails with `ignore_rowset_stale_unconsistent_delete`
false; the sweep recovers the path once and returns. -/
theorem sweep_recovery_check_never_fires_witness :
    ∃ out, delete_expired_stale_rowset (path_env (OLAPStatus.other (-1)))
        (Config.mk 1800 false) 5000
        (mk_sweep_tablet [entry (mk_rowset 3 0 4)]
          [entry (mk_rowset 1 0 2), entry (mk_rowset 2 3 4)]
          [(1, mk_path [Version.mk 0 2, Version.mk 3 4])]) = some out ∧
      out.value = some () ∧
      out.state.unconsistent_delete_warned = false ∧
      out.state.recover_calls.length ≤ 1 :=
  ⟨_, rfl, by decide, (sweep_recovery_check_never_fires (path_env (OLAPStatus.other (-1)))
    (Config.mk 1800 false) 5000
    (mk_sweep_tablet [entry (mk_rowset 3 0 4)]
      [entry (mk_rowset 1 0 2), entry (mk_rowset 2 3 4)]
      [(1, mk_path [Version.mk 0 2, Version.mk 3 4])]) _ rfl).2.1,
    (sweep_recovery_check_never_fires (path_env (OLAPStatus.other (-1)))
    (Config.mk 1800 false) 5000
    (mk_sweep_tablet [entry (mk_rowset 3 0 4)]
      [entry (mk_rowset 1 0 2), entry (mk_rowset 2 3 4)]
      [(1, mk_path [Version.mk 0 2, Version.mk 3 4])]) _ rfl).2.2.1⟩

/-- C30: the code goes on after the failed save.  On a non-updatable tablet
whose current map holds [0-4] (rowset 1) and [5-5] and whose incremental map
holds [5-5], with collaborators whose `save_meta` fails,
`revise_tablet_meta` with the version [0-4] to delete and the rowset meta of
rowset 7, of version [0-4], to clone, where the rowset can be created, returns
OLAP_SUCCESS, has put rowset 7 in the place of rowset 1 in the current map and
has emptied the incremental map, and tablet meta is the one of before; with
nothing to clone it returns the status of `save_meta`, and [0-4] has left the
current map all the same. -/
theorem revise_tablet_meta_goes_on_after_failed_save :
    (∀ m, unsaved_env.tm.save_meta m ≠ OLAPStatus.OLAP_SUCCESS) ∧
      (∃ r, revise_tablet_meta unsaved_env (fun _ => OLAPStatus.OLAP_SUCCESS)
          { mk_tablet [entry (mk_rowset 1 0 4), entry (mk_rowset 2 5 5)] [] with
            _inc_rs_version_map := [entry (mk_rowset 2 5 5)] }
          [(mk_rowset 7 0 4).rowset_meta] [Version.mk 0 4] = some r ∧
        r.1 = OLAPStatus.OLAP_SUCCESS ∧
        r.2.tablet._rs_version_map = [entry (mk_rowset 7 0 4), entry (mk_rowset 2 5 5)] ∧
        r.2.tablet._inc_rs_version_map = [] ∧
        r.2.tablet._tablet_meta = [(mk_rowset 1 0 4).rowset_meta, (mk_rowset 2 5 5).rowset_meta] ∧
        r.2.unused_rowsets = [mk_rowset 1 0 4, mk_rowset 2 5 5]) ∧
      (∃ r, revise_tablet_meta unsaved_env (fun _ => OLAPStatus.OLAP_SUCCESS)
          { mk_tablet [entry (mk_rowset 1 0 4), entry (mk_rowset 2 5 5)] [] with
            _inc_rs_version_map := [entry (mk_rowset 2 5 5)] }
          [] [Version.mk 0 4] = some r ∧
        r.1 = OLAPStatus.other (-1) ∧
        r.2.tablet._rs_version_map = [entry (mk_rowset 2 5 5)] ∧
        r.2.tablet._inc_rs_version_map = []) :=
  ⟨fun _ h => OLAPStatus.noConfusion h, ⟨_, rfl, by decide, by decide, by decide, by decide, by decide⟩,
    ⟨_, rfl, by decide, by decide, by decide⟩⟩

/-- C26: on a non-updatable tablet whose rowset versions are well formed and
pairwise non-overlapping, with one starting at 0, and for every
`spec_version`, those greater than 0 among them:
`calc_missed_versions_unlocked(spec_version)` emits nothing exactly when the
end of `_max_continuous_version_from_beginning_unlocked()` is at least
`spec_version`. -/
theorem calc_missed_versions_empty_iff_max_continuous {M K : Type} (tm : TabletMetaApi M)
    (t : Tablet M K) (spec_version : Int) (h_upd : t._updates = none)
    (h_wf : ∀ rs ∈ tm.all_rs_metas t._tablet_meta, rs.version.wellFormed)
    (h_pair : (tm.all_rs_metas t._tablet_meta).Pairwise
      (fun a b => ¬ a.version.overlaps b.version))
    (h_zero : ∃ rs ∈ tm.all_rs_metas t._tablet_meta, rs.version.first = 0) :
    calc_missed_versions_unlocked tm t spec_version = [] ↔
      (_max_continuous_version_from_beginning_unlocked tm t).second ≥ spec_version :=
  calc_missed_versions_unlocked_eq_nil_iff tm t spec_version h_upd h_wf h_pair h_zero

/-- C26, at a concrete input: the rowsets [8-9], [5-5] and [0-4]; the max
continuous version is [5-5], so nothing is missed up to 5, and [6-6] and
[7-7] are missed up to 9. -/
theorem calc_missed_versions_empty_iff_max_continuous_witness :
    _max_continuous_version_from_beginning_unlocked list_tablet_meta
        (mk_tablet [entry (mk_rowset 1 8 9), entry (mk_rowset 2 5 5), entry (mk_rowset 3 0 4)]
          []) = Version.mk 5 5 ∧
      calc_missed_versions_unlocked list_tablet_meta
        (mk_tablet [entry (mk_rowset 1 8 9), entry (mk_rowset 2 5 5), entry (mk_rowset 3 0 4)]
          []) 5 = [] ∧
      calc_missed_versions_unlocked list_tablet_meta
        (mk_tablet [entry (mk_rowset 1 8 9), entry (mk_rowset 2 5 5), entry (mk_rowset 3 0 4)]
          []) 9 ≠ [] :=
  ⟨by decide,
    (calc_missed_versions_empty_iff_max_continuous list_tablet_meta
      (mk_tablet [entry (mk_rowset 1 8 9), entry (mk_rowset 2 5 5), entry (mk_rowset 3 0 4)] [])
      5 rfl (by decide) (by decide) (by decide)).2 (by decide),
    by decide⟩

/-- C27: for a tablet meta whose rowset versions are well formed and pairwise
non-overlapping and a cumulative point that is not set, with `p` the point
that `calculate_cumulative_point` leaves: every rowset meta that starts before
`p` has no overlapping segments and is no singleton delta or has a delete
predicate, and every position of [0, p - 1] is covered by a rowset meta that
starts before `p`. -/
theorem calculate_cumulative_point_base_side {M K : Type} (tm : TabletMetaApi M)
    (t : Tablet M K) (h_unset : t._cumulative_point = kInvalidCumulativePoint)
    (h_wf : ∀ rs ∈ tm.all_rs_metas t._tablet_meta, rs.version.wellFormed)
    (h_pair : (tm.all_rs_metas t._tablet_meta).Pairwise
      (fun a b => ¬ a.version.overlaps b.version)) :
    (∀ rs ∈ tm.all_rs_metas t._tablet_meta,
        rs.version.first < (calculate_cumulative_point tm t)._cumulative_point →
          rs.is_segments_overlapping = false ∧
            (rs.is_singleton_delta = false ∨
              tm.version_for_delete_predicate t._tablet_meta rs.version = true)) ∧
      (∀ v : Int, 0 ≤ v → v < (calculate_cumulative_point tm t)._cumulative_point →
        ∃ rs ∈ tm.all_rs_metas t._tablet_meta,
          rs.version.first < (calculate_cumulative_point tm t)._cumulative_point ∧
            rs.version.covers v) := by
  have hasc := insertionSort_ascending_disjoint RowsetMeta.version
    (tm.all_rs_metas t._tablet_meta) h_wf h_pair
  have hperm : (sort_existing_rss (tm.all_rs_metas t._tablet_meta)).Perm
      (tm.all_rs_metas t._tablet_meta) := List.perm_insertionSort _ _
  have to_meta : ∀ x ∈ sort_existing_rss (tm.all_rs_metas t._tablet_meta),
      x ∈ tm.all_rs_metas t._tablet_meta := fun x hx => hperm.subset hx
  have of_meta : ∀ x ∈ tm.all_rs_metas t._tablet_meta,
      x ∈ sort_existing_rss (tm.all_rs_metas t._tablet_meta) :=
    fun x hx => hperm.symm.subset hx
  change ascending_disjoint ((sort_existing_rss _).map RowsetMeta.version) at hasc
  have hp : (calculate_cumulative_point tm t)._cumulative_point =
      calculate_cumulative_point_loop (tm.version_for_delete_predicate t._tablet_meta)
        (sort_existing_rss (tm.all_rs_metas t._tablet_meta)) (-1) (-1) := by
    simp [calculate_cumulative_point, h_unset, kInvalidCumulativePoint]
  rw [hp]
  have hcompacted : ∀ rs : RowsetMeta,
      stops_cumulative_point (tm.version_for_delete_predicate t._tablet_meta) rs = false →
        rs.is_segments_overlapping = false ∧
          (rs.is_singleton_delta = false ∨
            tm.version_for_delete_predicate t._tablet_meta rs.version = true) := by
    intro rs hrs
    unfold stops_cumulative_point at hrs
    cases h1 : rs.is_segments_overlapping <;> cases h2 : rs.is_singleton_delta <;>
      cases h3 : tm.version_for_delete_predicate t._tablet_meta rs.version <;>
      simp [h1, h2, h3] at hrs ⊢
  generalize sort_existing_rss (tm.all_rs_metas t._tablet_meta) = l at hasc to_meta of_meta
  cases l with
  | nil =>
    constructor
    · intro rs hrs
      have := of_meta rs hrs
      simp at this
    · intro v h0 hv
      simp only [calculate_cumulative_point_loop] at hv
      omega
  | cons x rest =>
    have hpw := List.pairwise_cons.1 (List.pairwise_map.1 hasc.1)
    have hxwf : x.version.first ≤ x.version.second := hasc.2 x.version (by simp)
    have hrest : ascending_disjoint (rest.map RowsetMeta.version) :=
      ⟨List.pairwise_map.2 hpw.2, fun y hy => hasc.2 y (by
        rw [List.map_cons]; exact List.mem_cons_of_mem _ hy)⟩
    have hfirst : ∀ rs ∈ tm.all_rs_metas t._tablet_meta, x.version.first ≤ rs.version.first := by
      intro rs hrs
      rcases List.mem_cons.1 (of_meta rs hrs) with e | hy
      · rw [e]
      · have := hpw.1 rs hy
        omega
    unfold calculate_cumulative_point_loop
    by_cases hgap : x.version.first > -1 + 1
    · rw [if_pos hgap]
      constructor
      · intro rs hrs hlt
        have := hfirst rs hrs
        omega
      · intro v h0 hv
        omega
    · rw [if_neg hgap]
      by_cases hstop :
          stops_cumulative_point (tm.version_for_delete_predicate t._tablet_meta) x = true
      · have hstop' := hstop
        unfold stops_cumulative_point at hstop'
        rw [if_pos hstop']
        constructor
        · intro rs hrs hlt
          have := hfirst rs hrs
          omega
        · intro v h0 hv
          omega
      · have hstop' := hstop
        unfold stops_cumulative_point at hstop'
        rw [if_neg hstop']
        obtain ⟨h1, h2, h3⟩ := calculate_cumulative_point_loop_base
          (tm.version_for_delete_predicate t._tablet_meta) rest x.version.second
          (x.version.second + 1) hrest (fun y hy => hpw.1 y hy) (le_refl _)
        constructor
        · intro rs hrs hlt
          apply hcompacted
          rcases List.mem_cons.1 (of_meta rs hrs) with e | hy
          · rw [e]
            simpa using hstop
          · exact h2 rs hy hlt
        · intro v h0 hv
          by_cases hvx : v ≤ x.version.second
          · exact ⟨x, to_meta x (List.mem_cons_self _ _), by omega,
              by unfold Version.covers; omega⟩
          · obtain ⟨y, hy, hlt, hc⟩ := h3 v (by omega) hv
            exact ⟨y, to_meta y (List.mem_cons_of_mem _ hy), hlt, hc⟩

/-- C27, at a concrete input: [0-4], then [5-6], then the singleton [7-7]
without delete predicate; the point is 7, and [5-6], which starts before it,
has no overlapping segments and is no singleton delta. -/
theorem calculate_cumulative_point_base_side_witness :
    (calculate_cumulative_point list_tablet_meta
        (mk_tablet [entry (mk_rowset 3 7 7), entry (mk_rowset 2 5 6), entry (mk_rowset 1 0 4)]
          []))._cumulative_point = 7 ∧
      ((mk_rowset 2 5 6).rowset_meta.is_segments_overlapping = false ∧
        ((mk_rowset 2 5 6).rowset_meta.is_singleton_delta = false ∨
          list_tablet_meta.version_for_delete_predicate
            (mk_tablet [entry (mk_rowset 3 7 7), entry (mk_rowset 2 5 6),
              entry (mk_rowset 1 0 4)] [])._tablet_meta
            (mk_rowset 2 5 6).rowset_meta.version = true)) :=
  ⟨by decide, (calculate_cumulative_point_base_side list_tablet_meta
    (mk_tablet [entry (mk_rowset 3 7 7), entry (mk_rowset 2 5 6), entry (mk_rowset 1 0 4)] [])
    rfl (by decide) (by decide)).1 (mk_rowset 2 5 6).rowset_meta (by decide) (by decide)⟩

/-- C28: for a tablet meta whose rowset versions are well formed, not negative
and pairwise non-overlapping and a cumulative point that is not set: after
`calculate_cumulative_point` the point is `kInvalidCumulativePoint` exactly
when no rowset meta starts at version 0; and when one does, the point is at
least 0 and at most `b + 1` for every bound `b` of the end versions, the
largest end version among them. -/
theorem calculate_cumulative_point_unset_iff {M K : Type} (tm : TabletMetaApi M)
    (t : Tablet M K) (h_unset : t._cumulative_point = kInvalidCumulativePoint)
    (h_wf : ∀ rs ∈ tm.all_rs_metas t._tablet_meta, rs.version.wellFormed)
    (h_nonneg : ∀ rs ∈ tm.all_rs_metas t._tablet_meta, 0 ≤ rs.version.first)
    (h_pair : (tm.all_rs_metas t._tablet_meta).Pairwise
      (fun a b => ¬ a.version.overlaps b.version)) :
    ((calculate_cumulative_point tm t)._cumulative_point = kInvalidCumulativePoint ↔
        ∀ rs ∈ tm.all_rs_metas t._tablet_meta, rs.version.first ≠ 0) ∧
      ((∃ rs ∈ tm.all_rs_metas t._tablet_meta, rs.version.first = 0) →
        0 ≤ (calculate_cumulative_point tm t)._cumulative_point ∧
          ∀ b : Int, (∀ rs ∈ tm.all_rs_metas t._tablet_meta, rs.version.second ≤ b) →
            (calculate_cumulative_point tm t)._cumulative_point ≤ b + 1) := by
  have hasc := insertionSort_ascending_disjoint RowsetMeta.version
    (tm.all_rs_metas t._tablet_meta) h_wf h_pair
  have hperm : (sort_existing_rss (tm.all_rs_metas t._tablet_meta)).Perm
      (tm.all_rs_metas t._tablet_meta) := List.perm_insertionSort _ _
  have to_meta : ∀ x ∈ sort_existing_rss (tm.all_rs_metas t._tablet_meta),
      x ∈ tm.all_rs_metas t._tablet_meta := fun x hx => hperm.subset hx
  have of_meta : ∀ x ∈ tm.all_rs_metas t._tablet_meta,
      x ∈ sort_existing_rss (tm.all_rs_metas t._tablet_meta) :=
    fun x hx => hperm.symm.subset hx
  change ascending_disjoint ((sort_existing_rss _).map RowsetMeta.version) at hasc
  have hp : (calculate_cumulative_point tm t)._cumulative_point =
      calculate_cumulative_point_loop (tm.version_for_delete_predicate t._tablet_meta)
        (sort_existing_rss (tm.all_rs_metas t._tablet_meta)) (-1) (-1) := by
    simp [calculate_cumulative_point, h_unset, kInvalidCumulativePoint]
  rw [hp]
  unfold kInvalidCumulativePoint
  have hres := calculate_cumulative_point_loop_result
    (tm.version_for_delete_predicate t._tablet_meta)
    (sort_existing_rss (tm.all_rs_metas t._tablet_meta)) (-1) (-1)
  -- a rowset starting at 0 is at the head of the sorted rowsets
  have hhead : (∃ rs ∈ tm.all_rs_metas t._tablet_meta, rs.version.first = 0) →
      ∃ x ∈ (sort_existing_rss (tm.all_rs_metas t._tablet_meta)).head?,
        x.version.first = 0 := by
    rintro ⟨rs, hrs, h0⟩
    have hrs' := of_meta rs hrs
    generalize sort_existing_rss (tm.all_rs_metas t._tablet_meta) = l at hasc to_meta hrs'
    cases l with
    | nil => simp at hrs'
    | cons x rest =>
      have hpw := List.pairwise_cons.1 (List.pairwise_map.1 hasc.1)
      have hxwf : x.version.first ≤ x.version.second := hasc.2 x.version (by simp)
      have hx0 := h_nonneg x (to_meta x (List.mem_cons_self _ _))
      refine ⟨x, by simp, ?_⟩
      rcases List.mem_cons.1 hrs' with e | hy
      · rw [← e]; exact h0
      · have := hpw.1 rs hy
        omega
  have hbounds : ∀ rs ∈ sort_existing_rss (tm.all_rs_metas t._tablet_meta),
      0 ≤ rs.version.first ∧ rs.version.first ≤ rs.version.second :=
    fun rs hrs => ⟨h_nonneg rs (to_meta rs hrs), h_wf rs (to_meta rs hrs)⟩
  constructor
  · constructor
    · intro hpoint rs hrs h0
      obtain ⟨x, hx, hx0⟩ := hhead ⟨rs, hrs, h0⟩
      rcases hres with ⟨_, hgap⟩ | ⟨rs1, hrs1, heq⟩
      · have := hgap x hx
        omega
      · have := hbounds rs1 hrs1
        rcases heq with h | h <;> rw [h] at hpoint <;> omega
    · intro hnone
      rcases hres with ⟨heq, _⟩ | ⟨rs1, hrs1, heq⟩
      · exact heq
      · exfalso
        generalize sort_existing_rss (tm.all_rs_metas t._tablet_meta) = l
          at hasc to_meta hrs1 heq hbounds
        cases l with
        | nil => simp at hrs1
        | cons x rest =>
          have hx0 := (hbounds x (List.mem_cons_self _ _)).1
          have hxne := hnone x (to_meta x (List.mem_cons_self _ _))
          have hgap : x.version.first > -1 + 1 := by omega
          unfold calculate_cumulative_point_loop at heq
          rw [if_pos hgap] at heq
          have := hbounds rs1 hrs1
          rcases heq with h | h <;> omega
  · intro hzero
    obtain ⟨x, hx, hx0⟩ := hhead hzero
    rcases hres with ⟨_, hgap⟩ | ⟨rs1, hrs1, heq⟩
    · have := hgap x hx
      omega
    · have hb := hbounds rs1 hrs1
      refine ⟨by rcases heq with h | h <;> rw [h] <;> omega, ?_⟩
      intro b hbound
      have := hbound rs1 (to_meta rs1 hrs1)
      rcases heq with h | h <;> rw [h] <;> omega

/-- C28, at a concrete input: the rowsets [0-4] and [5-5] give the point 5,
which is at most 5 + 1; the rowsets [1-4] and [5-5] leave the point unset. -/
theorem calculate_cumulative_point_unset_iff_witness :
    (calculate_cumulative_point list_tablet_meta
        (mk_tablet [entry (mk_rowset 1 1 4), entry (mk_rowset 2 5 5)] []))._cumulative_point =
        kInvalidCumulativePoint ∧
      (0 ≤ (calculate_cumulative_point list_tablet_meta
          (mk_tablet [entry (mk_rowset 1 0 4), entry (mk_rowset 2 5 5)] []))._cumulative_point ∧
        (calculate_cumulative_point list_tablet_meta
          (mk_tablet [entry (mk_rowset 1 0 4), entry (mk_rowset 2 5 5)] []))._cumulative_point ≤
          5 + 1) :=
  ⟨(calculate_cumulative_point_unset_iff list_tablet_meta
      (mk_tablet [entry (mk_rowset 1 1 4), entry (mk_rowset 2 5 5)] []) rfl (by decide)
      (by decide) (by decide)).1.2 (by decide),
    ((calculate_cumulative_point_unset_iff list_tablet_meta
      (mk_tablet [entry (mk_rowset 1 0 4), entry (mk_rowset 2 5 5)] []) rfl (by decide)
      (by decide) (by decide)).2 (by decide)).1,
    ((calculate_cumulative_point_unset_iff list_tablet_meta
      (mk_tablet [entry (mk_rowset 1 0 4), entry (mk_rowset 2 5 5)] []) rfl (by decide)
      (by decide) (by decide)).2 (by decide)).2 5 (by decide)⟩

/-- C22, as stated, fails: the non-updatable tablet whose tablet meta and
current map hold the one rowset [1-5].  The max continuous version is [1-5],
that of the max version rowset, so `build_tablet_report_info` does not set
`version_miss`; yet position 0 of [0, 5] is covered by no rowset version and
`calc_missed_versions_unlocked(5)` emits [0-0]. -/
theorem build_tablet_report_info_counterexample :
    (mk_tablet [entry (mk_rowset 1 1 5)] [])._updates = none ∧
      (∀ rs ∈ list_tablet_meta.all_rs_metas (mk_tablet [entry (mk_rowset 1 1 5)] [])._tablet_meta,
        ∃ rowset, VersionMap.find (mk_tablet [entry (mk_rowset 1 1 5)] [])._rs_version_map
          rs.version = some rowset ∧ rowset.version = rs.version) ∧
      build_tablet_report_info list_tablet_meta (mk_tablet [entry (mk_rowset 1 1 5)] []) true
          (TTabletInfo.mk none none none none) =
        some (TTabletInfo.mk none none (some 5) (some 0)) ∧
      (0 ≤ (0 : Int) ∧ (0 : Int) ≤ 5 ∧
        ∀ rs ∈ list_tablet_meta.all_rs_metas
          (mk_tablet [entry (mk_rowset 1 1 5)] [])._tablet_meta, ¬ rs.version.covers 0) ∧
      calc_missed_versions_unlocked list_tablet_meta (mk_tablet [entry (mk_rowset 1 1 5)] []) 5 =
        [Version.mk 0 0] := by
  refine ⟨rfl, by decide, by decide, ⟨by decide, by decide, ?_⟩, by decide⟩
  intro rs hrs hc
  have hrs' : rs = (mk_rowset 1 1 5).rowset_meta := by
    simpa [list_tablet_meta, mk_tablet, entry] using hrs
  rw [hrs'] at hc
  unfold Version.covers at hc
  simp [mk_rowset] at hc

/-- C22, amended: on a non-updatable tablet whose rowset versions are well
formed, not negative and pairwise non-overlapping, with one starting at 0,
each the key of a rowset of that version in the current map, and with the max
version of tablet meta a rowset version of largest end:
`build_tablet_report_info` returns; a position of [0, largest end] is covered
by no rowset version exactly when `calc_missed_versions_unlocked(largest end)`
emits a version; when there is such a position `version_miss` is set to true,
and when there is none `version_miss` is left as it was. -/
theorem build_tablet_report_info_version_miss {M K : Type} (tm : TabletMetaApi M)
    (t : Tablet M K) (tablet_state_running : Bool) (tablet_info : TTabletInfo)
    (h_upd : t._updates = none)
    (h_wf : ∀ rs ∈ tm.all_rs_metas t._tablet_meta, rs.version.wellFormed)
    (h_nonneg : ∀ rs ∈ tm.all_rs_metas t._tablet_meta, 0 ≤ rs.version.first)
    (h_pair : (tm.all_rs_metas t._tablet_meta).Pairwise
      (fun a b => ¬ a.version.overlaps b.version))
    (h_zero : ∃ rs ∈ tm.all_rs_metas t._tablet_meta, rs.version.first = 0)
    (h_mirror : ∀ rs ∈ tm.all_rs_metas t._tablet_meta,
      ∃ rowset, VersionMap.find t._rs_version_map rs.version = some rowset ∧
        rowset.version = rs.version)
    (h_max : ∃ rs ∈ tm.all_rs_metas t._tablet_meta, rs.version = tm.max_version t._tablet_meta)
    (h_largest : ∀ rs ∈ tm.all_rs_metas t._tablet_meta,
      rs.version.second ≤ (tm.max_version t._tablet_meta).second) :
    ∃ info, build_tablet_report_info tm t tablet_state_running tablet_info = some info ∧
      ((∃ v : Int, 0 ≤ v ∧ v ≤ (tm.max_version t._tablet_meta).second ∧
          ∀ rs ∈ tm.all_rs_metas t._tablet_meta, ¬ rs.version.covers v) ↔
        calc_missed_versions_unlocked tm t (tm.max_version t._tablet_meta).second ≠ []) ∧
      ((∃ v : Int, 0 ≤ v ∧ v ≤ (tm.max_version t._tablet_meta).second ∧
          ∀ rs ∈ tm.all_rs_metas t._tablet_meta, ¬ rs.version.covers v) →
        info.version_miss = some true) ∧
      ((¬ ∃ v : Int, 0 ≤ v ∧ v ≤ (tm.max_version t._tablet_meta).second ∧
          ∀ rs ∈ tm.all_rs_metas t._tablet_meta, ¬ rs.version.covers v) →
        info.version_miss = tablet_info.version_miss) := by
  obtain ⟨rs_m, hrs_m, hm⟩ := h_max
  obtain ⟨max_rowset, hfind, hver⟩ := h_mirror rs_m hrs_m
  rw [hm] at hfind hver
  obtain ⟨rs_r, hrs_r, hr⟩ := max_continuous_version_is_rowset_version tm t h_upd h_wf h_pair
    h_zero
  have hgap := calc_missed_versions_unlocked_ne_nil_iff tm t
    (tm.max_version t._tablet_meta).second h_wf h_nonneg h_pair h_largest
  have hnil := calc_missed_versions_unlocked_eq_nil_iff tm t
    (tm.max_version t._tablet_meta).second h_upd h_wf h_pair h_zero
  have hdis : ∀ a ∈ tm.all_rs_metas t._tablet_meta, ∀ b ∈ tm.all_rs_metas t._tablet_meta,
      a ≠ b → ¬ a.version.overlaps b.version :=
    List.Pairwise.forall (R := fun a b : RowsetMeta => ¬ a.version.overlaps b.version)
      (fun _ _ h hba => h (Version.overlaps_symm hba)) h_pair
  -- the max version rowset is the rowset of the max continuous version exactly when
  -- the max continuous version reaches the largest end
  have hsame : max_rowset.version = _max_continuous_version_from_beginning_unlocked tm t ↔
      (tm.max_version t._tablet_meta).second ≤
        (_max_continuous_version_from_beginning_unlocked tm t).second := by
    rw [hver]
    constructor
    · intro h
      rw [h]
    · intro hle
      have h1 := h_largest rs_r hrs_r
      have hwr := h_wf rs_r hrs_r
      have hwm := h_wf rs_m hrs_m
      unfold Version.wellFormed at hwr hwm
      rw [hr] at h1
      have heq : rs_m = rs_r := by
        by_contra hne
        apply hdis rs_m hrs_m rs_r hrs_r hne
        unfold Version.overlaps
        rw [hm, hr]
        rw [hm] at hwm
        rw [hr] at hwr
        omega
      rw [← hm, heq, hr]
  have hmax_first : (tm.max_version t._tablet_meta).first ≠ -1 := by
    have := h_nonneg rs_m hrs_m
    rw [hm] at this
    omega
  have hrmv : rowset_with_max_version tm t = some (some max_rowset) := by
    simp [rowset_with_max_version, hmax_first, h_upd, hfind]
  have hinfo : build_tablet_report_info tm t tablet_state_running tablet_info =
      some { (if max_rowset.version ≠ _max_continuous_version_from_beginning_unlocked tm t then
            { tablet_info with version_miss := some true }
          else tablet_info) with
        version := some (_max_continuous_version_from_beginning_unlocked tm t).second
        version_hash := some 0 } := by
    simp only [build_tablet_report_info, h_upd, hrmv]
  refine ⟨_, hinfo, hgap.symm, ?_, ?_⟩
  · intro hex
    have hne := hgap.2 hex
    have hnot : max_rowset.version ≠ _max_continuous_version_from_beginning_unlocked tm t :=
      fun h => hne (hnil.2 (hsame.1 h))
    simp only [hnot, ne_eq, not_false_eq_true, if_true]
  · intro hnex
    have heq : max_rowset.version = _max_continuous_version_from_beginning_unlocked tm t := by
      apply hsame.2
      apply hnil.1
      by_contra hne
      exact hnex (hgap.1 hne)
    simp only [heq, ne_eq, not_true_eq_false, if_false]

/-- C22 amended, at a concrete input: the rowsets [0-4] and [6-9]; position 5
of [0, 9] is covered by none, `calc_missed_versions_unlocked(9)` emits [5-5],
and `version_miss` is set. -/
theorem build_tablet_report_info_version_miss_witness :
    build_tablet_report_info list_tablet_meta
        (mk_tablet [entry (mk_rowset 1 0 4), entry (mk_rowset 2 6 9)] []) true
        (TTabletInfo.mk none none none none) =
        some (TTabletInfo.mk (some true) none (some 4) (some 0)) ∧
      ∃ info, build_tablet_report_info list_tablet_meta
          (mk_tablet [entry (mk_rowset 1 0 4), entry (mk_rowset 2 6 9)] []) true
          (TTabletInfo.mk none none none none) = some info ∧
        (calc_missed_versions_unlocked list_tablet_meta
            (mk_tablet [entry (mk_rowset 1 0 4), entry (mk_rowset 2 6 9)] []) 9 ≠ [] →
          info.version_miss = some true) := by
  obtain ⟨info, h1, h2, h3, _⟩ := build_tablet_report_info_version_miss list_tablet_meta
    (mk_tablet [entry (mk_rowset 1 0 4), entry (mk_rowset 2 6 9)] []) true
    (TTabletInfo.mk none none none none) rfl (by decide) (by decide) (by decide) (by decide)
    (by decide) (by decide) (by decide)
  exact ⟨by decide, info, h1, fun hne => h3 (h2.2 hne)⟩

end starrocks
